import Mathlib

/-! Model generations (branches) of `state/modelgeneration.go`.

A shallow embedding of the branch document, the conditional writes the
operations propose, the transaction runner's retry loop and the operations
`AssignApplication`, `AssignAllUnits`, `AssignUnit`, `Commit`,
`CheckNotComplete`, `Refresh` and `AddGeneration`.

Go maps `map[string][]string` are association lists, Go `error` values are
`Option Err` (`none` is `nil`), and a method with a pointer receiver returns
the receiver's new value next to its result.
-/

namespace Juju

/-- Error values: the two sentinels of `jujutxn`, not-found errors and errors
built from a message (`errors.New`, `errors.Errorf`). -/
inductive Err where
  | ErrNoOperations
  | ErrExcessiveContention
  | NotFound (what : String)
  | New (msg : String)
  deriving DecidableEq, Repr

/-- Life cycle value of an application document. -/
inductive Life where
  | Alive
  | Dying
  | Dead
  deriving DecidableEq, Repr

/-- The Go type `map[string][]string`. -/
abbrev UnitMap := List (String × List String)

/-- The keys of a map. -/
def UnitMap.keys (m : UnitMap) : List String := m.map Prod.fst

/-- The value `m[k]` of a Go map read, the zero value (nil slice) when absent. -/
def UnitMap.get (m : UnitMap) (k : String) : List String := (m.lookup k).getD []

/-- The test `_, ok := m[k]`. -/
def UnitMap.has (m : UnitMap) (k : String) : Bool := (m.lookup k).isSome

/-- The assignment `m[k] = v`: replaces the entry of `k`, or adds one. -/
def UnitMap.set : UnitMap → String → List String → UnitMap
  | [], k, v => [(k, v)]
  | (k0, v0) :: t, k, v => if k0 = k then (k, v) :: t else (k0, v0) :: UnitMap.set t k v

/-- The update `$push` on the field of `k`: appends to the array, creating it
when the field is absent. -/
def UnitMap.push : UnitMap → String → String → UnitMap
  | [], k, u => [(k, [u])]
  | (k0, v0) :: t, k, u =>
    if k0 = k then (k, v0 ++ [u]) :: t else (k0, v0) :: UnitMap.push t k u

/-- The document `generationDoc`. -/
structure generationDoc where
  DocId : String
  TxnRevno : Int
  Name : String
  GenerationId : Int
  ModelUUID : String
  AssignedUnits : UnitMap
  Created : Int
  CreatedBy : String
  Completed : Int
  CompletedBy : String
  deriving DecidableEq, Repr

/-- A document of the units collection, with the two fields `appUnitNames`
reads. -/
structure unitDoc where
  Name : String
  Application : String
  deriving DecidableEq, Repr

/-- A document of the applications collection, with the fields
`AssignAllUnits` reads. -/
structure applicationDoc where
  DocID : String
  Name : String
  Life : Life
  UnitCount : Int
  deriving DecidableEq, Repr

/-- The database behind `*State`: the three collections, the sequence
counters, the controller clock (`none` when it cannot be read), and the number
of attempts the transaction runner makes. `unitsDown` lists the applications
whose unit query currently fails and `sequenceDown` says that sequence
allocation currently fails. -/
structure State where
  generationsC : List generationDoc
  unitsC : List unitDoc
  applicationsC : List applicationDoc
  sequenceC : List (String × Nat)
  clock : Option Int
  unitsDown : List String
  sequenceDown : Bool
  nrRetries : Nat
  deriving DecidableEq, Repr

/-- The type `Generation`; the `st` pointer is passed to each operation. -/
structure Generation where
  doc : generationDoc
  deriving DecidableEq, Repr

/-- A condition of an `Assert` query on a generation document. -/
inductive Cond where
  /-- The condition `{"completed", v}`. -/
  | completedEq (v : Int)
  /-- The condition `{"assigned-units", {"$exists", true}}`. -/
  | assignedExists
  /-- The condition `{appField, {"$exists", false}}`. -/
  | appMissing (app : String)
  /-- The condition `{appField, {"$not", {"$elemMatch", {"$eq", unitName}}}}`. -/
  | unitNotIn (app : String) (unitName : String)
  /-- The condition `{"txn-revno", n}`. -/
  | revnoEq (n : Int)
  deriving DecidableEq, Repr

/-- An `Update` of a generation document. -/
inductive Change where
  /-- The update `{"$set", {appField, units}}`. -/
  | setApp (app : String) (units : List String)
  /-- The update `{"$push", {appField, unitName}}`. -/
  | pushUnit (app : String) (unitName : String)
  /-- The update `$set` of the four completion fields. -/
  | complete (assigned : UnitMap) (completed : Int) (completedBy : String)
      (generationId : Int)
  deriving DecidableEq, Repr

/-- A `txn.Op` as this file builds them: an asserted update of a generation
document, the insertion of one, or an assertion on an application document. -/
inductive Op where
  | update (Id : String) (Assert : List Cond) (Update : Change)
  | insert (Id : String) (Insert : generationDoc)
  | assertApp (Id : String) (life : Life) (unitcount : Int)
  deriving DecidableEq, Repr

/-- Whether a generation document satisfies a condition. -/
def Cond.holds (d : generationDoc) : Cond → Bool
  | .completedEq v => d.Completed == v
  | .assignedExists => true
  | .appMissing app => !(d.AssignedUnits.has app)
  | .unitNotIn app u => !((d.AssignedUnits.get app).contains u)
  | .revnoEq n => d.TxnRevno == n

/-- The document after an update's field changes. -/
def Change.apply (d : generationDoc) : Change → generationDoc
  | .setApp app units => { d with AssignedUnits := d.AssignedUnits.set app units }
  | .pushUnit app u => { d with AssignedUnits := d.AssignedUnits.push app u }
  | .complete assigned completed completedBy generationId =>
    { d with AssignedUnits := assigned, Completed := completed,
             CompletedBy := completedBy, GenerationId := generationId }

/-- The document as the store leaves it after an applied update: the field
changes, and the revision number one higher. -/
def Change.write (chg : Change) (d : generationDoc) : generationDoc :=
  { (Change.apply d chg) with TxnRevno := d.TxnRevno + 1 }

/-- The query `FindId(id)` on the generations collection. -/
def State.findId (st : State) (id : String) : Option generationDoc :=
  st.generationsC.find? (fun d => d.DocId == id)

/-- Rewrites the document with the given id. -/
def updateId (f : generationDoc → generationDoc) (id : String) :
    List generationDoc → List generationDoc
  | [] => []
  | d :: t => if d.DocId == id then f d :: t else d :: updateId f id t

/-- Whether the assertion of an operation holds in the store. -/
def Op.asserted (st : State) : Op → Bool
  | .update id conds _ =>
    match st.findId id with
    | none => false
    | some d => conds.all (Cond.holds d)
  | .insert _ _ => true
  | .assertApp id life unitcount =>
    match st.applicationsC.find? (fun a => a.DocID == id) with
    | none => false
    | some a => a.Life == life && a.UnitCount == unitcount

/-- The revision number the store gives a freshly inserted document. -/
def firstRevno : Int := 2

/-- The store after an operation's change: an update bumps the document's
revision number; an insertion of an id already present changes nothing. -/
def Op.apply (st : State) : Op → State
  | .update id _ chg =>
    { st with generationsC := updateId (Change.write chg) id st.generationsC }
  | .insert id doc =>
    match st.findId id with
    | some _ => st
    | none =>
      { st with generationsC :=
          st.generationsC ++ [{ doc with DocId := id, TxnRevno := firstRevno }] }
  | .assertApp _ _ _ => st

/-- One transaction: when every assertion holds in the store all changes are
applied, in order; otherwise nothing is applied and the transaction is aborted
(`none`, the error `txn.ErrAborted`). -/
def RunTransaction (ops : List Op) (st : State) : Option State :=
  if ops.all (Op.asserted st) then some (ops.foldl Op.apply st) else none

/-- The retry loop of the runner over a transaction source `buildTxn`, whose
captured variables are the value of type `σ`: `fuel` attempts are left and
`attempt` is the number of the next one. -/
def runLoop {σ : Type} (db : σ → State) (setDb : σ → State → σ)
    (buildTxn : Nat → σ → Except Err (List Op) × σ) : Nat → Nat → σ → Option Err × σ
  | 0, _, s => (some Err.ErrExcessiveContention, s)
  | fuel + 1, attempt, s =>
    match buildTxn attempt s with
    | (.error .ErrNoOperations, s1) => (none, s1)
    | (.error e, s1) => (some e, s1)
    | (.ok ops, s1) =>
      match RunTransaction ops (db s1) with
      | some st2 => (none, setDb s1 st2)
      | none => runLoop db setDb buildTxn fuel (attempt + 1) s1

/-- The call `st.db().Run(buildTxn)`. -/
def Run {σ : Type} (db : σ → State) (setDb : σ → State → σ)
    (buildTxn : Nat → σ → Except Err (List Op) × σ) (s : σ) : Option Err × σ :=
  runLoop db setDb buildTxn (db s).nrRetries 0 s

/-- The variables captured by the `buildTxn` closures of the methods of
`Generation`: the receiver, the state behind its `st` pointer, and the variable
`newGenId` of `Commit`. -/
structure Frame where
  g : Generation
  st : State
  newGenId : Int
  deriving DecidableEq, Repr

/-- Writes the store of a frame. -/
def Frame.setSt (f : Frame) (st : State) : Frame := { f with st := st }

/-- The method `IsCompleted`. -/
def Generation.IsCompleted (g : Generation) : Bool := decide (g.doc.Completed > 0)

/-- The method `GenerationId`. -/
def Generation.GenerationId (g : Generation) : Int := g.doc.GenerationId

/-- The method `AssignedUnits`. -/
def Generation.AssignedUnits (g : Generation) : UnitMap := g.doc.AssignedUnits

/-- The method `CheckNotComplete`. -/
def Generation.CheckNotComplete (g : Generation) : Option Err :=
  if g.doc.Completed = 0 then none
  else
    let msg := if g.doc.GenerationId = 0 then "aborted" else "committed"
    some (Err.New ("branch was already " ++ msg))

/-- The method `Refresh`. -/
def Generation.Refresh (g : Generation) (st : State) : Except Err Generation :=
  match st.findId g.doc.DocId with
  | none => .error (Err.NotFound "generation")
  | some doc => .ok { g with doc := doc }

/-- The step `if attempt > 0 { g.Refresh() }` that opens every `buildTxn`. -/
def refreshOnRetry (attempt : Nat) (f : Frame) : Except Err Frame :=
  if attempt > 0 then
    match f.g.Refresh f.st with
    | .error e => .error e
    | .ok g => .ok { f with g := g }
  else .ok f

/-- The function `appUnitNames`. -/
def appUnitNames (st : State) (appName : String) : Except Err (List String) :=
  if st.unitsDown.contains appName then .error (Err.New "cannot read units")
  else .ok ((st.unitsC.filter (fun u => u.Application == appName)).map (fun u => u.Name))

/-- Modelled from the spec: the method `State.Application` (its file is not
part of the sources); it finds the application document by name and reports
not-found otherwise. -/
def State.Application (st : State) (appName : String) : Except Err applicationDoc :=
  match st.applicationsC.find? (fun a => a.Name == appName) with
  | none => .error (Err.NotFound ("application " ++ appName))
  | some a => .ok a

/-- Modelled from the spec: the method `State.ControllerTimestamp` (its file is
not part of the sources); it reads the controller clock as a Unix time. -/
def State.ControllerTimestamp (st : State) : Except Err Int :=
  match st.clock with
  | none => .error (Err.New "cannot read controller timestamp")
  | some t => .ok t

/-- The current value of a named counter, 0 when it was never used. -/
def State.counter (st : State) (name : String) : Nat := (st.sequenceC.lookup name).getD 0

/-- Stores the value of a named counter. -/
def setCounter : List (String × Nat) → String → Nat → List (String × Nat)
  | [], k, v => [(k, v)]
  | (k0, v0) :: t, k, v => if k0 = k then (k, v) :: t else (k0, v0) :: setCounter t k v

/-- Modelled from the spec: the sequence allocator `sequenceWithMin` (its file
is not part of the sources). It returns a value that is at least the minimum
and greater than every value returned before for the same name. -/
def sequenceWithMin (st : State) (name : String) (minVal : Nat) : Except Err Nat × State :=
  if st.sequenceDown then (.error (Err.New "cannot allocate sequence"), st)
  else
    let v := max (st.counter name) minVal
    (.ok v, { st with sequenceC := setCounter st.sequenceC name (v + 1) })

/-- Modelled from the spec: the sequence allocator `sequence` (its file is not
part of the sources), the allocator with minimum 0. -/
def sequence (st : State) (name : String) : Except Err Nat × State :=
  sequenceWithMin st name 0

/-- The function `assignGenerationAppTxnOps`. -/
def assignGenerationAppTxnOps (id appName : String) : List Op :=
  [Op.update id [Cond.completedEq 0, Cond.assignedExists, Cond.appMissing appName]
    (Change.setApp appName [])]

/-- The function `assignGenerationUnitTxnOps`. -/
def assignGenerationUnitTxnOps (id appName unitName : String) : List Op :=
  [Op.update id [Cond.completedEq 0, Cond.assignedExists, Cond.unitNotIn appName unitName]
    (Change.pushUnit appName unitName)]

/-- The result of a method: the returned value, the receiver and the state
after the call. -/
structure Outcome (α : Type) where
  ret : α
  g : Generation
  st : State

/-- The closure `buildTxn` of `AssignApplication`. -/
def assignApplicationBuildTxn (appName : String) (attempt : Nat) (f : Frame) :
    Except Err (List Op) × Frame :=
  match refreshOnRetry attempt f with
  | .error e => (.error e, f)
  | .ok f1 =>
    if f1.g.doc.AssignedUnits.has appName then (.error Err.ErrNoOperations, f1)
    else
      match f1.g.CheckNotComplete with
      | some e => (.error e, f1)
      | none => (.ok (assignGenerationAppTxnOps f1.g.doc.DocId appName), f1)

/-- The method `AssignApplication`. -/
def Generation.AssignApplication (g : Generation) (appName : String) (st : State) :
    Outcome (Option Err) :=
  let r := Run Frame.st Frame.setSt (assignApplicationBuildTxn appName) ⟨g, st, 0⟩
  ⟨r.1, r.2.g, r.2.st⟩

/-- The closure `buildTxn` of `AssignAllUnits`. -/
def assignAllUnitsBuildTxn (appName : String) (attempt : Nat) (f : Frame) :
    Except Err (List Op) × Frame :=
  match refreshOnRetry attempt f with
  | .error e => (.error e, f)
  | .ok f1 =>
    match f1.g.CheckNotComplete with
    | some e => (.error e, f1)
    | none =>
      match appUnitNames f1.st appName with
      | .error e => (.error e, f1)
      | .ok unitNames =>
        match f1.st.Application appName with
        | .error e => (.error e, f1)
        | .ok app =>
          let ops := Op.assertApp app.DocID Life.Alive app.UnitCount ::
            (unitNames.filter
              (fun name => !((f1.g.doc.AssignedUnits.get appName).contains name))).flatMap
              (fun name => assignGenerationUnitTxnOps f1.g.doc.DocId appName name)
          if ops.length < 2 then (.error Err.ErrNoOperations, f1) else (.ok ops, f1)

/-- The method `AssignAllUnits`. -/
def Generation.AssignAllUnits (g : Generation) (appName : String) (st : State) :
    Outcome (Option Err) :=
  let r := Run Frame.st Frame.setSt (assignAllUnitsBuildTxn appName) ⟨g, st, 0⟩
  ⟨r.1, r.2.g, r.2.st⟩

/-- A character of the class `[a-z]`. -/
def isLower (c : Char) : Bool := decide ('a' ≤ c) && decide (c ≤ 'z')

/-- A character of the class `[0-9]`. -/
def isDigit (c : Char) : Bool := decide ('0' ≤ c) && decide (c ≤ '9')

/-- The pieces of a string between its dashes. -/
def splitDash : List Char → List (List Char)
  | [] => [[]]
  | c :: cs =>
    if c = '-' then [] :: splitDash cs
    else
      match splitDash cs with
      | [] => [[c]]
      | h :: t => (c :: h) :: t

/-- A match of `[a-z][a-z0-9]*`, the first piece of an application name. -/
def validHead : List Char → Bool
  | [] => false
  | c :: cs => isLower c && cs.all (fun x => isLower x || isDigit x)

/-- A match of `[a-z0-9]*[a-z][a-z0-9]*`, a later piece of an application
name. -/
def validPiece (cs : List Char) : Bool :=
  cs.all (fun x => isLower x || isDigit x) && cs.any isLower

/-- A match of the application snippet
`[a-z][a-z0-9]*(-[a-z0-9]*[a-z][a-z0-9]*)*` of the names package. -/
def validApplication (cs : List Char) : Bool :=
  match splitDash cs with
  | [] => false
  | h :: t => validHead h && t.all validPiece

/-- A match of the number snippet `0|[1-9][0-9]*` of the names package. -/
def validNumber : List Char → Bool
  | [] => false
  | c :: cs => if c = '0' then cs.isEmpty else isDigit c && cs.all isDigit

/-- The function `names.UnitApplication`: the application part of a unit name
of the form application, slash, number. -/
def UnitApplication (unitName : String) : Except Err String :=
  let cs := unitName.data
  let app := cs.takeWhile (fun c => c != '/')
  match cs.dropWhile (fun c => c != '/') with
  | [] => .error (Err.New (unitName ++ " is not a valid unit name"))
  | _ :: num =>
    if validApplication app && validNumber num then .ok (String.mk app)
    else .error (Err.New (unitName ++ " is not a valid unit name"))

/-- The closure `buildTxn` of `AssignUnit`. -/
def assignUnitBuildTxn (appName unitName : String) (attempt : Nat) (f : Frame) :
    Except Err (List Op) × Frame :=
  match refreshOnRetry attempt f with
  | .error e => (.error e, f)
  | .ok f1 =>
    match f1.g.CheckNotComplete with
    | some e => (.error e, f1)
    | none =>
      if (f1.g.doc.AssignedUnits.get appName).contains unitName then
        (.error Err.ErrNoOperations, f1)
      else (.ok (assignGenerationUnitTxnOps f1.g.doc.DocId appName unitName), f1)

/-- The method `AssignUnit`. -/
def Generation.AssignUnit (g : Generation) (unitName : String) (st : State) :
    Outcome (Option Err) :=
  match UnitApplication unitName with
  | .error e => ⟨some e, g, st⟩
  | .ok appName =>
    let r := Run Frame.st Frame.setSt (assignUnitBuildTxn appName unitName) ⟨g, st, 0⟩
    ⟨r.1, r.2.g, r.2.st⟩

/-- The loop `for app := range assigned` of `Commit` over the keys of the map,
visited in the order of the association list, which writes into the map the
receiver's document holds: on an error the entries already replaced stay
replaced. -/
def commitLoop (st : State) : List String → UnitMap → Option Err × UnitMap
  | [], m => (none, m)
  | app :: rest, m =>
    match appUnitNames st app with
    | .error e => (some e, m)
    | .ok units => commitLoop st rest (m.set app units)

/-- Writes the map held by the receiver's document. -/
def Frame.setAssigned (f : Frame) (m : UnitMap) : Frame :=
  { f with g := { f.g with doc := { f.g.doc with AssignedUnits := m } } }

/-- The operations `Commit` proposes. -/
def commitTxnOps (id : String) (revno : Int) (assigned : UnitMap) (now : Int)
    (userName : String) (newGenId : Int) : List Op :=
  [Op.update id [Cond.revnoEq revno] (Change.complete assigned now userName newGenId)]

/-- The closure `buildTxn` of `Commit`. -/
def commitBuildTxn (userName : String) (attempt : Nat) (f : Frame) :
    Except Err (List Op) × Frame :=
  match refreshOnRetry attempt f with
  | .error e => (.error e, f)
  | .ok f1 =>
    if f1.g.IsCompleted then
      if f1.g.GenerationId = 0 then (.error (Err.New "branch was already aborted"), f1)
      else (.error Err.ErrNoOperations, f1)
    else
      match f1.st.ControllerTimestamp with
      | .error e => (.error e, f1)
      | .ok now =>
        match commitLoop f1.st f1.g.AssignedUnits.keys f1.g.AssignedUnits with
        | (some e, m) => (.error e, f1.setAssigned m)
        | (none, assigned) =>
          let f2 := f1.setAssigned assigned
          if assigned.length > 0 then
            match sequenceWithMin f2.st "generation" 1 with
            | (.error e, st1) => (.error e, { f2 with st := st1 })
            | (.ok id, st1) =>
              (.ok (commitTxnOps f2.g.doc.DocId f2.g.doc.TxnRevno assigned now userName id),
                { f2 with st := st1, newGenId := id })
          else
            (.ok (commitTxnOps f2.g.doc.DocId f2.g.doc.TxnRevno assigned now userName
              f2.newGenId), f2)

/-- The method `Commit`; it returns the pair of the generation id and the
error. -/
def Generation.Commit (g : Generation) (userName : String) (st : State) :
    Outcome (Int × Option Err) :=
  let r := Run Frame.st Frame.setSt (commitBuildTxn userName) ⟨g, st, 0⟩
  match r.1 with
  | some e => ⟨(0, some e), r.2.g, r.2.st⟩
  | none => ⟨(r.2.newGenId, none), r.2.g, r.2.st⟩

/-- The method `State.getBranchDoc`: the first document with the name that is
not completed. -/
def State.getBranchDoc (st : State) (name : String) : Except Err generationDoc :=
  match st.generationsC.find? (fun d => d.Name == name && d.Completed == 0) with
  | some doc => .ok doc
  | none => .error (Err.NotFound ("branch " ++ name))

/-- The method `State.Branch`. -/
def State.Branch (st : State) (name : String) : Except Err Generation :=
  match st.getBranchDoc name with
  | .error e => .error e
  | .ok doc => .ok ⟨doc⟩

/-- The decimal digits of a number, most significant first. -/
def Itoa (n : Nat) : String :=
  String.mk (if n = 0 then ['0'] else (Nat.digits 10 n).reverse.map Nat.digitChar)

/-- The function `insertGenerationTxnOps`. -/
def insertGenerationTxnOps (id branchName userName : String) (now : Int) : List Op :=
  [Op.insert id
    { DocId := "", TxnRevno := 0, Name := branchName, GenerationId := 0, ModelUUID := "",
      AssignedUnits := [], Created := now, CreatedBy := userName, Completed := 0,
      CompletedBy := "" }]

/-- The verb `%q` of `errors.Errorf` on a name of printable characters: the name
between double quotes (character 34), with a backslash (character 92) before
every double quote and backslash of the name. -/
def Quote (s : String) : String :=
  String.mk (Char.ofNat 34 ::
    (s.data.flatMap (fun c =>
      if c = Char.ofNat 34 ∨ c = Char.ofNat 92 then [Char.ofNat 92, c] else [c])
      ++ [Char.ofNat 34]))

/-- The closure `buildTxn` of `AddGeneration`, for the allocated id. -/
def addGenerationBuildTxn (id : Nat) (branchName userName : String) (_attempt : Nat)
    (st : State) : Except Err (List Op) × State :=
  match st.Branch branchName with
  | .error (.NotFound _) =>
    match st.ControllerTimestamp with
    | .error e => (.error e, st)
    | .ok now => (.ok (insertGenerationTxnOps (Itoa id) branchName userName now), st)
  | .error e => (.error e, st)
  | .ok _ => (.error (Err.New ("model already has branch " ++ Quote branchName)), st)

/-- The method `State.AddGeneration`; it returns the error and the state after
the call. -/
def State.AddGeneration (st : State) (branchName userName : String) : Option Err × State :=
  match sequence st "branch" with
  | (.error e, st1) => (some e, st1)
  | (.ok id, st1) =>
    Run (fun s => s) (fun _ s => s) (addGenerationBuildTxn id branchName userName) st1

/-! ## Predicates used by the lemmas -/

/-- The invariant behind the no-write results: the store is the given one and
the receiver still names the given document. -/
def Frame.on (st : State) (id : String) (f : Frame) : Prop :=
  f.st = st ∧ f.g.doc.DocId = id

/-- The state after a successful allocation from the generation sequence. -/
def State.afterGenerationSeq (st : State) : State :=
  { st with sequenceC :=
      setCounter st.sequenceC "generation" (max (st.counter "generation") 1 + 1) }

/-- The result of `buildTxn` of `Commit` on a receiver that is not completed and
with a readable clock, by the outcome of the unit enumerations and of the
sequence allocation. -/
def CommitOpenCase (userName : String) (f1 : Frame) (now : Int)
    (r : Except Err (List Op) × Frame) : Prop :=
  let lp := commitLoop f1.st f1.g.AssignedUnits.keys f1.g.AssignedUnits
  let f2 := f1.setAssigned lp.2
  (lp.1 = some (Err.New "cannot read units") ∧
      r = (.error (Err.New "cannot read units"), f2)) ∨
  (lp.1 = none ∧ lp.2 ≠ [] ∧ f1.st.sequenceDown = true ∧
      r = (.error (Err.New "cannot allocate sequence"), f2)) ∨
  (lp.1 = none ∧ lp.2 ≠ [] ∧ f1.st.sequenceDown = false ∧
      r = (.ok (commitTxnOps f1.g.doc.DocId f1.g.doc.TxnRevno lp.2 now userName
              ((max (f1.st.counter "generation") 1 : Nat) : Int)),
            { f2 with st := f1.st.afterGenerationSeq,
                      newGenId := ((max (f1.st.counter "generation") 1 : Nat) : Int) })) ∨
  (lp.1 = none ∧ lp.2 = [] ∧
      r = (.ok (commitTxnOps f1.g.doc.DocId f1.g.doc.TxnRevno lp.2 now userName f1.newGenId),
            f2))

/-! ## Example data -/

/-- The branch "db-upgrade" of the end-to-end scenario, created by "alice",
after `AssignApplication("mysql")`. -/
def dbUpgrade : generationDoc :=
  { DocId := "0", TxnRevno := 3, Name := "db-upgrade", GenerationId := 0, ModelUUID := "M",
    AssignedUnits := [("mysql", [])], Created := 100, CreatedBy := "alice", Completed := 0,
    CompletedBy := "" }

/-- The branch "noop" of the end-to-end scenario, with no assignments. -/
def noop : generationDoc :=
  { DocId := "1", TxnRevno := 2, Name := "noop", GenerationId := 0, ModelUUID := "M",
    AssignedUnits := [], Created := 150, CreatedBy := "carol", Completed := 0,
    CompletedBy := "" }

/-- A model with the two branches, the application "mysql" with the units
"mysql/0" and "mysql/1", and a runner of three attempts. -/
def modelM : State :=
  { generationsC := [dbUpgrade, noop],
    unitsC := [⟨"mysql/0", "mysql"⟩, ⟨"mysql/1", "mysql"⟩, ⟨"pg/0", "pg"⟩],
    applicationsC := [⟨"M:mysql", "mysql", Life.Alive, 2⟩, ⟨"M:pg", "pg", Life.Alive, 1⟩],
    sequenceC := [("branch", 2)],
    clock := some 200,
    unitsDown := [],
    sequenceDown := false,
    nrRetries := 3 }

/-- The error `CheckNotComplete` returns for a completed document. -/
def alreadyCompleted (d : generationDoc) : Err :=
  Err.New (if d.GenerationId = 0 then "branch was already aborted"
    else "branch was already committed")

/-- The document of "db-upgrade" as `Commit("bob")` leaves it in `modelM`. -/
def dbUpgradeCommitted : generationDoc :=
  { DocId := "0", TxnRevno := 4, Name := "db-upgrade", GenerationId := 1, ModelUUID := "M",
    AssignedUnits := [("mysql", ["mysql/0", "mysql/1"])], Created := 100,
    CreatedBy := "alice", Completed := 200, CompletedBy := "bob" }

/-- The document as a successful `Commit` writes it: the map, the completion
time, the committing user and the generation id are set and the store bumps
the revision number. -/
def generationDoc.committed (d : generationDoc) (assigned : UnitMap) (now : Int)
    (userName : String) (generationId : Int) : generationDoc :=
  { d with AssignedUnits := assigned, Completed := now, CompletedBy := userName,
           GenerationId := generationId, TxnRevno := d.TxnRevno + 1 }

/-- The document as an applied assignment writes it: the map is replaced and
the store bumps the revision number. -/
def generationDoc.assigned (d : generationDoc) (m : UnitMap) : generationDoc :=
  { d with AssignedUnits := m, TxnRevno := d.TxnRevno + 1 }

/-- A `Generation` of an open branch as an earlier read left it: it names the
stored document `d`, holds it as not completed, and holds no unit that `d`
lacks (assignments only add units to an open branch). -/
def Generation.viewOf (h : Generation) (d : generationDoc) : Prop :=
  h.doc.DocId = d.DocId ∧ h.doc.Completed = 0 ∧
    ∀ a x, x ∈ h.doc.AssignedUnits.get a → x ∈ d.AssignedUnits.get a

/-- A sequence of `AssignUnit(unitName)` calls, each through the `Generation`
at the given position of `hs` (a position that holds none is skipped): the
errors returned, in order, and the receivers and the state after the last
call. -/
def assignUnitCalls (unitName : String) :
    List Nat → List Generation → State → List (Option Err) × List Generation × State
  | [], hs, st => ([], hs, st)
  | i :: rest, hs, st =>
    match hs[i]? with
    | none => assignUnitCalls unitName rest hs st
    | some h =>
      let r := h.AssignUnit unitName st
      let t := assignUnitCalls unitName rest (hs.set i r.g) r.st
      (r.ret :: t.1, t.2)

/-- The unit names of `names` that the document does not hold for the
application, in order: the units `AssignAllUnits` proposes to add. -/
def missingUnits (d : generationDoc) (appName : String) (names : List String) : List String :=
  names.filter (fun name => !((d.AssignedUnits.get appName).contains name))

/-- The operations `AssignAllUnits` proposes for the missing units. -/
def assignAllUnitsOps (id appName : String) (app : applicationDoc) (missing : List String) :
    List Op :=
  Op.assertApp app.DocID Life.Alive app.UnitCount ::
    missing.map (fun name =>
      Op.update id [Cond.completedEq 0, Cond.assignedExists, Cond.unitNotIn appName name]
        (Change.pushUnit appName name))

/-! ## Reachable states -/

/-- The number of open branches (completed = 0) with the given name. -/
def openCount (name : String) (l : List generationDoc) : Nat :=
  (l.filter (fun d => d.Name == name && d.Completed == 0)).length

/-- The controller clock, when it can be read, reads a time after the epoch. -/
def State.clockOk (st : State) : Prop := ∀ t, st.clock = some t → 0 < t

/-- The invariant of the reachable states: the clock is after the epoch, there
is at most one open branch per name, and every document id is the decimal form
of a value already allocated from the "branch" sequence. -/
structure State.Inv (st : State) : Prop where
  clock : st.clockOk
  oneOpen : ∀ name, openCount name st.generationsC ≤ 1
  ids : ∀ x ∈ st.generationsC.map (fun d => d.DocId),
    ∃ k, k < st.counter "branch" ∧ x = Itoa k

/-- The states reachable from a store without branches when the operations
are applied one at a time, each call running to its end before the next one
starts: `AddGeneration`, the three assignments and `Commit`, each through any
`Generation`, and changes of the environment (clock, units, applications,
failures, runner attempts) that leave the branch documents and the sequences
alone. Calls that overlap (the check of one `buildTxn` before the write of
another) are not steps of this relation; `overlappedAddGenerations` and
`overlappedCommits` run such schedules. -/
inductive Reachable : State → Prop where
  | init (st : State) (hgen : st.generationsC = []) (hclock : st.clockOk) : Reachable st
  | env (st st2 : State) (h : Reachable st) (hgen : st2.generationsC = st.generationsC)
      (hseq : st2.sequenceC = st.sequenceC) (hclock : st2.clockOk) : Reachable st2
  | addGeneration (st : State) (branchName userName : String) (h : Reachable st) :
      Reachable (st.AddGeneration branchName userName).2
  | assignApplication (st : State) (g : Generation) (appName : String) (h : Reachable st) :
      Reachable (g.AssignApplication appName st).st
  | assignUnit (st : State) (g : Generation) (unitName : String) (h : Reachable st) :
      Reachable (g.AssignUnit unitName st).st
  | assignAllUnits (st : State) (g : Generation) (appName : String) (h : Reachable st) :
      Reachable (g.AssignAllUnits appName st).st
  | commit (st : State) (g : Generation) (userName : String) (h : Reachable st) :
      Reachable (g.Commit userName st).st

/-- An operation that keeps the invariant: an assertion, or an update that
does not complete a document at time 0. -/
def Op.benign : Op → Prop
  | .update _ _ (.complete _ now _ _) => 0 < now
  | .update _ _ _ => True
  | .assertApp _ _ _ => True
  | .insert _ _ => False

/-- The document `AddGeneration` inserts. -/
def newBranchDoc (id : Nat) (branchName userName : String) (now : Int) : generationDoc :=
  { DocId := Itoa id, TxnRevno := firstRevno, Name := branchName, GenerationId := 0,
    ModelUUID := "", AssignedUnits := [], Created := now, CreatedBy := userName,
    Completed := 0, CompletedBy := "" }

/-- A store without branches, with a readable clock and a healthy runner. -/
def emptyModel : State :=
  { generationsC := [], unitsC := [], applicationsC := [], sequenceC := [],
    clock := some 200, unitsDown := [], sequenceDown := false, nrRetries := 3 }

/-- The state after a successful allocation from the branch sequence. -/
def State.afterBranchSeq (st : State) : State :=
  { st with sequenceC := setCounter st.sequenceC "branch" (st.counter "branch" + 1) }

/-- The query of `getBranchDoc`: the first open document with the name. -/
def State.findOpen (st : State) (name : String) : Option generationDoc :=
  st.generationsC.find? (fun d => d.Name == name && d.Completed == 0)

/-- The store after "carol" created the branch "noop" in `emptyModel` and
committed it at once. -/
def noopDone : State :=
  (Generation.Commit ⟨newBranchDoc 0 "noop" "carol" 200⟩ "carol"
    (emptyModel.AddGeneration "noop" "carol").2).st

/-- A branch document whose completed timestamp is negative (one second
before the epoch). -/
def noopNegative : generationDoc :=
  { DocId := "1", TxnRevno := 2, Name := "noop", GenerationId := 0, ModelUUID := "M",
    AssignedUnits := [], Created := 150, CreatedBy := "carol", Completed := -1,
    CompletedBy := "carol" }

/-- The cached document `c` is the document `d` but for the values of
`assignedUnits`, whose keys are the same. -/
def generationDoc.sameBut (c d : generationDoc) : Prop :=
  c = { d with AssignedUnits := c.AssignedUnits } ∧
    c.AssignedUnits.keys = d.AssignedUnits.keys

/-- The model `modelM` with a failing sequence allocator. -/
def modelSeqDown : State := { modelM with sequenceDown := true }

/-- The cache of a receiver `g2` after a successful call that started from the
receiver `g` holding the stored document, in the state `st2` after the call:
the cached document is the one held before but for the values of
`assignedUnits`; the stored document `d2` either is the cached one, with no
branch document written, or has a higher revision number than the cache; and
`Refresh` loads `d2`. -/
def cacheAfter (g : Generation) (st : State) (g2 : Generation) (st2 : State) : Prop :=
  ∃ d2, st2.findId g.doc.DocId = some d2 ∧ g2.doc.sameBut g.doc ∧
    ((st2.generationsC = st.generationsC ∧ g2.doc = d2) ∨ g2.doc.TxnRevno < d2.TxnRevno) ∧
    g2.Refresh st2 = .ok ⟨d2⟩

/-! ## The store together with the receivers read from it -/

/-- What holds of every stored document in a sound state: the completed
timestamp is not negative, an open document has generation id 0, the
generation id is below the next value of the "generation" sequence, and a
completed document with staged applications has a generation id of at least
1. -/
def generationDoc.sound (d : generationDoc) (st : State) : Prop :=
  0 ≤ d.Completed ∧ (d.Completed = 0 → d.GenerationId = 0) ∧ 0 ≤ d.GenerationId ∧
    d.GenerationId < ((max (st.counter "generation") 1 : Nat) : Int) ∧
    (d.Completed ≠ 0 → d.AssignedUnits ≠ [] → 1 ≤ d.GenerationId)

/-- The invariant of the store in the runs of the system: the invariant of the
reachable states, document ids without repetition, sound documents, and
generation ids other than 0 that belong to one document each. -/
structure State.Sound (st : State) : Prop where
  inv : st.Inv
  nodup : (st.generationsC.map (fun d => d.DocId)).Nodup
  docs : ∀ id d, st.findId id = some d → d.sound st
  distinct : ∀ id1 id2 d1 d2, st.findId id1 = some d1 → st.findId id2 = some d2 →
    d1.GenerationId ≠ 0 → d1.GenerationId = d2.GenerationId → id1 = id2

/-- How one operation changes a stored document `d` into `d2`, in the state
`st` before it: not at all; or `d` was open, the revision number went up, no
key of `assignedUnits` was lost, and either `d2` is still open with generation
id 0, or `d2` is completed, with generation id 0 and no staged application or
with staged applications and a generation id, at least 1, above every
generation id stored in `st`. -/
def State.advances (st : State) (d d2 : generationDoc) : Prop :=
  d2 = d ∨
  (d.Completed = 0 ∧ d.TxnRevno < d2.TxnRevno ∧
    (∀ k ∈ d.AssignedUnits.keys, k ∈ d2.AssignedUnits.keys) ∧
    ((d2.Completed = 0 ∧ d2.GenerationId = 0) ∨
      (0 < d2.Completed ∧
        ((d2.AssignedUnits = [] ∧ d2.GenerationId = 0) ∨
          (d2.AssignedUnits ≠ [] ∧ 1 ≤ d2.GenerationId ∧
            ∀ id e, st.findId id = some e → e.GenerationId < d2.GenerationId)))))

/-- Every document of `st` is still stored in `st2`, changed as one operation
may change it. -/
def State.evolves (st st2 : State) : Prop :=
  ∀ id d, st.findId id = some d → ∃ d2, st2.findId id = some d2 ∧ st.advances d d2

/-- A `Generation` that was read from the store at some earlier time: its
document is stored, at a revision number that is not lower and with every
cached key, and when the revision numbers are equal the cache is the stored
document but for the values of `assignedUnits`. -/
def Generation.tracks (h : Generation) (st : State) : Prop :=
  ∃ d, st.findId h.doc.DocId = some d ∧ h.doc.TxnRevno ≤ d.TxnRevno ∧
    (∀ k ∈ h.doc.AssignedUnits.keys, k ∈ d.AssignedUnits.keys) ∧
    (h.doc.TxnRevno = d.TxnRevno → h.doc.sameBut d)

/-- A call of one of the four mutation methods. -/
inductive Call where
  | assignApplication (appName : String)
  | assignUnit (unitName : String)
  | assignAllUnits (appName : String)
  | commit (userName : String)
  deriving DecidableEq, Repr

/-- The receiver and the state after a call. -/
def Call.run (c : Call) (g : Generation) (st : State) : Generation × State :=
  match c with
  | .assignApplication a => ((g.AssignApplication a st).g, (g.AssignApplication a st).st)
  | .assignUnit u => ((g.AssignUnit u st).g, (g.AssignUnit u st).st)
  | .assignAllUnits a => ((g.AssignAllUnits a st).g, (g.AssignAllUnits a st).st)
  | .commit user => ((g.Commit user st).g, (g.Commit user st).st)

/-- The store and the `Generation` values held by its clients. -/
structure System where
  st : State
  hs : List Generation

/-- The runs of the system, from a store without branches and no receiver,
with the operations applied one at a time: changes of the environment,
`AddGeneration`, `Branch` (a client reads the open branch of a name),
`Refresh`, and the four mutation methods, each through a receiver a client
holds. -/
inductive SysReachable : System → Prop where
  | init (st : State) (hgen : st.generationsC = []) (hclock : st.clockOk) :
      SysReachable ⟨st, []⟩
  | env (sys : System) (st2 : State) (h : SysReachable sys)
      (hgen : st2.generationsC = sys.st.generationsC)
      (hseq : st2.sequenceC = sys.st.sequenceC) (hclock : st2.clockOk) :
      SysReachable ⟨st2, sys.hs⟩
  | addGeneration (sys : System) (branchName userName : String) (h : SysReachable sys) :
      SysReachable ⟨(sys.st.AddGeneration branchName userName).2, sys.hs⟩
  | branch (sys : System) (name : String) (g : Generation) (h : SysReachable sys)
      (hg : sys.st.Branch name = .ok g) : SysReachable ⟨sys.st, sys.hs ++ [g]⟩
  | refresh (sys : System) (i : Nat) (g g2 : Generation) (h : SysReachable sys)
      (hi : sys.hs[i]? = some g) (hr : g.Refresh sys.st = .ok g2) :
      SysReachable ⟨sys.st, sys.hs.set i g2⟩
  | call (sys : System) (i : Nat) (g : Generation) (c : Call) (h : SysReachable sys)
      (hi : sys.hs[i]? = some g) :
      SysReachable ⟨(c.run g sys.st).2, sys.hs.set i (c.run g sys.st).1⟩

/-- The outcome of a call from the state `st`: the state after it is sound, the
documents of `st` evolved into it, and the receiver tracks it. -/
def CallOk (st : State) (g2 : Generation) (st2 : State) : Prop :=
  st2.Sound ∧ st.evolves st2 ∧ g2.tracks st2

/-- The invariant of the frame of `Commit` between attempts: the store is
sound, the receiver tracks it, and when a generation id was allocated the
stored document of the receiver has staged applications. -/
def Frame.committing (f : Frame) : Prop :=
  f.st.Sound ∧ f.g.tracks f.st ∧
    (f.newGenId ≠ 0 → ∃ d, f.st.findId f.g.doc.DocId = some d ∧ d.AssignedUnits ≠ [])

/-- One step of the system: a change of the environment, `AddGeneration`,
`Branch`, `Refresh`, or one of the four mutation methods through a receiver a
client holds. -/
inductive SysStep : System → System → Prop where
  | env (sys : System) (st2 : State) (hgen : st2.generationsC = sys.st.generationsC)
      (hseq : st2.sequenceC = sys.st.sequenceC) (hclock : st2.clockOk) :
      SysStep sys ⟨st2, sys.hs⟩
  | addGeneration (sys : System) (branchName userName : String) :
      SysStep sys ⟨(sys.st.AddGeneration branchName userName).2, sys.hs⟩
  | branch (sys : System) (name : String) (g : Generation)
      (hg : sys.st.Branch name = .ok g) : SysStep sys ⟨sys.st, sys.hs ++ [g]⟩
  | refresh (sys : System) (i : Nat) (g g2 : Generation) (hi : sys.hs[i]? = some g)
      (hr : g.Refresh sys.st = .ok g2) : SysStep sys ⟨sys.st, sys.hs.set i g2⟩
  | call (sys : System) (i : Nat) (g : Generation) (c : Call) (hi : sys.hs[i]? = some g) :
      SysStep sys ⟨(c.run g sys.st).2, sys.hs.set i (c.run g sys.st).1⟩

/-- A finite run of the system: steps one after the other. -/
inductive SysRun : System → System → Prop where
  | refl (sys : System) : SysRun sys sys
  | step (sys sys1 sys2 : System) (h : SysStep sys sys1) (hr : SysRun sys1 sys2) :
      SysRun sys sys2

/-- A store without branches, with the applications and units of `modelM`. -/
def seedModel : State := { modelM with generationsC := [], sequenceC := [] }

/-- The system after "alice" created the branch "db-upgrade" in `seedModel` and
a client read it. -/
def sysCreated : System :=
  ⟨(seedModel.AddGeneration "db-upgrade" "alice").2,
    [⟨newBranchDoc 0 "db-upgrade" "alice" 200⟩]⟩

/-- The system `sysCreated` after the client called
`AssignApplication("mysql")`. -/
def sysStaged : System :=
  ⟨((Call.assignApplication "mysql").run ⟨newBranchDoc 0 "db-upgrade" "alice" 200⟩
      sysCreated.st).2,
    [((Call.assignApplication "mysql").run ⟨newBranchDoc 0 "db-upgrade" "alice" 200⟩
      sysCreated.st).1]⟩

/-- The system `sysStaged` after the client called `Commit("bob")`. -/
def sysCommitted : System :=
  ⟨((Call.commit "bob").run ⟨newBranchDoc 0 "db-upgrade" "alice" 200⟩ sysStaged.st).2,
    [((Call.commit "bob").run ⟨newBranchDoc 0 "db-upgrade" "alice" 200⟩ sysStaged.st).1]⟩

/-- The document of "db-upgrade" in `sysCommitted`. -/
def dbDone : generationDoc :=
  { DocId := "0", TxnRevno := 4, Name := "db-upgrade", GenerationId := 1, ModelUUID := "",
    AssignedUnits := [("mysql", ["mysql/0", "mysql/1"])], Created := 200,
    CreatedBy := "alice", Completed := 200, CompletedBy := "bob" }

/-- The document of a second branch, "pg-upgrade", as "dave" creates it after
the commit of "db-upgrade". -/
def pgNew : generationDoc :=
  { DocId := "1", TxnRevno := 2, Name := "pg-upgrade", GenerationId := 0, ModelUUID := "",
    AssignedUnits := [], Created := 200, CreatedBy := "dave", Completed := 0,
    CompletedBy := "" }

/-- The store of `sysCommitted` after `AddGeneration("pg-upgrade", "dave")`. -/
def stTwo : State :=
  { modelM with generationsC := [dbDone, pgNew],
                sequenceC := [("branch", 2), ("generation", 2)] }

/-- The system after "dave" created "pg-upgrade". -/
def sysTwoAdded : System := ⟨stTwo, sysCommitted.hs⟩

/-- The system after a second client read "pg-upgrade". -/
def sysTwo : System := ⟨stTwo, sysCommitted.hs ++ [⟨pgNew⟩]⟩

/-- The system `sysTwo` after the second client called
`AssignApplication("pg")`. -/
def sysTwoStaged : System :=
  ⟨((Call.assignApplication "pg").run ⟨pgNew⟩ stTwo).2,
    sysTwo.hs.set 1 ((Call.assignApplication "pg").run ⟨pgNew⟩ stTwo).1⟩

/-- The system `sysTwoStaged` after the second client called
`Commit("dave")`. -/
def sysTwoCommitted : System :=
  ⟨((Call.commit "dave").run ⟨pgNew⟩ sysTwoStaged.st).2,
    sysTwoStaged.hs.set 1 ((Call.commit "dave").run ⟨pgNew⟩ sysTwoStaged.st).1⟩

/-- The open branch "pg-upgrade" with the staged application "pg". -/
def pgUpgrade : generationDoc :=
  { DocId := "1", TxnRevno := 3, Name := "pg-upgrade", GenerationId := 0, ModelUUID := "M",
    AssignedUnits := [("pg", [])], Created := 150, CreatedBy := "dave", Completed := 0,
    CompletedBy := "" }

/-- The model `modelM` with the open branches "db-upgrade" and "pg-upgrade",
one staged application each. -/
def modelTwo : State := { modelM with generationsC := [dbUpgrade, pgUpgrade] }

/-- Two calls of `Commit` that overlap, each as the runner executes its first
attempt: the first call builds its transaction (and allocates its generation
id), the second call builds its transaction and the store applies it, and then
the store applies the transaction of the first call. The result is the store
after the first applied write and the store after the second; `none` when a
build fails or a transaction is aborted. -/
def overlappedCommits (gA gB : Generation) (userA userB : String) (st : State) :
    Option (State × State) :=
  match commitBuildTxn userA 0 ⟨gA, st, 0⟩ with
  | (.error _, _) => none
  | (.ok opsA, fA) =>
    match commitBuildTxn userB 0 ⟨gB, fA.st, 0⟩ with
    | (.error _, _) => none
    | (.ok opsB, fB) =>
      match RunTransaction opsB fB.st with
      | none => none
      | some st3 =>
        match RunTransaction opsA st3 with
        | none => none
        | some st4 => some (st3, st4)

/-- The system `sysCommitted` after the client of "db-upgrade" called
`AssignApplication("pg")` on the committed branch. -/
def sysLater : System :=
  ⟨((Call.assignApplication "pg").run
      ((Call.commit "bob").run ⟨newBranchDoc 0 "db-upgrade" "alice" 200⟩ sysStaged.st).1
      sysCommitted.st).2,
    sysCommitted.hs.set 0 ((Call.assignApplication "pg").run
      ((Call.commit "bob").run ⟨newBranchDoc 0 "db-upgrade" "alice" 200⟩ sysStaged.st).1
      sysCommitted.st).1⟩

/-- Two calls of `AddGeneration` for the same name that overlap, each as the
runner executes its first attempt: both calls allocate their id from the
"branch" sequence, both run `buildTxn` (whose check finds no open branch of the
name), and then the store applies the two transactions, whose insertions carry
no assertion. The result is the store after both; `none` when an allocation or
a build fails or a transaction is aborted. -/
def overlappedAddGenerations (branchName userA userB : String) (st : State) :
    Option State :=
  match sequence st "branch" with
  | (.error _, _) => none
  | (.ok idA, st1) =>
    match sequence st1 "branch" with
    | (.error _, _) => none
    | (.ok idB, st2) =>
      match addGenerationBuildTxn idA branchName userA 0 st2 with
      | (.error _, _) => none
      | (.ok opsA, st3) =>
        match addGenerationBuildTxn idB branchName userB 0 st3 with
        | (.error _, _) => none
        | (.ok opsB, st4) =>
          match RunTransaction opsA st4 with
          | none => none
          | some st5 => RunTransaction opsB st5

/-- The two open branches named "x" that two overlapping calls of
`AddGeneration` leave in `emptyModel`. -/
def twoOpen : List generationDoc :=
  [{ DocId := "0", TxnRevno := 2, Name := "x", GenerationId := 0, ModelUUID := "",
     AssignedUnits := [], Created := 200, CreatedBy := "alice", Completed := 0,
     CompletedBy := "" },
   { DocId := "1", TxnRevno := 2, Name := "x", GenerationId := 0, ModelUUID := "",
     AssignedUnits := [], Created := 200, CreatedBy := "bob", Completed := 0,
     CompletedBy := "" }]

/-! # Theorems -/

/-! ## Lemmas on the store -/

theorem findId_docId {st : State} {id : String} {d : generationDoc}
    (h : st.findId id = some d) : d.DocId = id := by
  have := List.find?_some h
  simpa using this

theorem write_docId (chg : Change) (d : generationDoc) : (chg.write d).DocId = d.DocId := by
  cases chg <;> rfl

theorem find_updateId_same (f : generationDoc → generationDoc) (id : String)
    (hf : ∀ d, (f d).DocId = d.DocId) (l : List generationDoc) :
    (updateId f id l).find? (fun d => d.DocId == id)
      = (l.find? (fun d => d.DocId == id)).map f := by
  induction l with
  | nil => simp [updateId]
  | cons a t ih =>
    by_cases h : a.DocId = id
    · simp [updateId, h, hf]
    · simp [updateId, h, ih]

theorem find_updateId_other (f : generationDoc → generationDoc) (id id2 : String)
    (hf : ∀ d, (f d).DocId = d.DocId) (hne : id2 ≠ id) (l : List generationDoc) :
    (updateId f id l).find? (fun d => d.DocId == id2)
      = l.find? (fun d => d.DocId == id2) := by
  induction l with
  | nil => simp [updateId]
  | cons a t ih =>
    by_cases h : a.DocId = id
    · have h2 : ¬ a.DocId = id2 := fun e => hne (e.symm.trans h)
      have h3 : ¬ (f a).DocId = id2 := by rw [hf]; exact h2
      have hne2 : ¬ id = id2 := fun e => hne e.symm
      simp [updateId, h, List.find?_cons, h3, hne2]
    · by_cases h2 : a.DocId = id2
      · simp [updateId, h2, hne, List.find?_cons]
      · simp [updateId, h, h2, ih, List.find?_cons]

/-- A transaction of one asserted update: it is applied exactly when the
document exists and satisfies the conditions. -/
theorem RunTransaction_update (id : String) (conds : List Cond) (chg : Change) (st : State) :
    RunTransaction [Op.update id conds chg] st
      = match st.findId id with
        | none => none
        | some d =>
          if conds.all (Cond.holds d) then
            some { st with generationsC := updateId chg.write id st.generationsC }
          else none := by
  unfold RunTransaction
  cases h : st.findId id <;> simp [Op.asserted, Op.apply, h]

theorem refreshOnRetry_zero (f : Frame) : refreshOnRetry 0 f = .ok f := by
  simp [refreshOnRetry]

theorem refreshOnRetry_ok {i : Nat} {f f1 : Frame} (h : refreshOnRetry i f = .ok f1) :
    f1.st = f.st ∧ f1.newGenId = f.newGenId ∧ f1.g.doc.DocId = f.g.doc.DocId ∧
      (0 < i → f.st.findId f.g.doc.DocId = some f1.g.doc) := by
  unfold refreshOnRetry at h
  by_cases hi : i > 0
  · simp only [hi, if_true] at h
    unfold Generation.Refresh at h
    cases hf : f.st.findId f.g.doc.DocId with
    | none => simp [hf] at h
    | some d =>
      simp only [hf] at h
      cases h
      exact ⟨rfl, rfl, findId_docId hf, fun _ => rfl⟩
  · simp only [hi, if_false] at h
    cases h
    exact ⟨rfl, rfl, rfl, fun h0 => absurd h0 hi⟩

theorem refreshOnRetry_error_eq {i : Nat} {f : Frame} {e : Err}
    (h : refreshOnRetry i f = .error e) : e = Err.NotFound "generation" := by
  unfold refreshOnRetry at h
  by_cases hi : i > 0
  · simp only [hi, if_true] at h
    unfold Generation.Refresh at h
    cases hf : f.st.findId f.g.doc.DocId with
    | none => simp only [hf] at h; cases h; rfl
    | some d => simp [hf] at h
  · simp [hi] at h

theorem refreshOnRetry_error {i : Nat} {f : Frame} {e : Err} (h : refreshOnRetry i f = .error e) :
    f.st.findId f.g.doc.DocId = none := by
  unfold refreshOnRetry at h
  by_cases hi : i > 0
  · simp only [hi, if_true] at h
    unfold Generation.Refresh at h
    cases hf : f.st.findId f.g.doc.DocId with
    | none => rfl
    | some d => simp [hf] at h
  · simp [hi] at h

/-! ## Lemmas on the retry loop -/

/-- An invariant of the captured variables that every `buildTxn` call and every
applied transaction keeps is kept by the whole run. -/
theorem runLoop_invariant {σ : Type} (db : σ → State) (setDb : σ → State → σ)
    (build : Nat → σ → Except Err (List Op) × σ) (P : σ → Prop)
    (hbuild : ∀ i s, P s → P (build i s).2)
    (hrun : ∀ i s ops st2, P s → (build i s).1 = .ok ops →
      RunTransaction ops (db (build i s).2) = some st2 → P (setDb (build i s).2 st2)) :
    ∀ fuel i s, P s → P (runLoop db setDb build fuel i s).2 := by
  intro fuel
  induction fuel with
  | zero => intro i s hs; simpa [runLoop] using hs
  | succ n ih =>
    intro i s hs
    have hb := hbuild i s hs
    have hr := hrun i s
    unfold runLoop
    rcases hres : build i s with ⟨r, s1⟩
    rw [hres] at hb hr
    cases r with
    | error e =>
      cases e <;> simpa using hb
    | ok ops =>
      simp only
      cases ht : RunTransaction ops (db s1) with
      | none => exact ih _ _ hb
      | some st2 => exact hr ops st2 hs rfl ht

theorem RunTransaction_none_of_mem {ops : List Op} {st : State} {op : Op} (hmem : op ∈ ops)
    (h : op.asserted st = false) : RunTransaction ops st = none := by
  unfold RunTransaction
  have : ops.all (Op.asserted st) = false := by
    rw [List.all_eq_false]
    exact ⟨op, hmem, by simp [h]⟩
  simp [this]

/-- An update that asserts `completed` to be 0 is refused on a completed
document (and on a missing one). -/
theorem asserted_open_false {st : State} {id : String} {conds : List Cond} {chg : Change}
    (hdone : ∀ d, st.findId id = some d → d.Completed ≠ 0)
    (hmem : Cond.completedEq 0 ∈ conds) : (Op.update id conds chg).asserted st = false := by
  cases hf : st.findId id with
  | none => simp [Op.asserted, hf]
  | some d =>
    simp only [Op.asserted, hf]
    rw [List.all_eq_false]
    exact ⟨_, hmem, by simpa [Cond.holds] using hdone d hf⟩

theorem assignApplicationBuildTxn_completed {st : State} {id : String}
    (hdone : ∀ d, st.findId id = some d → d.Completed ≠ 0) (appName : String) (i : Nat)
    (f : Frame) (hf : f.on st id) :
    (assignApplicationBuildTxn appName i f).2.on st id ∧
      ∀ ops, (assignApplicationBuildTxn appName i f).1 = .ok ops →
        RunTransaction ops (assignApplicationBuildTxn appName i f).2.st = none := by
  unfold assignApplicationBuildTxn
  cases hr : refreshOnRetry i f with
  | error e => exact ⟨hf, fun ops h => by simp at h⟩
  | ok f1 =>
    obtain ⟨h1, -, h3, -⟩ := refreshOnRetry_ok hr
    have hf1 : f1.on st id := ⟨h1.trans hf.1, h3.trans hf.2⟩
    simp only
    by_cases hhas : f1.g.doc.AssignedUnits.has appName = true
    · simp only [hhas, if_true]
      exact ⟨hf1, fun ops h => by simp at h⟩
    · simp only [hhas, Bool.false_eq_true, if_false]
      cases hc : f1.g.CheckNotComplete with
      | some e => exact ⟨hf1, fun ops h => by simp at h⟩
      | none =>
        refine ⟨hf1, fun ops h => ?_⟩
        simp only [Except.ok.injEq] at h
        subst h
        apply RunTransaction_none_of_mem (List.mem_singleton_self _)
        rw [hf1.1, hf1.2]
        exact asserted_open_false hdone (by simp)

theorem assignUnitBuildTxn_completed {st : State} {id : String}
    (hdone : ∀ d, st.findId id = some d → d.Completed ≠ 0) (appName unitName : String)
    (i : Nat) (f : Frame) (hf : f.on st id) :
    (assignUnitBuildTxn appName unitName i f).2.on st id ∧
      ∀ ops, (assignUnitBuildTxn appName unitName i f).1 = .ok ops →
        RunTransaction ops (assignUnitBuildTxn appName unitName i f).2.st = none := by
  unfold assignUnitBuildTxn
  cases hr : refreshOnRetry i f with
  | error e => exact ⟨hf, fun ops h => by simp at h⟩
  | ok f1 =>
    obtain ⟨h1, -, h3, -⟩ := refreshOnRetry_ok hr
    have hf1 : f1.on st id := ⟨h1.trans hf.1, h3.trans hf.2⟩
    simp only
    cases hc : f1.g.CheckNotComplete with
    | some e => exact ⟨hf1, fun ops h => by simp at h⟩
    | none =>
      simp only
      by_cases hin : (f1.g.doc.AssignedUnits.get appName).contains unitName = true
      · simp only [hin, if_true]
        exact ⟨hf1, fun ops h => by simp at h⟩
      · simp only [hin, Bool.false_eq_true, if_false]
        refine ⟨hf1, fun ops h => ?_⟩
        simp only [Except.ok.injEq] at h
        subst h
        apply RunTransaction_none_of_mem (List.mem_singleton_self _)
        rw [hf1.1, hf1.2]
        exact asserted_open_false hdone (by simp)

theorem assignAllUnitsBuildTxn_completed {st : State} {id : String}
    (hdone : ∀ d, st.findId id = some d → d.Completed ≠ 0) (appName : String) (i : Nat)
    (f : Frame) (hf : f.on st id) :
    (assignAllUnitsBuildTxn appName i f).2.on st id ∧
      ∀ ops, (assignAllUnitsBuildTxn appName i f).1 = .ok ops →
        RunTransaction ops (assignAllUnitsBuildTxn appName i f).2.st = none := by
  unfold assignAllUnitsBuildTxn
  cases hr : refreshOnRetry i f with
  | error e => exact ⟨hf, fun ops h => by simp at h⟩
  | ok f1 =>
    obtain ⟨h1, -, h3, -⟩ := refreshOnRetry_ok hr
    have hf1 : f1.on st id := ⟨h1.trans hf.1, h3.trans hf.2⟩
    simp only
    cases hc : f1.g.CheckNotComplete with
    | some e => exact ⟨hf1, fun ops h => by simp at h⟩
    | none =>
      simp only
      cases hu : appUnitNames f1.st appName with
      | error e => exact ⟨hf1, fun ops h => by simp at h⟩
      | ok unitNames =>
        simp only
        cases ha : f1.st.Application appName with
        | error e => exact ⟨hf1, fun ops h => by simp at h⟩
        | ok app =>
          simp only
          split
          · exact ⟨hf1, fun ops h => by simp at h⟩
          · rename_i hlen
            refine ⟨hf1, fun ops h => ?_⟩
            simp only [Except.ok.injEq] at h
            subst h
            generalize hL : unitNames.filter
              (fun name => !((f1.g.doc.AssignedUnits.get appName).contains name)) = L at *
            cases L with
            | nil => simp at hlen
            | cons u t =>
              have hmem : Op.update f1.g.doc.DocId
                  [Cond.completedEq 0, Cond.assignedExists, Cond.unitNotIn appName u]
                  (Change.pushUnit appName u) ∈
                  Op.assertApp app.DocID Life.Alive app.UnitCount ::
                    (u :: t).flatMap
                      (fun name => assignGenerationUnitTxnOps f1.g.doc.DocId appName name) := by
                simp [assignGenerationUnitTxnOps]
              apply RunTransaction_none_of_mem hmem
              rw [hf1.1, hf1.2]
              exact asserted_open_false hdone (by simp)

/-! ## Lemmas on maps -/

theorem UnitMap.keys_set_of_mem (m : UnitMap) (k : String) (v : List String)
    (h : k ∈ m.keys) : (m.set k v).keys = m.keys := by
  induction m with
  | nil => simp [UnitMap.keys] at h
  | cons a t ih =>
    obtain ⟨k0, v0⟩ := a
    by_cases hk : k0 = k
    · simp [UnitMap.set, UnitMap.keys, hk]
    · have ht : k ∈ UnitMap.keys t := by
        simp only [UnitMap.keys, List.map_cons, List.mem_cons] at h
        rcases h with h | h
        · exact absurd h.symm hk
        · exact h
      have := ih ht
      simp only [UnitMap.keys] at this
      simp [UnitMap.set, UnitMap.keys, hk, this]

theorem UnitMap.get_set_same (m : UnitMap) (k : String) (v : List String) :
    (m.set k v).get k = v := by
  induction m with
  | nil => simp [UnitMap.set, UnitMap.get, List.lookup]
  | cons a t ih =>
    obtain ⟨k0, v0⟩ := a
    by_cases hk : k0 = k
    · simp [UnitMap.set, UnitMap.get, List.lookup, hk]
    · have hk2 : (k == k0) = false := by simpa using fun e => hk e.symm
      simp only [UnitMap.get] at ih
      simp [UnitMap.set, UnitMap.get, List.lookup, hk, hk2, ih]

theorem UnitMap.lookup_set_other (m : UnitMap) (k k2 : String) (v : List String)
    (hne : k2 ≠ k) : (m.set k v).lookup k2 = m.lookup k2 := by
  induction m with
  | nil =>
    have : (k2 == k) = false := by simpa using hne
    simp [UnitMap.set, List.lookup, this]
  | cons a t ih =>
    obtain ⟨k0, v0⟩ := a
    by_cases hk : k0 = k
    · have : (k2 == k) = false := by simpa using hne
      simp [UnitMap.set, List.lookup, hk, this]
    · by_cases hk2 : k2 = k0
      · simp [UnitMap.set, List.lookup, hk, hk2]
      · have : (k2 == k0) = false := by simpa using hk2
        simp [UnitMap.set, List.lookup, hk, this, ih]

theorem UnitMap.get_set_other (m : UnitMap) (k k2 : String) (v : List String)
    (hne : k2 ≠ k) : (m.set k v).get k2 = m.get k2 := by
  simp [UnitMap.get, UnitMap.lookup_set_other m k k2 v hne]

/-- What the loop of `Commit` leaves in the map: when no enumeration fails the
keys are the same and every visited key holds the enumerated unit names; an
error is the enumeration error and the keys are the same. -/
theorem commitLoop_spec (st : State) :
    ∀ (ks : List String) (m : UnitMap), (∀ k ∈ ks, k ∈ m.keys) →
      (commitLoop st ks m).2.keys = m.keys ∧
      (∀ k, k ∉ ks → (commitLoop st ks m).2.get k = m.get k) ∧
      ((commitLoop st ks m).1 = none →
        ∀ k ∈ ks, appUnitNames st k = .ok ((commitLoop st ks m).2.get k)) ∧
      (∀ e, (commitLoop st ks m).1 = some e → e = Err.New "cannot read units") := by
  intro ks
  induction ks with
  | nil => intro m _; simp [commitLoop]
  | cons a rest ih =>
    intro m hks
    cases hu : appUnitNames st a with
    | error e =>
      have he : e = Err.New "cannot read units" := by
        unfold appUnitNames at hu
        split at hu <;> simp at hu
        exact hu.symm
      simp [commitLoop, hu, he]
    | ok units =>
      have ha : a ∈ m.keys := hks a (List.mem_cons_self _ _)
      have hkeys := UnitMap.keys_set_of_mem m a units ha
      have hrest : ∀ k ∈ rest, k ∈ (m.set a units).keys := by
        intro k hk
        rw [hkeys]
        exact hks k (List.mem_cons_of_mem _ hk)
      obtain ⟨h1, h2, h3, h4⟩ := ih (m.set a units) hrest
      simp only [commitLoop, hu]
      refine ⟨h1.trans hkeys, ?_, ?_, h4⟩
      · intro k hk
        have hka : k ≠ a := fun e => hk (e ▸ List.mem_cons_self _ _)
        have hkr : k ∉ rest := fun e => hk (List.mem_cons_of_mem _ e)
        rw [h2 k hkr, UnitMap.get_set_other m a k units hka]
      · intro hnone k hk
        by_cases hkr : k ∈ rest
        · exact h3 hnone k hkr
        · have hka : k = a := by
            rcases List.mem_cons.1 hk with h | h
            · exact h
            · exact absurd h hkr
          subst hka
          rw [h2 k hkr, UnitMap.get_set_same, hu]

/-! ## Lemmas on `Commit` -/

/-- Case analysis of `buildTxn` of `Commit`. -/
theorem commitBuildTxn_cases (userName : String) (i : Nat) (f : Frame) :
    (∃ e, refreshOnRetry i f = .error e ∧ e ≠ Err.ErrNoOperations ∧
        commitBuildTxn userName i f = (.error e, f)) ∨
    ∃ f1, refreshOnRetry i f = .ok f1 ∧
      ((f1.g.IsCompleted = true ∧ f1.g.GenerationId = 0 ∧
          commitBuildTxn userName i f = (.error (Err.New "branch was already aborted"), f1)) ∨
       (f1.g.IsCompleted = true ∧ f1.g.GenerationId ≠ 0 ∧
          commitBuildTxn userName i f = (.error Err.ErrNoOperations, f1)) ∨
       (f1.g.IsCompleted = false ∧ f1.st.clock = none ∧
          commitBuildTxn userName i f
            = (.error (Err.New "cannot read controller timestamp"), f1)) ∨
       (f1.g.IsCompleted = false ∧ ∃ now, f1.st.clock = some now ∧
          CommitOpenCase userName f1 now (commitBuildTxn userName i f))) := by
  unfold commitBuildTxn
  cases hr : refreshOnRetry i f with
  | error e =>
    left
    refine ⟨e, rfl, ?_, rfl⟩
    rw [refreshOnRetry_error_eq hr]
    simp
  | ok f1 =>
    right
    refine ⟨f1, rfl, ?_⟩
    simp only
    by_cases hc : f1.g.IsCompleted = true
    · by_cases hg : f1.g.GenerationId = 0
      · left; simp [hc, hg]
      · right; left; simp [hc, hg]
    · have hc2 : f1.g.IsCompleted = false := by simpa using hc
      right; right
      simp only [hc2, Bool.false_eq_true, if_false]
      cases hclk : f1.st.clock with
      | none => left; simp [State.ControllerTimestamp, hclk]
      | some now =>
        right
        refine ⟨trivial, now, rfl, ?_⟩
        simp only [State.ControllerTimestamp, hclk]
        have hspec := (commitLoop_spec f1.st f1.g.AssignedUnits.keys f1.g.AssignedUnits
          (fun k hk => hk)).2.2.2
        unfold CommitOpenCase
        rcases hlp : commitLoop f1.st f1.g.AssignedUnits.keys f1.g.AssignedUnits with ⟨e, m⟩
        rw [hlp] at hspec
        cases e with
        | some e =>
          have := hspec e rfl
          subst this
          left; simp
        | none =>
          right
          simp only
          by_cases hm : m = []
          · right; right
            subst hm
            simp [Frame.setAssigned]
          · have hlen : m.length > 0 := List.length_pos.2 hm
            by_cases hd : f1.st.sequenceDown = true
            · left
              simp [hm, hlen, hd, sequenceWithMin, Frame.setAssigned]
            · right; left
              have hd2 : f1.st.sequenceDown = false := by simpa using hd
              simp [hm, hlen, hd2, sequenceWithMin, Frame.setAssigned,
                State.afterGenerationSeq]

/-- A successful run ends either in a `buildTxn` that reports no operations or
in an applied transaction; what holds in both cases holds after the run. -/
theorem runLoop_success {σ : Type} (db : σ → State) (setDb : σ → State → σ)
    (build : Nat → σ → Except Err (List Op) × σ) (P : Nat → σ → Prop) (Q : σ → Prop)
    (hnoop : ∀ i s, P i s → (build i s).1 = .error Err.ErrNoOperations → Q (build i s).2)
    (hwrite : ∀ i s ops st2, P i s → (build i s).1 = .ok ops →
      RunTransaction ops (db (build i s).2) = some st2 → Q (setDb (build i s).2 st2))
    (hretry : ∀ i s ops, P i s → (build i s).1 = .ok ops →
      RunTransaction ops (db (build i s).2) = none → P (i + 1) (build i s).2) :
    ∀ fuel i s, P i s → (runLoop db setDb build fuel i s).1 = none →
      Q (runLoop db setDb build fuel i s).2 := by
  intro fuel
  induction fuel with
  | zero => intro i s _ h; simp [runLoop] at h
  | succ n ih =>
    intro i s hs
    have h1 := hnoop i s hs
    have h2 := hwrite i s
    have h3 := hretry i s
    unfold runLoop
    rcases hres : build i s with ⟨r, s1⟩
    rw [hres] at h1 h2 h3
    cases r with
    | error e =>
      cases e with
      | ErrNoOperations => intro _; exact h1 rfl
      | ErrExcessiveContention => intro h; simp at h
      | NotFound w => intro h; simp at h
      | New m => intro h; simp at h
    | ok ops =>
      simp only
      cases ht : RunTransaction ops (db s1) with
      | none => exact ih _ _ (h3 ops hs rfl ht)
      | some st2 => intro _; exact h2 ops st2 hs rfl ht

/-- The frame of `buildTxn` of `Commit`: the receiver names the same document
and nothing of the state but the sequence counters changes. -/
theorem commitBuildTxn_frame (userName : String) (i : Nat) (f : Frame) :
    (commitBuildTxn userName i f).2.g.doc.DocId = f.g.doc.DocId ∧
      (commitBuildTxn userName i f).2.st
        = { f.st with sequenceC := (commitBuildTxn userName i f).2.st.sequenceC } := by
  rcases commitBuildTxn_cases userName i f with ⟨e, -, -, h⟩ | ⟨f1, hr, h⟩
  · rw [h]; exact ⟨rfl, rfl⟩
  · obtain ⟨h1, -, h3, -⟩ := refreshOnRetry_ok hr
    rcases h with ⟨-, -, h⟩ | ⟨-, -, h⟩ | ⟨-, -, h⟩ | ⟨-, now, -, h⟩
    · rw [h]; exact ⟨h3, by rw [h1]⟩
    · rw [h]; exact ⟨h3, by rw [h1]⟩
    · rw [h]; exact ⟨h3, by rw [h1]⟩
    · unfold CommitOpenCase at h
      rcases h with ⟨-, h⟩ | ⟨-, -, -, h⟩ | ⟨-, -, -, h⟩ | ⟨-, -, h⟩
      · rw [h]; exact ⟨h3, by simp [Frame.setAssigned, h1]⟩
      · rw [h]; exact ⟨h3, by simp [Frame.setAssigned, h1]⟩
      · rw [h]; exact ⟨h3, by simp [Frame.setAssigned, h1, State.afterGenerationSeq]⟩
      · rw [h]; exact ⟨h3, by simp [Frame.setAssigned, h1]⟩

/-- The operations `buildTxn` of `Commit` proposes: one update that asserts the
cached revision number and completes the document at the clock's time. -/
theorem commitBuildTxn_ops {userName : String} {i : Nat} {f : Frame} {ops : List Op}
    (h : (commitBuildTxn userName i f).1 = .ok ops) :
    ∃ f1 now, refreshOnRetry i f = .ok f1 ∧ f1.g.IsCompleted = false ∧
      f.st.clock = some now ∧
      ops = commitTxnOps f.g.doc.DocId f1.g.doc.TxnRevno
        (commitBuildTxn userName i f).2.g.doc.AssignedUnits now userName
        (commitBuildTxn userName i f).2.newGenId ∧
      CommitOpenCase userName f1 now (commitBuildTxn userName i f) := by
  rcases commitBuildTxn_cases userName i f with ⟨e, -, -, h2⟩ | ⟨f1, hr, h2⟩
  · rw [h2] at h; simp at h
  · obtain ⟨h1, -, h3, -⟩ := refreshOnRetry_ok hr
    rcases h2 with ⟨-, -, h2⟩ | ⟨-, -, h2⟩ | ⟨-, -, h2⟩ | ⟨hc, now, hclk, h2⟩
    · rw [h2] at h; simp at h
    · rw [h2] at h; simp at h
    · rw [h2] at h; simp at h
    · refine ⟨f1, now, hr, hc, h1 ▸ hclk, ?_, h2⟩
      have h2c := h2
      unfold CommitOpenCase at h2
      rcases h2 with ⟨-, h2⟩ | ⟨-, -, -, h2⟩ | ⟨-, -, -, h2⟩ | ⟨-, -, h2⟩
      · rw [h2] at h; simp at h
      · rw [h2] at h; simp at h
      · rw [h2] at h ⊢
        simp only [Except.ok.injEq] at h
        rw [← h, h3]
        simp [Frame.setAssigned]
      · rw [h2] at h ⊢
        simp only [Except.ok.injEq] at h
        rw [← h, h3]
        simp [Frame.setAssigned]

/-- The result and the state of `Commit` are those of its run. -/
theorem Commit_run (g : Generation) (userName : String) (st : State) :
    (g.Commit userName st).ret.2
        = (Run Frame.st Frame.setSt (commitBuildTxn userName) ⟨g, st, 0⟩).1 ∧
      (g.Commit userName st).st
        = (Run Frame.st Frame.setSt (commitBuildTxn userName) ⟨g, st, 0⟩).2.st ∧
      (g.Commit userName st).g
        = (Run Frame.st Frame.setSt (commitBuildTxn userName) ⟨g, st, 0⟩).2.g := by
  unfold Generation.Commit
  generalize Run Frame.st Frame.setSt (commitBuildTxn userName) ⟨g, st, 0⟩ = r
  rcases r with ⟨e, f⟩
  cases e <;> simp

/-- The store after an applied update of one document. -/
theorem RunTransaction_update_some {id : String} {conds : List Cond} {chg : Change}
    {st st2 : State} (h : RunTransaction [Op.update id conds chg] st = some st2) :
    ∃ d, st.findId id = some d ∧ conds.all (Cond.holds d) = true ∧
      st2 = { st with generationsC := updateId chg.write id st.generationsC } ∧
      st2.findId id = some (chg.write d) := by
  rw [RunTransaction_update] at h
  cases hf : st.findId id with
  | none => simp [hf] at h
  | some d =>
    simp only [hf] at h
    by_cases hc : conds.all (Cond.holds d) = true
    · simp only [hc, if_true, Option.some.injEq] at h
      refine ⟨d, rfl, hc, h.symm, ?_⟩
      rw [← h]
      unfold State.findId at hf ⊢
      simp only
      rw [find_updateId_same _ _ (write_docId chg), hf]
      rfl
    · simp [hc] at h

/-- After a successful `Commit` through a receiver that did not hold a completed
document, the stored document is completed. -/
theorem commit_success_stored (g : Generation) (userName : String) (st : State) (now : Int)
    (hclock : st.clock = some now) (hnow : 0 < now) (hopen : g.IsCompleted = false)
    (hok : (g.Commit userName st).ret.2 = none) :
    ∃ d, (g.Commit userName st).st.findId g.doc.DocId = some d ∧ 0 < d.Completed := by
  obtain ⟨hret, hst, -⟩ := Commit_run g userName st
  rw [hret] at hok
  rw [hst]
  have key := runLoop_success Frame.st Frame.setSt (commitBuildTxn userName)
    (fun i f => f.g.doc.DocId = g.doc.DocId ∧ f.st.clock = some now ∧
      (i = 0 → f.g.IsCompleted = false))
    (fun f => ∃ d, f.st.findId g.doc.DocId = some d ∧ 0 < d.Completed)
    ?_ ?_ ?_ st.nrRetries 0 ⟨g, st, 0⟩ ⟨rfl, hclock, fun _ => hopen⟩ hok
  · exact key
  · rintro i f ⟨hid, -, h0⟩ hb
    rcases commitBuildTxn_cases userName i f with ⟨e, -, hne, h⟩ | ⟨f1, hr, h⟩
    · rw [h] at hb; simp at hb; exact absurd hb hne
    · obtain ⟨h1, -, h3, h4⟩ := refreshOnRetry_ok hr
      rcases h with ⟨-, -, h⟩ | ⟨hc, -, h⟩ | ⟨-, -, h⟩ | ⟨-, now2, -, h⟩
      · rw [h] at hb; simp at hb
      · rw [h]
        by_cases hi : i = 0
        · subst hi
          rw [refreshOnRetry_zero] at hr
          cases hr
          rw [h0 rfl] at hc
          simp at hc
        · have hfind := h4 (Nat.pos_of_ne_zero hi)
          refine ⟨f1.g.doc, ?_, ?_⟩
          · simp only [h1]
            rw [← hid]; exact hfind
          · simpa [Generation.IsCompleted] using hc
      · rw [h] at hb; simp at hb
      · unfold CommitOpenCase at h
        rcases h with ⟨-, h⟩ | ⟨-, -, -, h⟩ | ⟨-, -, -, h⟩ | ⟨-, -, h⟩ <;>
          (rw [h] at hb; simp at hb)
  · rintro i f ops st2 ⟨hid, hclk, -⟩ hb ht
    obtain ⟨f1, now2, -, -, hclk2, hops, -⟩ := commitBuildTxn_ops hb
    have hnow2 : now2 = now := by
      rw [hclk] at hclk2; exact (Option.some.inj hclk2).symm
    subst hnow2
    rw [hops] at ht
    obtain ⟨d, -, -, -, hfind⟩ := RunTransaction_update_some ht
    rw [hid] at hfind
    exact ⟨_, hfind, hnow⟩
  · rintro i f ops ⟨hid, hclk, -⟩ - -
    obtain ⟨h1, h2⟩ := commitBuildTxn_frame userName i f
    refine ⟨h1.trans hid, ?_, fun h => by omega⟩
    rw [h2]; exact hclk

/-! ## Completed branches -/

theorem CheckNotComplete_completed (g : Generation) (h : g.doc.Completed ≠ 0) :
    g.CheckNotComplete = some (alreadyCompleted g.doc) := by
  unfold Generation.CheckNotComplete alreadyCompleted
  by_cases hg : g.doc.GenerationId = 0 <;> simp [h, hg]

theorem AssignApplication_run (g : Generation) (appName : String) (st : State) :
    (g.AssignApplication appName st).ret
        = (Run Frame.st Frame.setSt (assignApplicationBuildTxn appName) ⟨g, st, 0⟩).1 ∧
      (g.AssignApplication appName st).st
        = (Run Frame.st Frame.setSt (assignApplicationBuildTxn appName) ⟨g, st, 0⟩).2.st ∧
      (g.AssignApplication appName st).g
        = (Run Frame.st Frame.setSt (assignApplicationBuildTxn appName) ⟨g, st, 0⟩).2.g :=
  ⟨rfl, rfl, rfl⟩

theorem AssignAllUnits_run (g : Generation) (appName : String) (st : State) :
    (g.AssignAllUnits appName st).ret
        = (Run Frame.st Frame.setSt (assignAllUnitsBuildTxn appName) ⟨g, st, 0⟩).1 ∧
      (g.AssignAllUnits appName st).st
        = (Run Frame.st Frame.setSt (assignAllUnitsBuildTxn appName) ⟨g, st, 0⟩).2.st ∧
      (g.AssignAllUnits appName st).g
        = (Run Frame.st Frame.setSt (assignAllUnitsBuildTxn appName) ⟨g, st, 0⟩).2.g :=
  ⟨rfl, rfl, rfl⟩

theorem AssignUnit_run (g : Generation) (appName unitName : String) (st : State)
    (hu : UnitApplication unitName = .ok appName) :
    (g.AssignUnit unitName st).ret
        = (Run Frame.st Frame.setSt (assignUnitBuildTxn appName unitName) ⟨g, st, 0⟩).1 ∧
      (g.AssignUnit unitName st).st
        = (Run Frame.st Frame.setSt (assignUnitBuildTxn appName unitName) ⟨g, st, 0⟩).2.st ∧
      (g.AssignUnit unitName st).g
        = (Run Frame.st Frame.setSt (assignUnitBuildTxn appName unitName) ⟨g, st, 0⟩).2.g := by
  unfold Generation.AssignUnit
  rw [hu]
  exact ⟨rfl, rfl, rfl⟩

/-- No assignment writes to a completed branch document, whatever the receiver
holds. -/
theorem assign_completed_no_write {st : State} {id : String}
    (hdone : ∀ d, st.findId id = some d → d.Completed ≠ 0) (h : Generation)
    (hid : h.doc.DocId = id) (appName unitName : String) :
    (h.AssignApplication appName st).st = st ∧ (h.AssignUnit unitName st).st = st ∧
      (h.AssignAllUnits appName st).st = st := by
  have hon : Frame.on st id ⟨h, st, 0⟩ := ⟨rfl, hid⟩
  refine ⟨?_, ?_, ?_⟩
  · exact (runLoop_invariant Frame.st Frame.setSt (assignApplicationBuildTxn appName)
      (Frame.on st id)
      (fun i s hs => (assignApplicationBuildTxn_completed hdone appName i s hs).1)
      (fun i s ops st2 hs hb ht => by
        rw [(assignApplicationBuildTxn_completed hdone appName i s hs).2 ops hb] at ht
        cases ht) _ 0 _ hon).1
  · cases hu : UnitApplication unitName with
    | error e => simp [Generation.AssignUnit, hu]
    | ok app =>
      rw [(AssignUnit_run h app unitName st hu).2.1]
      exact (runLoop_invariant Frame.st Frame.setSt (assignUnitBuildTxn app unitName)
        (Frame.on st id)
        (fun i s hs => (assignUnitBuildTxn_completed hdone app unitName i s hs).1)
        (fun i s ops st2 hs hb ht => by
          rw [(assignUnitBuildTxn_completed hdone app unitName i s hs).2 ops hb] at ht
          cases ht) _ 0 _ hon).1
  · exact (runLoop_invariant Frame.st Frame.setSt (assignAllUnitsBuildTxn appName)
      (Frame.on st id)
      (fun i s hs => (assignAllUnitsBuildTxn_completed hdone appName i s hs).1)
      (fun i s ops st2 hs hb ht => by
        rw [(assignAllUnitsBuildTxn_completed hdone appName i s hs).2 ops hb] at ht
        cases ht) _ 0 _ hon).1

/-- Through a receiver that holds the completed document, the assignments
return the error of `CheckNotComplete`; `AssignApplication` does so for an
application that is not a key of the cached map. -/
theorem assign_completed_error (h : Generation) (st : State) (hdone : h.doc.Completed ≠ 0)
    (hretry : 0 < st.nrRetries) (appName unitName : String) :
    (UnitApplication unitName = .ok appName →
      (h.AssignUnit unitName st).ret = some (alreadyCompleted h.doc)) ∧
    (h.AssignAllUnits appName st).ret = some (alreadyCompleted h.doc) ∧
    (h.doc.AssignedUnits.has appName = false →
      (h.AssignApplication appName st).ret = some (alreadyCompleted h.doc)) := by
  obtain ⟨n, hn⟩ : ∃ n, st.nrRetries = n + 1 := ⟨st.nrRetries - 1, by omega⟩
  have hc := CheckNotComplete_completed h hdone
  refine ⟨fun hu => ?_, ?_, fun hhas => ?_⟩
  · rw [(AssignUnit_run h appName unitName st hu).1]
    simp [Run, hn, runLoop, assignUnitBuildTxn, refreshOnRetry, hc, alreadyCompleted]
  · rw [(AssignAllUnits_run h appName st).1]
    simp [Run, hn, runLoop, assignAllUnitsBuildTxn, refreshOnRetry, hc, alreadyCompleted]
  · rw [(AssignApplication_run h appName st).1]
    simp [Run, hn, runLoop, assignApplicationBuildTxn, refreshOnRetry, hc, hhas,
      alreadyCompleted]

/-! ## C1: completion immutability -/

/-- C1, as amended. After `Commit` has succeeded on a branch (through a receiver
that held it as not completed, at a positive clock), the stored document `d`
is completed, and in every later state that holds `d` each call of
`AssignApplication`, `AssignUnit` or `AssignAllUnits` through any receiver of
that branch leaves the whole state unchanged. Through a receiver that holds
`d` (refreshed since the commit) `AssignUnit` for a well-formed unit name and
`AssignAllUnits` return the "branch was already committed/aborted" error, and
`AssignApplication` returns it for an application that is not a key of
`assignedUnits`. -/
theorem C1_assign_after_commit (g : Generation) (userName : String) (st : State) (now : Int)
    (hclock : st.clock = some now) (hnow : 0 < now) (hopen : g.IsCompleted = false)
    (hok : (g.Commit userName st).ret.2 = none) :
    ∃ d, (g.Commit userName st).st.findId g.doc.DocId = some d ∧ d.Completed ≠ 0 ∧
      ∀ (st2 : State) (h : Generation) (appName unitName : String),
        st2.findId g.doc.DocId = some d → h.doc.DocId = g.doc.DocId →
          ((h.AssignApplication appName st2).st = st2 ∧
            (h.AssignUnit unitName st2).st = st2 ∧
            (h.AssignAllUnits appName st2).st = st2) ∧
          (h.doc = d → 0 < st2.nrRetries →
            (UnitApplication unitName = .ok appName →
              (h.AssignUnit unitName st2).ret = some (alreadyCompleted d)) ∧
            (h.AssignAllUnits appName st2).ret = some (alreadyCompleted d) ∧
            (d.AssignedUnits.has appName = false →
              (h.AssignApplication appName st2).ret = some (alreadyCompleted d))) := by
  obtain ⟨d, hd, hpos⟩ := commit_success_stored g userName st now hclock hnow hopen hok
  have hne : d.Completed ≠ 0 := by omega
  refine ⟨d, hd, hne, ?_⟩
  intro st2 h appName unitName hfind hid
  refine ⟨?_, ?_⟩
  · apply assign_completed_no_write _ h hid
    intro d2 hd2
    rw [hfind] at hd2
    cases hd2
    exact hne
  · intro hdoc hretry
    subst hdoc
    exact assign_completed_error h st2 hne hretry appName unitName

/-- C1 at the branch "db-upgrade" committed by "bob". -/
theorem C1_assign_after_commit_witness :
    modelM.clock = some 200 ∧ (0 : Int) < 200 ∧ Generation.IsCompleted ⟨dbUpgrade⟩ = false ∧
    (Generation.Commit ⟨dbUpgrade⟩ "bob" modelM).ret.2 = none ∧
    ∃ d, (Generation.Commit ⟨dbUpgrade⟩ "bob" modelM).st.findId dbUpgrade.DocId = some d ∧
      d.Completed ≠ 0 ∧
      ∀ (st2 : State) (h : Generation) (appName unitName : String),
        st2.findId dbUpgrade.DocId = some d → h.doc.DocId = dbUpgrade.DocId →
          ((h.AssignApplication appName st2).st = st2 ∧
            (h.AssignUnit unitName st2).st = st2 ∧
            (h.AssignAllUnits appName st2).st = st2) ∧
          (h.doc = d → 0 < st2.nrRetries →
            (UnitApplication unitName = .ok appName →
              (h.AssignUnit unitName st2).ret = some (alreadyCompleted d)) ∧
            (h.AssignAllUnits appName st2).ret = some (alreadyCompleted d) ∧
            (d.AssignedUnits.has appName = false →
              (h.AssignApplication appName st2).ret = some (alreadyCompleted d))) :=
  ⟨rfl, by decide, rfl, by decide,
    C1_assign_after_commit ⟨dbUpgrade⟩ "bob" modelM 200 rfl (by decide) rfl (by decide)⟩

/-- C1 fails as stated: after `Commit("bob")` has succeeded on "db-upgrade"
(returning 1), the calls `AssignUnit("mysql/0")`, `AssignAllUnits("mysql")` and
`AssignApplication("mysql")` on the same `Generation` return no error, and
`AssignApplication("mysql")` returns no error on a refreshed one either. -/
theorem C1_counterexample :
    (Generation.Commit ⟨dbUpgrade⟩ "bob" modelM).ret = (1, none) ∧
    ((Generation.Commit ⟨dbUpgrade⟩ "bob" modelM).g.AssignUnit "mysql/0"
      (Generation.Commit ⟨dbUpgrade⟩ "bob" modelM).st).ret = none ∧
    ((Generation.Commit ⟨dbUpgrade⟩ "bob" modelM).g.AssignAllUnits "mysql"
      (Generation.Commit ⟨dbUpgrade⟩ "bob" modelM).st).ret = none ∧
    ((Generation.Commit ⟨dbUpgrade⟩ "bob" modelM).g.AssignApplication "mysql"
      (Generation.Commit ⟨dbUpgrade⟩ "bob" modelM).st).ret = none ∧
    ∃ h, (Generation.Commit ⟨dbUpgrade⟩ "bob" modelM).g.Refresh
        (Generation.Commit ⟨dbUpgrade⟩ "bob" modelM).st = .ok h ∧
      h.doc.Completed = 200 ∧
      (h.AssignApplication "mysql" (Generation.Commit ⟨dbUpgrade⟩ "bob" modelM).st).ret
        = none := by
  refine ⟨by decide, by decide, by decide, by decide, ?_⟩
  exact ⟨⟨dbUpgradeCommitted⟩, by rfl, by decide, by decide⟩

/-! ## `Commit` through a receiver that holds the stored, open document -/

/-- The revision assertion of `Commit` holds when the receiver holds the stored
document, so the first attempt is applied. -/
theorem RunTransaction_commit_fresh (g : Generation) (st : State)
    (hfresh : st.findId g.doc.DocId = some g.doc) (m : UnitMap) (now : Int)
    (userName : String) (gid : Int) (seq : List (String × Nat)) :
    RunTransaction (commitTxnOps g.doc.DocId g.doc.TxnRevno m now userName gid)
        { st with sequenceC := seq }
      = some { st with
          sequenceC := seq,
          generationsC :=
            (updateId (Change.write (Change.complete m now userName gid)) g.doc.DocId
              st.generationsC) } := by
  unfold commitTxnOps
  rw [RunTransaction_update]
  have : State.findId { st with sequenceC := seq } g.doc.DocId = some g.doc := hfresh
  rw [this]
  simp [Cond.holds]

theorem runLoop_step_ok {σ : Type} (db : σ → State) (setDb : σ → State → σ)
    (build : Nat → σ → Except Err (List Op) × σ) (n i : Nat) (s s1 : σ) (ops : List Op)
    (st2 : State) (hb : build i s = (.ok ops, s1))
    (ht : RunTransaction ops (db s1) = some st2) :
    runLoop db setDb build (n + 1) i s = (none, setDb s1 st2) := by
  simp [runLoop, hb, ht]

theorem runLoop_step_retry {σ : Type} (db : σ → State) (setDb : σ → State → σ)
    (build : Nat → σ → Except Err (List Op) × σ) (n i : Nat) (s s1 : σ) (ops : List Op)
    (hb : build i s = (.ok ops, s1)) (ht : RunTransaction ops (db s1) = none) :
    runLoop db setDb build (n + 1) i s = runLoop db setDb build n (i + 1) s1 := by
  simp [runLoop, hb, ht]

theorem runLoop_step_noop {σ : Type} (db : σ → State) (setDb : σ → State → σ)
    (build : Nat → σ → Except Err (List Op) × σ) (n i : Nat) (s s1 : σ)
    (hb : build i s = (.error Err.ErrNoOperations, s1)) :
    runLoop db setDb build (n + 1) i s = (none, s1) := by
  simp [runLoop, hb]

theorem runLoop_step_error {σ : Type} (db : σ → State) (setDb : σ → State → σ)
    (build : Nat → σ → Except Err (List Op) × σ) (n i : Nat) (s s1 : σ) (e : Err)
    (hb : build i s = (.error e, s1)) (he : e ≠ Err.ErrNoOperations) :
    runLoop db setDb build (n + 1) i s = (some e, s1) := by
  cases e with
  | ErrNoOperations => exact absurd rfl he
  | ErrExcessiveContention => simp [runLoop, hb]
  | NotFound w => simp [runLoop, hb]
  | New m => simp [runLoop, hb]

theorem Run_eq (build : Nat → Frame → Except Err (List Op) × Frame) (f : Frame) (n : Nat)
    (hn : f.st.nrRetries = n) :
    Run Frame.st Frame.setSt build f = runLoop Frame.st Frame.setSt build n 0 f := by
  unfold Run
  rw [hn]

/-- The whole outcome of `Commit` from a successful run. -/
theorem Commit_of_run (g : Generation) (userName : String) (st : State) (f : Frame)
    (h : Run Frame.st Frame.setSt (commitBuildTxn userName) ⟨g, st, 0⟩ = (none, f)) :
    (g.Commit userName st).ret = (f.newGenId, none) ∧ (g.Commit userName st).g = f.g ∧
      (g.Commit userName st).st = f.st := by
  unfold Generation.Commit
  simp [h]

/-- The whole outcome of `Commit` from a failed run. -/
theorem Commit_of_run_error (g : Generation) (userName : String) (st : State) (e : Err)
    (f : Frame)
    (h : Run Frame.st Frame.setSt (commitBuildTxn userName) ⟨g, st, 0⟩ = (some e, f)) :
    (g.Commit userName st).ret = (0, some e) ∧ (g.Commit userName st).g = f.g ∧
      (g.Commit userName st).st = f.st := by
  unfold Generation.Commit
  simp [h]

/-- `Commit` of a branch with no staged application, through a receiver that
holds the stored open document. -/
theorem Commit_fresh_empty (g : Generation) (userName : String) (st : State) (now : Int)
    (hfresh : st.findId g.doc.DocId = some g.doc) (hopen : g.IsCompleted = false)
    (hempty : g.doc.AssignedUnits = []) (hclock : st.clock = some now)
    (hretry : 0 < st.nrRetries) :
    (g.Commit userName st).ret = (0, none) ∧ (g.Commit userName st).g = g ∧
      (g.Commit userName st).st
        = { st with generationsC :=
              (updateId (Change.write (Change.complete [] now userName 0)) g.doc.DocId
                st.generationsC) } := by
  obtain ⟨n, hn⟩ : ∃ n, st.nrRetries = n + 1 := ⟨st.nrRetries - 1, by omega⟩
  have hrun := RunTransaction_commit_fresh g st hfresh [] now userName 0 st.sequenceC
  have hg : ({ doc := { g.doc with AssignedUnits := [] } } : Generation) = g := by
    cases g with
    | mk doc => cases doc; simp at hempty; simp [hempty]
  have hb : commitBuildTxn userName 0 ⟨g, st, 0⟩
      = (.ok (commitTxnOps g.doc.DocId g.doc.TxnRevno [] now userName 0), ⟨g, st, 0⟩) := by
    simp [commitBuildTxn, refreshOnRetry, hopen, State.ControllerTimestamp, hclock,
      Generation.AssignedUnits, hempty, UnitMap.keys, commitLoop, Frame.setAssigned, hg]
  have hloop := runLoop_step_ok Frame.st Frame.setSt (commitBuildTxn userName) n 0 _ _ _ _
    hb hrun
  have hR := (Run_eq (commitBuildTxn userName) ⟨g, st, 0⟩ (n + 1) hn).trans hloop
  exact Commit_of_run g userName st _ hR

/-- `Commit` of a branch with staged applications, through a receiver that
holds the stored open document, when it succeeds: every enumeration succeeded,
the id is the one allocated from the "generation" sequence with minimum 1, and
the write of the first attempt was applied. -/
theorem Commit_fresh_staged (g : Generation) (userName : String) (st : State)
    (hfresh : st.findId g.doc.DocId = some g.doc) (hopen : g.IsCompleted = false)
    (hstaged : g.doc.AssignedUnits ≠ [])
    (hok : (g.Commit userName st).ret.2 = none) :
    ∃ now m, st.clock = some now ∧
      commitLoop st g.doc.AssignedUnits.keys g.doc.AssignedUnits = (none, m) ∧
      st.sequenceDown = false ∧
      (g.Commit userName st).ret = (((max (st.counter "generation") 1 : Nat) : Int), none) ∧
      (g.Commit userName st).g = ⟨{ g.doc with AssignedUnits := m }⟩ ∧
      (g.Commit userName st).st
        = { st.afterGenerationSeq with generationsC :=
              (updateId (Change.write (Change.complete m now userName
                ((max (st.counter "generation") 1 : Nat) : Int))) g.doc.DocId
                st.generationsC) } := by
  rw [(Commit_run g userName st).1] at hok
  cases hn : st.nrRetries with
  | zero => simp [Run, hn, runLoop] at hok
  | succ n =>
    have hkeys := (commitLoop_spec st g.doc.AssignedUnits.keys g.doc.AssignedUnits
      (fun k hk => hk)).1
    have hR := Run_eq (commitBuildTxn userName) ⟨g, st, 0⟩ (n + 1) hn
    rw [hR] at hok
    rcases commitBuildTxn_cases userName 0 ⟨g, st, 0⟩ with ⟨e, hr, -, -⟩ | ⟨f1, hr, h⟩
    · rw [refreshOnRetry_zero] at hr; cases hr
    · rw [refreshOnRetry_zero] at hr
      cases hr
      rcases h with ⟨hc, -, -⟩ | ⟨hc, -, -⟩ | ⟨-, -, h⟩ | ⟨-, now, hclk, h⟩
      · simp [hopen] at hc
      · simp [hopen] at hc
      · rw [runLoop_step_error _ _ _ _ _ _ _ _ h (by simp)] at hok; simp at hok
      · unfold CommitOpenCase at h
        simp only [Generation.AssignedUnits] at h
        rcases h with ⟨-, h⟩ | ⟨-, -, -, h⟩ | ⟨h1, h2, h3, h⟩ | ⟨-, h2, -⟩
        · rw [runLoop_step_error _ _ _ _ _ _ _ _ h (by simp)] at hok; simp at hok
        · rw [runLoop_step_error _ _ _ _ _ _ _ _ h (by simp)] at hok; simp at hok
        · have hrun := RunTransaction_commit_fresh g st hfresh
            (commitLoop st g.doc.AssignedUnits.keys g.doc.AssignedUnits).2 now userName
            ((max (st.counter "generation") 1 : Nat) : Int)
            (setCounter st.sequenceC "generation" (max (st.counter "generation") 1 + 1))
          have hloop := runLoop_step_ok Frame.st Frame.setSt (commitBuildTxn userName) n 0
            _ _ _ _ h hrun
          rw [← hR] at hloop
          obtain ⟨r1, r2, r3⟩ := Commit_of_run g userName st _ hloop
          exact ⟨now, _, hclk, Prod.ext h1 rfl, h3, r1, r2, r3⟩
        · exfalso
          rw [h2] at hkeys
          cases hg : g.doc.AssignedUnits with
          | nil => exact hstaged hg
          | cons a t => rw [hg] at hkeys; simp [UnitMap.keys] at hkeys

theorem findId_after_update (st : State) (id : String) (chg : Change) (d : generationDoc)
    (seq : List (String × Nat)) (h : st.findId id = some d) :
    State.findId { st with sequenceC := seq,
                           generationsC := updateId chg.write id st.generationsC } id
      = some (chg.write d) := by
  unfold State.findId at h ⊢
  simp only
  rw [find_updateId_same _ _ (write_docId chg), h]
  rfl

theorem findId_after_update_other (st : State) (id id2 : String) (chg : Change)
    (seq : List (String × Nat)) (hne : id2 ≠ id) :
    State.findId { st with sequenceC := seq,
                           generationsC := updateId chg.write id st.generationsC } id2
      = st.findId id2 := by
  unfold State.findId
  simp only
  rw [find_updateId_other _ _ _ (write_docId chg) hne]

/-! ## C4: abort-equivalent commit -/

/-- C4. For every open branch whose `assignedUnits` map is empty (the receiver
holds the stored document, the controller clock reads a positive time `now`,
the runner makes at least one attempt), `Commit(user)` returns generation id 0
and no error, leaves the sequences untouched, writes the document as completed
at `now` by `user` with generation id 0 and changes no other document, and
`CheckNotComplete` on the refreshed branch returns "branch was already
aborted". -/
theorem C4_abort_equivalent_commit (g : Generation) (userName : String) (st : State)
    (now : Int) (hfresh : st.findId g.doc.DocId = some g.doc) (hopen : g.doc.Completed = 0)
    (hempty : g.doc.AssignedUnits = []) (hclock : st.clock = some now) (hnow : 0 < now)
    (hretry : 0 < st.nrRetries) :
    (g.Commit userName st).ret = (0, none) ∧
    (g.Commit userName st).st.sequenceC = st.sequenceC ∧
    (g.Commit userName st).st.findId g.doc.DocId
      = some (g.doc.committed [] now userName 0) ∧
    (∀ id2, id2 ≠ g.doc.DocId →
      (g.Commit userName st).st.findId id2 = st.findId id2) ∧
    ∃ h, (g.Commit userName st).g.Refresh (g.Commit userName st).st = .ok h ∧
      h.CheckNotComplete = some (Err.New "branch was already aborted") := by
  have hop : g.IsCompleted = false := by simp [Generation.IsCompleted, hopen]
  obtain ⟨h1, h2, h3⟩ := Commit_fresh_empty g userName st now hfresh hop hempty hclock hretry
  have hf := findId_after_update st g.doc.DocId (Change.complete [] now userName 0) g.doc
    st.sequenceC hfresh
  have hstored : (g.Commit userName st).st.findId g.doc.DocId
      = some (g.doc.committed [] now userName 0) := by
    rw [h3]; exact hf
  refine ⟨h1, by rw [h3], hstored, ?_, ?_⟩
  · intro id2 hne
    rw [h3]
    exact findId_after_update_other st g.doc.DocId id2 _ st.sequenceC hne
  · refine ⟨⟨g.doc.committed [] now userName 0⟩, ?_, ?_⟩
    · rw [h2]
      unfold Generation.Refresh
      rw [hstored]
    · have hne : now ≠ 0 := by omega
      simp [Generation.CheckNotComplete, generationDoc.committed, hne]

/-- C4 at the branch "noop" committed by "carol" with no assignments. -/
theorem C4_abort_equivalent_commit_witness :
    modelM.findId noop.DocId = some noop ∧ noop.Completed = 0 ∧ noop.AssignedUnits = [] ∧
    modelM.clock = some 200 ∧ (0 : Int) < 200 ∧ 0 < modelM.nrRetries ∧
    (Generation.Commit ⟨noop⟩ "carol" modelM).ret = (0, none) ∧
    (Generation.Commit ⟨noop⟩ "carol" modelM).st.sequenceC = modelM.sequenceC ∧
    (Generation.Commit ⟨noop⟩ "carol" modelM).st.findId noop.DocId
      = some (noop.committed [] 200 "carol" 0) ∧
    (∀ id2, id2 ≠ noop.DocId →
      (Generation.Commit ⟨noop⟩ "carol" modelM).st.findId id2 = modelM.findId id2) ∧
    ∃ h, (Generation.Commit ⟨noop⟩ "carol" modelM).g.Refresh
        (Generation.Commit ⟨noop⟩ "carol" modelM).st = .ok h ∧
      h.CheckNotComplete = some (Err.New "branch was already aborted") :=
  ⟨by decide, rfl, rfl, rfl, by decide, by decide,
    C4_abort_equivalent_commit ⟨noop⟩ "carol" modelM 200 (by decide) rfl rfl rfl (by decide)
      (by decide)⟩

/-! ## C5: commit captures the live unit set -/

/-- C5. For every open branch with a non-empty set of staged application keys
(the receiver holds the stored document), a successful `Commit(user)` writes
the document with `assignedUnits` a map `m` that has exactly the staged keys,
each mapped to exactly the unit names enumerated for that application,
completed at the clock's time by `user`, with the generation id allocated from
the "generation" sequence with minimum 1, changes no other document, and
returns that id. -/
theorem C5_commit_captures_live_units (g : Generation) (userName : String) (st : State)
    (hfresh : st.findId g.doc.DocId = some g.doc) (hopen : g.doc.Completed = 0)
    (hstaged : g.doc.AssignedUnits ≠ [])
    (hok : (g.Commit userName st).ret.2 = none) :
    ∃ (now : Int) (m : UnitMap) (gid : Nat),
      st.clock = some now ∧
      m.keys = g.doc.AssignedUnits.keys ∧
      (∀ k ∈ g.doc.AssignedUnits.keys, appUnitNames st k = .ok (m.get k)) ∧
      (sequenceWithMin st "generation" 1).1 = .ok gid ∧ 1 ≤ gid ∧
      (g.Commit userName st).st.sequenceC = (sequenceWithMin st "generation" 1).2.sequenceC ∧
      (g.Commit userName st).st.findId g.doc.DocId
        = some (g.doc.committed m now userName gid) ∧
      (∀ id2, id2 ≠ g.doc.DocId →
        (g.Commit userName st).st.findId id2 = st.findId id2) ∧
      (g.Commit userName st).ret = ((gid : Int), none) := by
  have hop : g.IsCompleted = false := by simp [Generation.IsCompleted, hopen]
  obtain ⟨now, m, hclk, hlp, hd, h1, -, h3⟩ :=
    Commit_fresh_staged g userName st hfresh hop hstaged hok
  have hspec := commitLoop_spec st g.doc.AssignedUnits.keys g.doc.AssignedUnits
    (fun k hk => hk)
  rw [hlp] at hspec
  refine ⟨now, m, max (st.counter "generation") 1, hclk, hspec.1, hspec.2.2.1 rfl, ?_,
    le_max_right _ _, ?_, ?_, ?_, h1⟩
  · simp [sequenceWithMin, hd]
  · rw [h3]; simp [sequenceWithMin, hd, State.afterGenerationSeq]
  · rw [h3]
    exact findId_after_update st g.doc.DocId _ g.doc _ hfresh
  · intro id2 hne
    rw [h3]
    exact findId_after_update_other st g.doc.DocId id2 _ _ hne

/-- C5 at the branch "db-upgrade", with the units "mysql/0" and "mysql/1" of
"mysql", committed by "bob": the call returns 1 and the stored document is
`dbUpgradeCommitted`. -/
theorem C5_commit_captures_live_units_witness :
    (modelM.findId dbUpgrade.DocId = some dbUpgrade ∧ dbUpgrade.Completed = 0 ∧
      dbUpgrade.AssignedUnits ≠ [] ∧
      (Generation.Commit ⟨dbUpgrade⟩ "bob" modelM).ret.2 = none) ∧
    (∃ (now : Int) (m : UnitMap) (gid : Nat),
      modelM.clock = some now ∧
      m.keys = dbUpgrade.AssignedUnits.keys ∧
      (∀ k ∈ dbUpgrade.AssignedUnits.keys, appUnitNames modelM k = .ok (m.get k)) ∧
      (sequenceWithMin modelM "generation" 1).1 = .ok gid ∧ 1 ≤ gid ∧
      (Generation.Commit ⟨dbUpgrade⟩ "bob" modelM).st.sequenceC
        = (sequenceWithMin modelM "generation" 1).2.sequenceC ∧
      (Generation.Commit ⟨dbUpgrade⟩ "bob" modelM).st.findId dbUpgrade.DocId
        = some (dbUpgrade.committed m now "bob" gid) ∧
      (∀ id2, id2 ≠ dbUpgrade.DocId →
        (Generation.Commit ⟨dbUpgrade⟩ "bob" modelM).st.findId id2 = modelM.findId id2) ∧
      (Generation.Commit ⟨dbUpgrade⟩ "bob" modelM).ret = ((gid : Int), none)) ∧
    (Generation.Commit ⟨dbUpgrade⟩ "bob" modelM).ret = (1, none) ∧
    (Generation.Commit ⟨dbUpgrade⟩ "bob" modelM).st.findId "0" = some dbUpgradeCommitted :=
  ⟨⟨by decide, rfl, by decide, by decide⟩,
    C5_commit_captures_live_units ⟨dbUpgrade⟩ "bob" modelM (by decide) rfl (by decide)
      (by decide),
    by decide, by decide⟩

/-! ## C6: `CheckNotComplete` -/

/-- C6. `CheckNotComplete` returns no error exactly when the cached document's
completed timestamp is 0; otherwise it returns the error with the message
"branch was already committed" when the generation id is not 0 and "branch was
already aborted" when it is 0. -/
theorem C6_CheckNotComplete (g : Generation) :
    (g.CheckNotComplete = none ↔ g.doc.Completed = 0) ∧
    g.CheckNotComplete =
      if g.doc.Completed = 0 then none
      else if g.doc.GenerationId = 0 then some (Err.New "branch was already aborted")
      else some (Err.New "branch was already committed") := by
  unfold Generation.CheckNotComplete
  by_cases hc : g.doc.Completed = 0
  · simp [hc]
  · by_cases hg : g.doc.GenerationId = 0 <;> simp [hc, hg]

/-! ## `Commit` on a completed branch -/

theorem findId_congr {st st2 : State} (h : st2.generationsC = st.generationsC) (id : String) :
    st2.findId id = st.findId id := by
  unfold State.findId
  rw [h]

/-- The update `Commit` proposes is refused when the asserted revision number
is not the stored one. -/
theorem RunTransaction_commit_stale {st : State} {id : String} {d : generationDoc}
    (hfind : st.findId id = some d) (revno : Int) (hne : revno ≠ d.TxnRevno) (m : UnitMap)
    (now : Int) (userName : String) (gid : Int) :
    RunTransaction (commitTxnOps id revno m now userName gid) st = none := by
  unfold commitTxnOps
  rw [RunTransaction_update, hfind]
  have : ¬ d.TxnRevno = revno := fun e => hne e.symm
  simp [Cond.holds, this]

/-- The invariant of a `Commit` run against a completed stored document `d`:
the branch documents are the given ones, and the receiver either holds another
revision number than `d` or holds a completed document. -/
theorem commitBuildTxn_completed {gens : List generationDoc} {id : String}
    {d : generationDoc} (hfind : gens.find? (fun x => x.DocId == id) = some d)
    (hdone : 0 < d.Completed) (userName : String) (i : Nat) (f : Frame)
    (hf : f.st.generationsC = gens ∧ f.g.doc.DocId = id ∧
      (f.g.doc.TxnRevno ≠ d.TxnRevno ∨ f.g.IsCompleted = true)) :
    ((commitBuildTxn userName i f).2.st.generationsC = gens ∧
      (commitBuildTxn userName i f).2.g.doc.DocId = id ∧
      ((commitBuildTxn userName i f).2.g.doc.TxnRevno ≠ d.TxnRevno ∨
        (commitBuildTxn userName i f).2.g.IsCompleted = true)) ∧
    ∀ ops, (commitBuildTxn userName i f).1 = .ok ops →
      RunTransaction ops (commitBuildTxn userName i f).2.st = none := by
  obtain ⟨hgens, hid, hrev⟩ := hf
  obtain ⟨hfr1, hfr2⟩ := commitBuildTxn_frame userName i f
  have hgens2 : (commitBuildTxn userName i f).2.st.generationsC = gens := by
    rw [hfr2]; exact hgens
  have hfind2 : (commitBuildTxn userName i f).2.st.findId id = some d := by
    unfold State.findId; rw [hgens2]; exact hfind
  have hfindf : f.st.findId f.g.doc.DocId = some d := by
    unfold State.findId; rw [hgens, hid]; exact hfind
  have hdc : Generation.IsCompleted ⟨d⟩ = true := by simp [Generation.IsCompleted, hdone]
  refine ⟨⟨hgens2, hfr1.trans hid, ?_⟩, ?_⟩
  · rcases commitBuildTxn_cases userName i f with ⟨e, -, -, h⟩ | ⟨f1, hr, h⟩
    · rw [h]; exact hrev
    · obtain ⟨h1, -, h3, h4⟩ := refreshOnRetry_ok hr
      have hf1 : f1.g.doc.TxnRevno ≠ d.TxnRevno ∨ f1.g.IsCompleted = true := by
        by_cases hi : i = 0
        · subst hi
          rw [refreshOnRetry_zero] at hr
          cases hr
          exact hrev
        · right
          have := h4 (Nat.pos_of_ne_zero hi)
          rw [hfindf] at this
          cases this
          exact hdc
      rcases h with ⟨-, -, h⟩ | ⟨-, -, h⟩ | ⟨-, -, h⟩ | ⟨hc, now, -, h⟩
      · rw [h]; exact hf1
      · rw [h]; exact hf1
      · rw [h]; exact hf1
      · have hf1r : f1.g.doc.TxnRevno ≠ d.TxnRevno := by
          rcases hf1 with h | h
          · exact h
          · rw [hc] at h; cases h
        left
        unfold CommitOpenCase at h
        rcases h with ⟨-, h⟩ | ⟨-, -, -, h⟩ | ⟨-, -, -, h⟩ | ⟨-, -, h⟩ <;>
          (rw [h]; exact hf1r)
  · intro ops hops
    obtain ⟨f1, now, hr, hc, -, hops2, -⟩ := commitBuildTxn_ops hops
    obtain ⟨h1, -, h3, h4⟩ := refreshOnRetry_ok hr
    have hf1r : f1.g.doc.TxnRevno ≠ d.TxnRevno := by
      by_cases hi : i = 0
      · subst hi
        rw [refreshOnRetry_zero] at hr
        cases hr
        rcases hrev with h | h
        · exact h
        · rw [hc] at h; cases h
      · exfalso
        have := h4 (Nat.pos_of_ne_zero hi)
        rw [hfindf] at this
        cases this
        rw [hc] at hdc; cases hdc
    rw [hops2, hid]
    exact RunTransaction_commit_stale hfind2 _ hf1r _ _ _ _

/-- `Commit` writes no branch document when the stored document is completed
and the receiver holds it or holds another revision number. -/
theorem commit_completed_no_write (h : Generation) (userName : String) (st : State)
    (d : generationDoc) (hfind : st.findId h.doc.DocId = some d) (hdone : 0 < d.Completed)
    (hrev : h.doc.TxnRevno ≠ d.TxnRevno ∨ h.IsCompleted = true) :
    (h.Commit userName st).st.generationsC = st.generationsC := by
  rw [(Commit_run h userName st).2.1]
  exact (runLoop_invariant Frame.st Frame.setSt (commitBuildTxn userName)
    (fun f => f.st.generationsC = st.generationsC ∧ f.g.doc.DocId = h.doc.DocId ∧
      (f.g.doc.TxnRevno ≠ d.TxnRevno ∨ f.g.IsCompleted = true))
    (fun i s hs => (commitBuildTxn_completed hfind hdone userName i s hs).1)
    (fun i s ops st2 hs hb ht => by
      rw [(commitBuildTxn_completed hfind hdone userName i s hs).2 ops hb] at ht
      cases ht) _ 0 _ ⟨rfl, rfl, hrev⟩).1

/-- The second attempt of `Commit`, after a refused first one, on a completed
stored document: the refreshed receiver is completed, so the call ends with
the "already aborted" error when the generation id is 0 and with success, and
no write, otherwise. -/
theorem Commit_stale_completed (h : Generation) (userName : String) (st : State)
    (d : generationDoc) (n : Nat) (ops : List Op)
    (hfind : st.findId h.doc.DocId = some d) (hdone : 0 < d.Completed)
    (hrev : h.doc.TxnRevno ≠ d.TxnRevno) (hn : st.nrRetries = n + 2)
    (hops : (commitBuildTxn userName 0 ⟨h, st, 0⟩).1 = .ok ops) :
    (h.Commit userName st).ret.2
      = if d.GenerationId = 0 then some (Err.New "branch was already aborted") else none := by
  rw [(Commit_run h userName st).1, Run_eq _ _ _ hn]
  obtain ⟨hfr1, hfr2⟩ := commitBuildTxn_frame userName 0 ⟨h, st, 0⟩
  have hnone := (@commitBuildTxn_completed st.generationsC _ _ hfind hdone userName 0
    ⟨h, st, 0⟩ ⟨rfl, rfl, Or.inl hrev⟩).2 ops hops
  rcases hb : commitBuildTxn userName 0 ⟨h, st, 0⟩ with ⟨r, f0⟩
  rw [hb] at hops hnone hfr1 hfr2
  simp only at hops hnone hfr1 hfr2
  subst hops
  rw [runLoop_step_retry _ _ _ _ _ _ _ _ hb hnone]
  have hfind0 : f0.st.findId f0.g.doc.DocId = some d := by
    rw [hfr1, hfr2]; exact hfind
  have hdc : decide (d.Completed > 0) = true := by simp [hdone]
  by_cases hg : d.GenerationId = 0
  · have hb1 : commitBuildTxn userName 1 f0
        = (.error (Err.New "branch was already aborted"), { f0 with g := ⟨d⟩ }) := by
      simp [commitBuildTxn, refreshOnRetry, Generation.Refresh, hfind0,
        Generation.IsCompleted, hdc, Generation.GenerationId, hg]
    rw [runLoop_step_error _ _ _ _ _ _ _ _ hb1 (by simp)]
    simp [hg]
  · have hb1 : commitBuildTxn userName 1 f0
        = (.error Err.ErrNoOperations, { f0 with g := ⟨d⟩ }) := by
      simp [commitBuildTxn, refreshOnRetry, Generation.Refresh, hfind0,
        Generation.IsCompleted, hdc, Generation.GenerationId, hg]
    rw [runLoop_step_noop _ _ _ _ _ _ _ hb1]
    simp [hg]

theorem appUnitNames_congr {st st2 : State} (h1 : st2.unitsC = st.unitsC)
    (h2 : st2.unitsDown = st.unitsDown) (appName : String) :
    appUnitNames st2 appName = appUnitNames st appName := by
  unfold appUnitNames
  rw [h1, h2]

theorem commitLoop_fst_none (st : State) :
    ∀ (ks : List String) (m : UnitMap), (∀ k ∈ ks, ∃ us, appUnitNames st k = .ok us) →
      (commitLoop st ks m).1 = none := by
  intro ks
  induction ks with
  | nil => intro m _; rfl
  | cons a rest ih =>
    intro m h
    obtain ⟨us, hus⟩ := h a (List.mem_cons_self _ _)
    simp only [commitLoop, hus]
    exact ih _ (fun k hk => h k (List.mem_cons_of_mem _ hk))

/-- The first `buildTxn` of `Commit` proposes a write when the receiver is not
completed, the clock can be read, every staged application can be enumerated
and, if there is a staged application, the sequence can be allocated. -/
theorem commitBuildTxn_zero_ok (h : Generation) (userName : String) (st : State) (now : Int)
    (hopen : h.IsCompleted = false) (hclock : st.clock = some now)
    (henum : ∀ k ∈ h.doc.AssignedUnits.keys, ∃ us, appUnitNames st k = .ok us)
    (hseq : h.doc.AssignedUnits ≠ [] → st.sequenceDown = false) :
    ∃ ops, (commitBuildTxn userName 0 ⟨h, st, 0⟩).1 = .ok ops := by
  have hlp := commitLoop_fst_none st h.doc.AssignedUnits.keys h.doc.AssignedUnits henum
  rcases commitBuildTxn_cases userName 0 ⟨h, st, 0⟩ with ⟨e, hr, -, -⟩ | ⟨f1, hr, hc⟩
  · rw [refreshOnRetry_zero] at hr; cases hr
  · rw [refreshOnRetry_zero] at hr
    cases hr
    rcases hc with ⟨hc, -, -⟩ | ⟨hc, -, -⟩ | ⟨-, hc, -⟩ | ⟨-, now2, -, hc⟩
    · rw [hopen] at hc; cases hc
    · rw [hopen] at hc; cases hc
    · simp only at hc; rw [hclock] at hc; cases hc
    · unfold CommitOpenCase at hc
      simp only [Generation.AssignedUnits] at hc
      rcases hc with ⟨hc, -⟩ | ⟨-, hm, hc, -⟩ | ⟨-, -, -, hc⟩ | ⟨-, -, hc⟩
      · rw [hlp] at hc; cases hc
      · have hne : h.doc.AssignedUnits ≠ [] := by
          intro he
          apply hm
          rw [he]
          rfl
        rw [hseq hne] at hc; cases hc
      · exact ⟨_, by rw [hc]⟩
      · exact ⟨_, by rw [hc]⟩

theorem Commit_ret_error (g : Generation) (userName : String) (st : State) (e : Err)
    (h : (g.Commit userName st).ret.2 = some e) : (g.Commit userName st).ret = (0, some e) := by
  unfold Generation.Commit at h ⊢
  generalize Run Frame.st Frame.setSt (commitBuildTxn userName) ⟨g, st, 0⟩ = r at h ⊢
  rcases r with ⟨r1, f⟩
  cases r1 with
  | none => simp at h
  | some e2 => simp at h; simp [h]

/-! ## Calling `Commit` twice -/

/-- What does hold of two `Commit` calls in a row. For every open branch (the
receiver holds the stored document, the clock reads a positive time, the runner
makes at least two attempts) on which a first `Commit` succeeds, a second
`Commit` on the same `Generation` applies no write to the branch documents.
When the branch had no staged application the first call returns 0 and the
second returns the error "branch was already aborted"; when it had staged
applications the second call returns no error. -/
theorem Commit_twice_no_write (g : Generation) (userName : String) (st : State) (now : Int)
    (hfresh : st.findId g.doc.DocId = some g.doc) (hopen : g.doc.Completed = 0)
    (hclock : st.clock = some now) (hnow : 0 < now) (hretry : 2 ≤ st.nrRetries)
    (hok : (g.Commit userName st).ret.2 = none) :
    ((g.Commit userName st).g.Commit userName (g.Commit userName st).st).st.generationsC
      = (g.Commit userName st).st.generationsC ∧
    (g.doc.AssignedUnits = [] →
      (g.Commit userName st).ret = (0, none) ∧
      ((g.Commit userName st).g.Commit userName (g.Commit userName st).st).ret
        = (0, some (Err.New "branch was already aborted"))) ∧
    (g.doc.AssignedUnits ≠ [] →
      ((g.Commit userName st).g.Commit userName (g.Commit userName st).st).ret.2 = none) := by
  have hop : g.IsCompleted = false := by simp [Generation.IsCompleted, hopen]
  obtain ⟨n, hn⟩ : ∃ n, st.nrRetries = n + 2 := ⟨st.nrRetries - 2, by omega⟩
  by_cases hempty : g.doc.AssignedUnits = []
  · obtain ⟨h1, h2, h3⟩ := Commit_fresh_empty g userName st now hfresh hop hempty hclock
      (by omega)
    have hf := findId_after_update st g.doc.DocId (Change.complete [] now userName 0) g.doc
      st.sequenceC hfresh
    have hstored : (g.Commit userName st).st.findId (g.Commit userName st).g.doc.DocId
        = some (g.doc.committed [] now userName 0) := by
      rw [h3, h2]; exact hf
    have hdone : 0 < (g.doc.committed [] now userName 0).Completed := hnow
    have hrev : (g.Commit userName st).g.doc.TxnRevno
        ≠ (g.doc.committed [] now userName 0).TxnRevno := by
      rw [h2]; simp [generationDoc.committed]
    refine ⟨commit_completed_no_write _ userName _ _ hstored hdone (Or.inl hrev), ?_, ?_⟩
    · intro _
      refine ⟨h1, ?_⟩
      obtain ⟨ops, hops⟩ := commitBuildTxn_zero_ok (g.Commit userName st).g userName
        (g.Commit userName st).st now (by rw [h2]; exact hop) (by rw [h3]; exact hclock)
        (by rw [h2, hempty]; intro k hk; simp [UnitMap.keys] at hk)
        (by rw [h2]; intro hne; exact absurd hempty hne)
      have hres := Commit_stale_completed (g.Commit userName st).g userName
        (g.Commit userName st).st _ n ops hstored hdone hrev (by rw [h3]; exact hn) hops
      apply Commit_ret_error
      rw [hres]
      simp [generationDoc.committed]
    · intro h; exact absurd hempty h
  · obtain ⟨now2, m, hclk, hlp, hd, -, h2, h3⟩ :=
      Commit_fresh_staged g userName st hfresh hop hempty hok
    have hnow2 : now2 = now := by
      rw [hclock] at hclk; exact (Option.some.inj hclk).symm
    subst hnow2
    have hspec := commitLoop_spec st g.doc.AssignedUnits.keys g.doc.AssignedUnits
      (fun k hk => hk)
    rw [hlp] at hspec
    have hf := findId_after_update st g.doc.DocId
      (Change.complete m now2 userName ((max (st.counter "generation") 1 : Nat) : Int)) g.doc
      (setCounter st.sequenceC "generation" (max (st.counter "generation") 1 + 1)) hfresh
    have hstored : (g.Commit userName st).st.findId (g.Commit userName st).g.doc.DocId
        = some (g.doc.committed m now2 userName
            ((max (st.counter "generation") 1 : Nat) : Int)) := by
      rw [h3, h2]; exact hf
    have hdone : 0 < (g.doc.committed m now2 userName
        ((max (st.counter "generation") 1 : Nat) : Int)).Completed := hnow
    have hrev : (g.Commit userName st).g.doc.TxnRevno
        ≠ (g.doc.committed m now2 userName
            ((max (st.counter "generation") 1 : Nat) : Int)).TxnRevno := by
      rw [h2]; simp [generationDoc.committed]
    refine ⟨commit_completed_no_write _ userName _ _ hstored hdone (Or.inl hrev), ?_, ?_⟩
    · intro h; exact absurd h hempty
    · intro _
      obtain ⟨ops, hops⟩ := commitBuildTxn_zero_ok (g.Commit userName st).g userName
        (g.Commit userName st).st now2 (by rw [h2]; exact hop) (by rw [h3]; exact hclock)
        (by
          rw [h2]
          intro k hk
          have hk2 : k ∈ g.doc.AssignedUnits.keys := by
            have := hspec.1
            simp only at this hk
            rw [this] at hk
            exact hk
          rw [@appUnitNames_congr st _ (by rw [h3]; rfl) (by rw [h3]; rfl)]
          exact ⟨_, hspec.2.2.1 rfl k hk2⟩)
        (by intro _; rw [h3]; exact hd)
      have hres := Commit_stale_completed (g.Commit userName st).g userName
        (g.Commit userName st).st _ n ops hstored hdone hrev (by rw [h3]; exact hn) hops
      rw [hres]
      have hg : ((max (st.counter "generation") 1 : Nat) : Int) ≠ 0 := by
        have : 1 ≤ max (st.counter "generation") 1 := le_max_right _ _
        omega
      have hgid : (g.doc.committed m now2 userName
          ((max (st.counter "generation") 1 : Nat) : Int)).GenerationId ≠ 0 := hg
      rw [if_neg hgid]

/-! ## C2 and C3: the id `Commit` returns when it finds the branch committed -/

/-- C2, evaluated at the failing input. On the open branch "db-upgrade" with
"mysql" staged, `Commit("bob")` returns 1 and writes generation id 1; a second
`Commit("bob")` on the same `Generation` returns no error and the id 2, which it
allocated in its refused first attempt, while the stored generation id is still
1 and the "generation" counter has moved on to 3. -/
theorem C2_second_commit_returns_other_id :
    (Generation.Commit ⟨dbUpgrade⟩ "bob" modelM).ret = (1, none) ∧
    ((Generation.Commit ⟨dbUpgrade⟩ "bob" modelM).g.Commit "bob"
      (Generation.Commit ⟨dbUpgrade⟩ "bob" modelM).st).ret = (2, none) ∧
    ((Generation.Commit ⟨dbUpgrade⟩ "bob" modelM).g.Commit "bob"
      (Generation.Commit ⟨dbUpgrade⟩ "bob" modelM).st).st.findId "0"
        = some dbUpgradeCommitted ∧
    dbUpgradeCommitted.GenerationId = 1 ∧
    ((Generation.Commit ⟨dbUpgrade⟩ "bob" modelM).g.Commit "bob"
      (Generation.Commit ⟨dbUpgrade⟩ "bob" modelM).st).st.counter "generation" = 3 := by
  refine ⟨by decide, by decide, by decide, rfl, by decide⟩

/-- C3, evaluated at the failing inputs. After "db-upgrade" was committed with
generation id 1, `Commit("carol")` through a `Generation` that holds the stored
document returns no error and the id 0, and `Commit("carol")` through a second
`Generation` that still holds the open document (its first attempt is refused,
the retry refreshes the document) returns no error and the id 2; in both cases
the stored generation id is 1. -/
theorem C3_commit_returns_unstored_id :
    (Generation.Commit ⟨dbUpgrade⟩ "bob" modelM).st.findId "0" = some dbUpgradeCommitted ∧
    dbUpgradeCommitted.GenerationId = 1 ∧
    (Generation.Commit ⟨dbUpgradeCommitted⟩ "carol"
      (Generation.Commit ⟨dbUpgrade⟩ "bob" modelM).st).ret = (0, none) ∧
    (Generation.Commit ⟨dbUpgrade⟩ "carol"
      (Generation.Commit ⟨dbUpgrade⟩ "bob" modelM).st).ret = (2, none) ∧
    (Generation.Commit ⟨dbUpgrade⟩ "carol"
      (Generation.Commit ⟨dbUpgrade⟩ "bob" modelM).st).g.doc = dbUpgradeCommitted ∧
    (Generation.Commit ⟨dbUpgrade⟩ "carol"
      (Generation.Commit ⟨dbUpgrade⟩ "bob" modelM).st).st.findId "0"
        = some dbUpgradeCommitted := by
  refine ⟨by decide, rfl, by decide, by decide, by decide, by decide⟩

/-! ## C7: `AssignApplication` twice -/

theorem UnitMap.lookup_set_same (m : UnitMap) (k : String) (v : List String) :
    (m.set k v).lookup k = some v := by
  induction m with
  | nil => simp [UnitMap.set, List.lookup]
  | cons a t ih =>
    obtain ⟨k0, v0⟩ := a
    by_cases hk : k0 = k
    · simp [UnitMap.set, List.lookup, hk]
    · have hk2 : (k == k0) = false := by simpa using fun e => hk e.symm
      simp [UnitMap.set, List.lookup, hk, hk2, ih]

/-- The first attempt of an assignment of one update, through a receiver that
holds the stored document, is applied when the conditions hold on it. -/
theorem runLoop_update_fresh (build : Nat → Frame → Except Err (List Op) × Frame)
    (g : Generation) (st : State) (n : Nat) (conds : List Cond) (chg : Change)
    (hfresh : st.findId g.doc.DocId = some g.doc)
    (hb : build 0 ⟨g, st, 0⟩ = (.ok [Op.update g.doc.DocId conds chg], ⟨g, st, 0⟩))
    (hconds : conds.all (Cond.holds g.doc) = true) :
    runLoop Frame.st Frame.setSt build (n + 1) 0 ⟨g, st, 0⟩
      = (none, ⟨g, { st with generationsC := updateId chg.write g.doc.DocId st.generationsC },
          0⟩) := by
  have ht : RunTransaction [Op.update g.doc.DocId conds chg] st
      = some { st with generationsC := updateId chg.write g.doc.DocId st.generationsC } := by
    rw [RunTransaction_update, hfresh]
    simp [hconds]
  exact runLoop_step_ok Frame.st Frame.setSt build n 0 _ _ _ _ hb ht

/-- C7. For every open branch and application `a` not yet staged (the receiver
holds the stored document and the runner makes at least two attempts), the
first `AssignApplication(a)` returns success and applies one write, which sets
`assignedUnits[a]` to the empty list and changes nothing else in the store; the
second call on the same `Generation` proposes the same conditional write,
which the store refuses because the key is now present, then returns success
and leaves the store as it was. -/
theorem C7_assign_application_twice (g : Generation) (a : String) (st : State)
    (hfresh : st.findId g.doc.DocId = some g.doc) (hopen : g.doc.Completed = 0)
    (hnew : g.doc.AssignedUnits.has a = false) (hretry : 2 ≤ st.nrRetries) :
    (g.AssignApplication a st).ret = none ∧
    (g.AssignApplication a st).st
      = { st with generationsC :=
            updateId (Change.write (Change.setApp a [])) g.doc.DocId st.generationsC } ∧
    (g.AssignApplication a st).st.findId g.doc.DocId
      = some (g.doc.assigned (g.doc.AssignedUnits.set a [])) ∧
    (g.doc.AssignedUnits.set a []).lookup a = some [] ∧
    (∀ k, k ≠ a → (g.doc.AssignedUnits.set a []).lookup k = g.doc.AssignedUnits.lookup k) ∧
    (∀ id2, id2 ≠ g.doc.DocId →
      (g.AssignApplication a st).st.findId id2 = st.findId id2) ∧
    RunTransaction (assignGenerationAppTxnOps g.doc.DocId a) (g.AssignApplication a st).st
      = none ∧
    ((g.AssignApplication a st).g.AssignApplication a (g.AssignApplication a st).st).ret
      = none ∧
    ((g.AssignApplication a st).g.AssignApplication a (g.AssignApplication a st).st).st
      = (g.AssignApplication a st).st := by
  obtain ⟨n, hn⟩ : ∃ n, st.nrRetries = n + 2 := ⟨st.nrRetries - 2, by omega⟩
  have hc : g.CheckNotComplete = none := by simp [Generation.CheckNotComplete, hopen]
  have hb : ∀ s : State, assignApplicationBuildTxn a 0 ⟨g, s, 0⟩
      = (.ok [Op.update g.doc.DocId
          [Cond.completedEq 0, Cond.assignedExists, Cond.appMissing a] (Change.setApp a [])],
        ⟨g, s, 0⟩) := by
    intro s
    simp [assignApplicationBuildTxn, refreshOnRetry, hnew, hc, assignGenerationAppTxnOps]
  have hconds : [Cond.completedEq 0, Cond.assignedExists, Cond.appMissing a].all
      (Cond.holds g.doc) = true := by
    simp [Cond.holds, hopen, hnew]
  have hrun1 := runLoop_update_fresh (assignApplicationBuildTxn a) g st (n + 1) _ _ hfresh
    (hb st) hconds
  have hR1 := (Run_eq (assignApplicationBuildTxn a) ⟨g, st, 0⟩ (n + 2) hn).trans hrun1
  obtain ⟨e1, e2, e3⟩ := AssignApplication_run g a st
  rw [hR1] at e1 e2 e3
  simp only at e1 e2 e3
  have hstored : (g.AssignApplication a st).st.findId g.doc.DocId
      = some (g.doc.assigned (g.doc.AssignedUnits.set a [])) := by
    rw [e2]
    exact findId_after_update st g.doc.DocId (Change.setApp a []) g.doc st.sequenceC hfresh
  have hrefused : RunTransaction (assignGenerationAppTxnOps g.doc.DocId a)
      (g.AssignApplication a st).st = none := by
    unfold assignGenerationAppTxnOps
    rw [RunTransaction_update, hstored]
    simp [Cond.holds, generationDoc.assigned, UnitMap.has, UnitMap.lookup_set_same]
  refine ⟨e1, e2, hstored, UnitMap.lookup_set_same _ _ _,
    fun k hk => UnitMap.lookup_set_other _ _ _ _ hk, ?_, hrefused, ?_⟩
  · intro id2 hne
    rw [e2]
    exact findId_after_update_other st g.doc.DocId id2 _ st.sequenceC hne
  · obtain ⟨r1, r2, -⟩ := AssignApplication_run (g.AssignApplication a st).g a
      (g.AssignApplication a st).st
    rw [r1, r2, e3]
    have hn2 : (g.AssignApplication a st).st.nrRetries = n + 2 := by rw [e2]; exact hn
    rw [Run_eq (assignApplicationBuildTxn a) ⟨g, (g.AssignApplication a st).st, 0⟩ (n + 2) hn2]
    have hstep := runLoop_step_retry Frame.st Frame.setSt (assignApplicationBuildTxn a) (n + 1)
      0 _ _ _ (hb (g.AssignApplication a st).st) hrefused
    rw [hstep]
    have hb1 : assignApplicationBuildTxn a 1 ⟨g, (g.AssignApplication a st).st, 0⟩
        = (.error Err.ErrNoOperations,
            ⟨⟨g.doc.assigned (g.doc.AssignedUnits.set a [])⟩,
              (g.AssignApplication a st).st, 0⟩) := by
      simp [assignApplicationBuildTxn, refreshOnRetry, Generation.Refresh, hstored,
        generationDoc.assigned, UnitMap.has, UnitMap.lookup_set_same]
    rw [runLoop_step_noop _ _ _ _ _ _ _ hb1]
    exact ⟨rfl, rfl⟩

/-- C7 at the branch "db-upgrade" and the application "pg". -/
theorem C7_assign_application_twice_witness :
    (modelM.findId dbUpgrade.DocId = some dbUpgrade ∧ dbUpgrade.Completed = 0 ∧
      dbUpgrade.AssignedUnits.has "pg" = false ∧ 2 ≤ modelM.nrRetries) ∧
    ((Generation.AssignApplication ⟨dbUpgrade⟩ "pg" modelM).ret = none ∧
    (Generation.AssignApplication ⟨dbUpgrade⟩ "pg" modelM).st
      = { modelM with generationsC :=
            (updateId (Change.write (Change.setApp "pg" [])) dbUpgrade.DocId
              modelM.generationsC) } ∧
    (Generation.AssignApplication ⟨dbUpgrade⟩ "pg" modelM).st.findId dbUpgrade.DocId
      = some (dbUpgrade.assigned (dbUpgrade.AssignedUnits.set "pg" [])) ∧
    (dbUpgrade.AssignedUnits.set "pg" []).lookup "pg" = some [] ∧
    (∀ k, k ≠ "pg" →
      (dbUpgrade.AssignedUnits.set "pg" []).lookup k = dbUpgrade.AssignedUnits.lookup k) ∧
    (∀ id2, id2 ≠ dbUpgrade.DocId →
      (Generation.AssignApplication ⟨dbUpgrade⟩ "pg" modelM).st.findId id2
        = modelM.findId id2) ∧
    RunTransaction (assignGenerationAppTxnOps dbUpgrade.DocId "pg")
      (Generation.AssignApplication ⟨dbUpgrade⟩ "pg" modelM).st = none ∧
    ((Generation.AssignApplication ⟨dbUpgrade⟩ "pg" modelM).g.AssignApplication "pg"
      (Generation.AssignApplication ⟨dbUpgrade⟩ "pg" modelM).st).ret = none ∧
    ((Generation.AssignApplication ⟨dbUpgrade⟩ "pg" modelM).g.AssignApplication "pg"
      (Generation.AssignApplication ⟨dbUpgrade⟩ "pg" modelM).st).st
      = (Generation.AssignApplication ⟨dbUpgrade⟩ "pg" modelM).st) :=
  ⟨⟨by decide, rfl, by decide, by decide⟩,
    C7_assign_application_twice ⟨dbUpgrade⟩ "pg" modelM (by decide) rfl (by decide)
      (by decide)⟩

/-! ## C8: idempotence of unit assignment -/

theorem UnitMap.get_push_same (m : UnitMap) (k u : String) :
    (m.push k u).get k = m.get k ++ [u] := by
  induction m with
  | nil => simp [UnitMap.push, UnitMap.get, List.lookup]
  | cons a t ih =>
    obtain ⟨k0, v0⟩ := a
    by_cases hk : k0 = k
    · simp [UnitMap.push, UnitMap.get, List.lookup, hk]
    · have hk2 : (k == k0) = false := by simpa using fun e => hk e.symm
      simp only [UnitMap.get] at ih
      simp [UnitMap.push, UnitMap.get, List.lookup, hk, hk2, ih]

theorem UnitMap.lookup_push_other (m : UnitMap) (k k2 u : String) (hne : k2 ≠ k) :
    (m.push k u).lookup k2 = m.lookup k2 := by
  induction m with
  | nil =>
    have : (k2 == k) = false := by simpa using hne
    simp [UnitMap.push, List.lookup, this]
  | cons a t ih =>
    obtain ⟨k0, v0⟩ := a
    by_cases hk : k0 = k
    · have : (k2 == k) = false := by simpa using hne
      simp [UnitMap.push, List.lookup, hk, this]
    · by_cases hk2 : k2 = k0
      · simp [UnitMap.push, List.lookup, hk, hk2]
      · have : (k2 == k0) = false := by simpa using hk2
        simp [UnitMap.push, List.lookup, hk, this, ih]

theorem UnitMap.get_push_other (m : UnitMap) (k k2 u : String) (hne : k2 ≠ k) :
    (m.push k u).get k2 = m.get k2 := by
  simp [UnitMap.get, UnitMap.lookup_push_other m k k2 u hne]

theorem UnitMap.mem_get_push (m : UnitMap) (k u a x : String) (h : x ∈ m.get a) :
    x ∈ (m.push k u).get a := by
  by_cases ha : a = k
  · subst ha
    rw [UnitMap.get_push_same]
    exact List.mem_append_left _ h
  · rw [UnitMap.get_push_other m k a u ha]
    exact h

/-- One `AssignUnit` call through a view of an open branch: it returns success,
the stored document stays open and only grows, it holds the unit afterwards,
once if it held it at most once before, and the receiver is again a view. -/
theorem AssignUnit_step (h : Generation) (u app : String) (st : State) (d : generationDoc)
    (hu : UnitApplication u = .ok app) (hfind : st.findId d.DocId = some d)
    (hopen : d.Completed = 0) (hview : h.viewOf d) (hretry : 2 ≤ st.nrRetries) :
    ∃ d2, (h.AssignUnit u st).ret = none ∧
      (h.AssignUnit u st).st.findId d.DocId = some d2 ∧ d2.DocId = d.DocId ∧
      d2.Completed = 0 ∧ (h.AssignUnit u st).st.nrRetries = st.nrRetries ∧
      (h.AssignUnit u st).g.viewOf d2 ∧
      (∀ a x, x ∈ d.AssignedUnits.get a → x ∈ d2.AssignedUnits.get a) ∧
      u ∈ d2.AssignedUnits.get app ∧
      (d2.AssignedUnits.get app).count u = max ((d.AssignedUnits.get app).count u) 1 := by
  obtain ⟨n, hn⟩ : ∃ n, st.nrRetries = n + 2 := ⟨st.nrRetries - 2, by omega⟩
  obtain ⟨hid, hho, hsub⟩ := hview
  obtain ⟨e1, e2, e3⟩ := AssignUnit_run h app u st hu
  rw [Run_eq (assignUnitBuildTxn app u) ⟨h, st, 0⟩ (n + 2) hn] at e1 e2 e3
  have hc : h.CheckNotComplete = none := by simp [Generation.CheckNotComplete, hho]
  have hcd : Generation.CheckNotComplete ⟨d⟩ = none := by
    simp [Generation.CheckNotComplete, hopen]
  by_cases hcached : u ∈ h.doc.AssignedUnits.get app
  · -- the cached document already holds the unit
    have hb : assignUnitBuildTxn app u 0 ⟨h, st, 0⟩ = (.error Err.ErrNoOperations, ⟨h, st, 0⟩) := by
      simp [assignUnitBuildTxn, refreshOnRetry, hc, hcached]
    rw [runLoop_step_noop _ _ _ _ _ _ _ hb] at e1 e2 e3
    have hmem : u ∈ d.AssignedUnits.get app := hsub app u hcached
    refine ⟨d, e1, by rw [e2]; exact hfind, rfl, hopen, by rw [e2], ?_, fun _ _ hx => hx,
      hmem, ?_⟩
    · rw [e3]; exact ⟨hid, hho, hsub⟩
    · have := List.one_le_count_iff.2 hmem
      omega
  · have hb : ∀ s : State, assignUnitBuildTxn app u 0 ⟨h, s, 0⟩
        = (.ok [Op.update h.doc.DocId
            [Cond.completedEq 0, Cond.assignedExists, Cond.unitNotIn app u]
            (Change.pushUnit app u)], ⟨h, s, 0⟩) := by
      intro s
      simp [assignUnitBuildTxn, refreshOnRetry, hc, hcached, assignGenerationUnitTxnOps]
    by_cases hstored : u ∈ d.AssignedUnits.get app
    · -- the store holds the unit: the write is refused and the retry is a no-op
      have hmem : u ∈ d.AssignedUnits.get app := hstored
      have ht : RunTransaction [Op.update h.doc.DocId
          [Cond.completedEq 0, Cond.assignedExists, Cond.unitNotIn app u]
          (Change.pushUnit app u)] st = none := by
        rw [RunTransaction_update, hid, hfind]
        simp [Cond.holds, hstored]
      rw [runLoop_step_retry _ _ _ _ _ _ _ _ (hb st) ht] at e1 e2 e3
      have hb1 : assignUnitBuildTxn app u 1 ⟨h, st, 0⟩
          = (.error Err.ErrNoOperations, ⟨⟨d⟩, st, 0⟩) := by
        simp [assignUnitBuildTxn, refreshOnRetry, Generation.Refresh, hid, hfind, hcd,
          hstored]
      rw [runLoop_step_noop _ _ _ _ _ _ _ hb1] at e1 e2 e3
      refine ⟨d, e1, by rw [e2]; exact hfind, rfl, hopen, by rw [e2], ?_, fun _ _ hx => hx,
        hmem, ?_⟩
      · rw [e3]; exact ⟨rfl, hopen, fun _ _ hx => hx⟩
      · have := List.one_le_count_iff.2 hmem
        omega
    · -- the store lacks the unit: the write is applied
      have hnot : u ∉ d.AssignedUnits.get app := hstored
      have ht : RunTransaction [Op.update h.doc.DocId
          [Cond.completedEq 0, Cond.assignedExists, Cond.unitNotIn app u]
          (Change.pushUnit app u)] st
          = some { st with generationsC :=
              (updateId (Change.write (Change.pushUnit app u)) d.DocId st.generationsC) } := by
        rw [RunTransaction_update, hid, hfind]
        simp [Cond.holds, hstored, hopen]
      rw [runLoop_step_ok _ _ _ _ _ _ _ _ _ (hb st) ht] at e1 e2 e3
      have hf := findId_after_update st d.DocId (Change.pushUnit app u) d st.sequenceC hfind
      refine ⟨(Change.pushUnit app u).write d, e1, by rw [e2]; exact hf, rfl, hopen,
        by rw [e2]; rfl, ?_, ?_, ?_, ?_⟩
      · rw [e3]
        exact ⟨hid, hho, fun a x hx => UnitMap.mem_get_push _ _ _ _ _ (hsub a x hx)⟩
      · exact fun a x hx => UnitMap.mem_get_push _ _ _ _ _ hx
      · show u ∈ (d.AssignedUnits.push app u).get app
        rw [UnitMap.get_push_same]
        simp
      · show ((d.AssignedUnits.push app u).get app).count u = _
        rw [UnitMap.get_push_same, List.count_append, List.count_eq_zero_of_not_mem hnot]
        simp

theorem Generation.viewOf_mono {h : Generation} {d d2 : generationDoc} (hv : h.viewOf d)
    (hid : d2.DocId = d.DocId)
    (hgrow : ∀ a x, x ∈ d.AssignedUnits.get a → x ∈ d2.AssignedUnits.get a) : h.viewOf d2 :=
  ⟨hv.1.trans hid.symm, hv.2.1, fun a x hx => hgrow a x (hv.2.2 a x hx)⟩

/-- Any sequence of `AssignUnit` calls through views of an open branch: every
call returns success, and the stored document stays open, only grows, holds
the unit after the first call, and holds it no more than once if it did so
before. -/
theorem assignUnitCalls_spec (u app : String) (hu : UnitApplication u = .ok app) :
    ∀ (calls : List Nat) (hs : List Generation) (st : State) (d : generationDoc),
      st.findId d.DocId = some d → d.Completed = 0 → 2 ≤ st.nrRetries →
      (∀ h ∈ hs, h.viewOf d) → (∀ i ∈ calls, i < hs.length) →
      (assignUnitCalls u calls hs st).1.length = calls.length ∧
      (∀ e ∈ (assignUnitCalls u calls hs st).1, e = none) ∧
      ∃ d2, (assignUnitCalls u calls hs st).2.2.findId d.DocId = some d2 ∧
        d2.Completed = 0 ∧
        (∀ a x, x ∈ d.AssignedUnits.get a → x ∈ d2.AssignedUnits.get a) ∧
        (calls ≠ [] → u ∈ d2.AssignedUnits.get app) ∧
        ((d.AssignedUnits.get app).count u ≤ 1 → (d2.AssignedUnits.get app).count u ≤ 1) := by
  intro calls
  induction calls with
  | nil =>
    intro hs st d hfind hopen _ _ _
    exact ⟨rfl, by simp [assignUnitCalls], d, hfind, hopen, fun _ _ hx => hx,
      fun h => absurd rfl h, fun h => h⟩
  | cons i rest ih =>
    intro hs st d hfind hopen hretry hviews hidx
    have hi : i < hs.length := hidx i (List.mem_cons_self _ _)
    have hget : hs[i]? = some hs[i] := List.getElem?_eq_getElem hi
    have hmem : hs[i] ∈ hs := List.getElem?_mem hget
    obtain ⟨d2, s1, s2, s3, s4, s5, s6, s7, s8, s9⟩ :=
      AssignUnit_step hs[i] u app st d hu hfind hopen (hviews _ hmem) hretry
    have hviews2 : ∀ h ∈ hs.set i (hs[i].AssignUnit u st).g, h.viewOf d2 := by
      intro h hh
      rcases List.mem_or_eq_of_mem_set hh with h1 | h1
      · exact Generation.viewOf_mono (hviews h h1) s3 s7
      · rw [h1]; exact s6
    have hidx2 : ∀ j ∈ rest, j < (hs.set i (hs[i].AssignUnit u st).g).length := by
      intro j hj
      rw [List.length_set]
      exact hidx j (List.mem_cons_of_mem _ hj)
    have hfind2 : (hs[i].AssignUnit u st).st.findId d2.DocId = some d2 := by
      rw [s3]; exact s2
    obtain ⟨t1, t2, d3, t3, t4, t5, t6, t7⟩ :=
      ih (hs.set i (hs[i].AssignUnit u st).g) (hs[i].AssignUnit u st).st d2 hfind2 s4
        (by rw [s5]; exact hretry) hviews2 hidx2
    rw [s3] at t3
    simp only [assignUnitCalls, hget]
    refine ⟨by simp [t1], ?_, d3, t3, t4, fun a x hx => t5 a x (s7 a x hx), ?_, ?_⟩
    · intro e he
      rcases List.mem_cons.1 he with h1 | h1
      · rw [h1]; exact s1
      · exact t2 e h1
    · intro _
      exact t5 app u s8
    · intro hle
      apply t7
      rw [s9]
      omega

/-- C8. For every open branch, every well-formed unit name `u` with owning
application `app`, and every non-empty sequence of `AssignUnit(u)` calls, each
through one of several `Generation` values that are views of the branch (the
runner makes at least two attempts; the stored list of `app` holds `u` at most
once to begin with): every call returns success and the stored
`assignedUnits[app]` holds `u` exactly once after the last call. -/
theorem C8_assign_unit_idempotent (u app : String) (st : State) (d : generationDoc)
    (hs : List Generation) (calls : List Nat)
    (hu : UnitApplication u = .ok app) (hfind : st.findId d.DocId = some d)
    (hopen : d.Completed = 0) (honce : (d.AssignedUnits.get app).count u ≤ 1)
    (hretry : 2 ≤ st.nrRetries) (hviews : ∀ h ∈ hs, h.viewOf d)
    (hcalls : calls ≠ []) (hidx : ∀ i ∈ calls, i < hs.length) :
    (assignUnitCalls u calls hs st).1.length = calls.length ∧
    (∀ e ∈ (assignUnitCalls u calls hs st).1, e = none) ∧
    ∃ d2, (assignUnitCalls u calls hs st).2.2.findId d.DocId = some d2 ∧
      (d2.AssignedUnits.get app).count u = 1 := by
  obtain ⟨h1, h2, d2, h3, -, -, h5, h6⟩ :=
    assignUnitCalls_spec u app hu calls hs st d hfind hopen hretry hviews hidx
  refine ⟨h1, h2, d2, h3, ?_⟩
  have := List.one_le_count_iff.2 (h5 hcalls)
  have := h6 honce
  omega

/-- C8 at the branch "db-upgrade" and the unit "mysql/0", with three calls
through two `Generation` values: the stored list of "mysql" ends as the single
unit. -/
theorem C8_assign_unit_idempotent_witness :
    (UnitApplication "mysql/0" = .ok "mysql" ∧ modelM.findId dbUpgrade.DocId = some dbUpgrade ∧
      dbUpgrade.Completed = 0 ∧ (dbUpgrade.AssignedUnits.get "mysql").count "mysql/0" ≤ 1 ∧
      2 ≤ modelM.nrRetries ∧
      (∀ h ∈ [Generation.mk dbUpgrade, Generation.mk dbUpgrade], h.viewOf dbUpgrade) ∧
      [0, 1, 0] ≠ ([] : List Nat) ∧
      (∀ i ∈ [0, 1, 0], i < [Generation.mk dbUpgrade, Generation.mk dbUpgrade].length)) ∧
    ((assignUnitCalls "mysql/0" [0, 1, 0] [⟨dbUpgrade⟩, ⟨dbUpgrade⟩] modelM).1.length
        = [0, 1, 0].length ∧
      (∀ e ∈ (assignUnitCalls "mysql/0" [0, 1, 0] [⟨dbUpgrade⟩, ⟨dbUpgrade⟩] modelM).1,
        e = none) ∧
      ∃ d2, (assignUnitCalls "mysql/0" [0, 1, 0] [⟨dbUpgrade⟩, ⟨dbUpgrade⟩]
          modelM).2.2.findId dbUpgrade.DocId = some d2 ∧
        (d2.AssignedUnits.get "mysql").count "mysql/0" = 1) ∧
    ((assignUnitCalls "mysql/0" [0, 1, 0] [⟨dbUpgrade⟩, ⟨dbUpgrade⟩] modelM).2.2.findId
        "0").map (fun d => d.AssignedUnits) = some [("mysql", ["mysql/0"])] := by
  have hviews : ∀ h ∈ [Generation.mk dbUpgrade, Generation.mk dbUpgrade],
      h.viewOf dbUpgrade := by
    intro h hh
    simp only [List.mem_cons, List.mem_singleton, List.not_mem_nil, or_false, or_self] at hh
    rw [hh]
    exact ⟨rfl, rfl, fun _ _ hx => hx⟩
  exact ⟨⟨rfl, by decide, rfl, by decide, by decide, hviews, by decide, by decide⟩,
    C8_assign_unit_idempotent "mysql/0" "mysql" modelM dbUpgrade [⟨dbUpgrade⟩, ⟨dbUpgrade⟩]
      [0, 1, 0] rfl (by decide) rfl (by decide) (by decide) hviews (by decide) (by decide),
    by decide⟩

/-! ## C9: `AssignAllUnits` -/

theorem refreshOnRetry_fresh (g : Generation) (st : State) (k : Int) (i : Nat)
    (hfresh : st.findId g.doc.DocId = some g.doc) :
    refreshOnRetry i ⟨g, st, k⟩ = .ok ⟨g, st, k⟩ := by
  unfold refreshOnRetry
  by_cases hi : i > 0
  · simp [hi, Generation.Refresh, hfresh]
  · simp [hi]

/-- A transaction source that proposes the same refused operations at every
attempt exhausts the runner. -/
theorem runLoop_refused (build : Nat → Frame → Except Err (List Op) × Frame) (f : Frame)
    (ops : List Op) (hb : ∀ i, build i f = (.ok ops, f))
    (ht : RunTransaction ops f.st = none) :
    ∀ n i, runLoop Frame.st Frame.setSt build n i f = (some Err.ErrExcessiveContention, f) := by
  intro n
  induction n with
  | zero => intro i; rfl
  | succ n ih =>
    intro i
    rw [runLoop_step_retry Frame.st Frame.setSt build n i f f ops (hb i) ht]
    exact ih (i + 1)

theorem flatMap_assignGenerationUnitTxnOps (id appName : String) (l : List String) :
    l.flatMap (fun name => assignGenerationUnitTxnOps id appName name)
      = l.map (fun name =>
          Op.update id [Cond.completedEq 0, Cond.assignedExists, Cond.unitNotIn appName name]
            (Change.pushUnit appName name)) := by
  induction l with
  | nil => rfl
  | cons a t ih =>
    rw [List.flatMap_cons, ih]
    rfl

/-- The `buildTxn` of `AssignAllUnits` through a receiver that holds the stored
open document, at every attempt. -/
theorem assignAllUnitsBuildTxn_fresh (g : Generation) (appName : String) (st : State)
    (app : applicationDoc) (U : List String)
    (hfresh : st.findId g.doc.DocId = some g.doc) (hopen : g.doc.Completed = 0)
    (hU : appUnitNames st appName = .ok U) (happ : st.Application appName = .ok app)
    (i : Nat) :
    assignAllUnitsBuildTxn appName i ⟨g, st, 0⟩
      = (if missingUnits g.doc appName U = [] then .error Err.ErrNoOperations
          else .ok (assignAllUnitsOps g.doc.DocId appName app (missingUnits g.doc appName U)),
        ⟨g, st, 0⟩) := by
  have hc : g.CheckNotComplete = none := by simp [Generation.CheckNotComplete, hopen]
  unfold assignAllUnitsBuildTxn
  rw [refreshOnRetry_fresh g st 0 i hfresh]
  simp only [hc, hU, happ, flatMap_assignGenerationUnitTxnOps]
  rw [show U.filter (fun name => !((g.doc.AssignedUnits.get appName).contains name))
    = missingUnits g.doc appName U from rfl]
  cases hm : missingUnits g.doc appName U with
  | nil => simp
  | cons a t => simp [assignAllUnitsOps]

theorem UnitMap.get_foldl_push_same (app : String) :
    ∀ (names : List String) (m : UnitMap),
      (names.foldl (fun m n => UnitMap.push m app n) m).get app = m.get app ++ names := by
  intro names
  induction names with
  | nil => intro m; simp
  | cons a t ih =>
    intro m
    rw [List.foldl_cons, ih, UnitMap.get_push_same]
    simp

theorem UnitMap.lookup_foldl_push_other (app k : String) (hne : k ≠ app) :
    ∀ (names : List String) (m : UnitMap),
      (names.foldl (fun m n => UnitMap.push m app n) m).lookup k = m.lookup k := by
  intro names
  induction names with
  | nil => intro m; rfl
  | cons a t ih =>
    intro m
    rw [List.foldl_cons, ih, UnitMap.lookup_push_other _ _ _ _ hne]

/-- The document after the pushes of a list of unit names, one write each. -/
theorem foldl_write_push (app : String) :
    ∀ (names : List String) (d : generationDoc),
      names.foldl (fun d n => (Change.pushUnit app n).write d) d
        = { d with
            AssignedUnits := names.foldl (fun m n => UnitMap.push m app n) d.AssignedUnits,
            TxnRevno := d.TxnRevno + names.length } := by
  intro names
  induction names with
  | nil => intro d; simp
  | cons a t ih =>
    intro d
    rw [List.foldl_cons, ih]
    simp only [Change.write, Change.apply, List.foldl_cons, List.length_cons, Nat.cast_add,
      Nat.cast_one]
    congr 1
    omega

/-- The store after the updates of a list of pushes on one document. -/
theorem foldl_apply_push (id app : String) :
    ∀ (names : List String) (st : State) (d : generationDoc), st.findId id = some d →
      ((names.map (fun name =>
          Op.update id [Cond.completedEq 0, Cond.assignedExists, Cond.unitNotIn app name]
            (Change.pushUnit app name))).foldl Op.apply st).findId id
        = some (names.foldl (fun d n => (Change.pushUnit app n).write d) d) ∧
      (∀ id2, id2 ≠ id →
        ((names.map (fun name =>
          Op.update id [Cond.completedEq 0, Cond.assignedExists, Cond.unitNotIn app name]
            (Change.pushUnit app name))).foldl Op.apply st).findId id2 = st.findId id2) ∧
      ((names.map (fun name =>
          Op.update id [Cond.completedEq 0, Cond.assignedExists, Cond.unitNotIn app name]
            (Change.pushUnit app name))).foldl Op.apply st).sequenceC = st.sequenceC := by
  intro names
  induction names with
  | nil => intro st d h; exact ⟨h, fun _ _ => rfl, rfl⟩
  | cons a t ih =>
    intro st d h
    simp only [List.map_cons, List.foldl_cons]
    have h1 : (Op.apply st (Op.update id
        [Cond.completedEq 0, Cond.assignedExists, Cond.unitNotIn app a]
        (Change.pushUnit app a))).findId id = some ((Change.pushUnit app a).write d) :=
      findId_after_update st id (Change.pushUnit app a) d st.sequenceC h
    obtain ⟨i1, i2, i3⟩ := ih _ _ h1
    refine ⟨i1, ?_, ?_⟩
    · intro id2 hne
      rw [i2 id2 hne]
      exact findId_after_update_other st id id2 (Change.pushUnit app a) st.sequenceC hne
    · rw [i3]; rfl

theorem mem_missingUnits (d : generationDoc) (appName : String) (names : List String)
    (x : String) :
    x ∈ missingUnits d appName names ↔ x ∈ names ∧ x ∉ d.AssignedUnits.get appName := by
  simp [missingUnits]

/-- C9. For every open branch (the receiver holds the stored document, the
runner makes at least one attempt) and every existing application `appName`
whose enumerated unit names are `U`, duplicate-free: at every attempt
`AssignAllUnits(appName)` proposes the application assertion (alive, same unit
count) and one append per name of `U` missing from `assignedUnits[appName]`, or
reports no operations when none is missing. When none is missing (also when `U`
is empty) the call returns success and changes nothing. Whenever the call
returns success, the stored `assignedUnits[appName]` is the previous list
followed by the missing names: it holds exactly the previously staged units
and the names of `U`, without duplicates if the previous list had none, and
every other key is unchanged, as is every other document. -/
theorem C9_assign_all_units (g : Generation) (appName : String) (st : State)
    (app : applicationDoc) (U : List String)
    (hfresh : st.findId g.doc.DocId = some g.doc) (hopen : g.doc.Completed = 0)
    (hU : appUnitNames st appName = .ok U) (happ : st.Application appName = .ok app)
    (hnodup : U.Nodup) (hretry : 0 < st.nrRetries) :
    (∀ i, assignAllUnitsBuildTxn appName i ⟨g, st, 0⟩
      = (if missingUnits g.doc appName U = [] then .error Err.ErrNoOperations
          else .ok (assignAllUnitsOps g.doc.DocId appName app (missingUnits g.doc appName U)),
        ⟨g, st, 0⟩)) ∧
    (missingUnits g.doc appName U = [] →
      (g.AssignAllUnits appName st).ret = none ∧ (g.AssignAllUnits appName st).st = st) ∧
    ((g.AssignAllUnits appName st).ret = none →
      ∃ d2, (g.AssignAllUnits appName st).st.findId g.doc.DocId = some d2 ∧
        d2.AssignedUnits.get appName
          = g.doc.AssignedUnits.get appName ++ missingUnits g.doc appName U ∧
        (∀ x, x ∈ d2.AssignedUnits.get appName ↔
          x ∈ g.doc.AssignedUnits.get appName ∨ x ∈ U) ∧
        ((g.doc.AssignedUnits.get appName).Nodup → (d2.AssignedUnits.get appName).Nodup) ∧
        (∀ k, k ≠ appName → d2.AssignedUnits.lookup k = g.doc.AssignedUnits.lookup k) ∧
        (∀ id2, id2 ≠ g.doc.DocId →
          (g.AssignAllUnits appName st).st.findId id2 = st.findId id2)) := by
  obtain ⟨n, hn⟩ : ∃ n, st.nrRetries = n + 1 := ⟨st.nrRetries - 1, by omega⟩
  have hb := assignAllUnitsBuildTxn_fresh g appName st app U hfresh hopen hU happ
  obtain ⟨e1, e2, -⟩ := AssignAllUnits_run g appName st
  rw [Run_eq (assignAllUnitsBuildTxn appName) ⟨g, st, 0⟩ (n + 1) hn] at e1 e2
  have hmemU : ∀ x, x ∈ g.doc.AssignedUnits.get appName ++ missingUnits g.doc appName U ↔
      x ∈ g.doc.AssignedUnits.get appName ∨ x ∈ U := by
    intro x
    rw [List.mem_append, mem_missingUnits]
    by_cases hx : x ∈ g.doc.AssignedUnits.get appName <;> simp [hx]
  have hnd : (g.doc.AssignedUnits.get appName).Nodup →
      (g.doc.AssignedUnits.get appName ++ missingUnits g.doc appName U).Nodup := by
    intro h
    refine List.Nodup.append h (hnodup.filter _) ?_
    intro x hx1 hx2
    exact ((mem_missingUnits _ _ _ _).1 hx2).2 hx1
  by_cases hm : missingUnits g.doc appName U = []
  · have hb0 := hb 0
    rw [if_pos hm] at hb0
    rw [runLoop_step_noop _ _ _ _ _ _ _ hb0] at e1 e2
    refine ⟨hb, fun _ => ⟨e1, e2⟩, fun _ => ⟨g.doc, by rw [e2]; exact hfresh, ?_, ?_, ?_,
      fun _ _ => rfl, fun _ _ => by rw [e2]⟩⟩
    · rw [hm]; simp
    · intro x; rw [← hmemU x, hm]; simp
    · exact fun h => h
  · refine ⟨hb, fun h => absurd h hm, ?_⟩
    have hbi : ∀ i, assignAllUnitsBuildTxn appName i ⟨g, st, 0⟩
        = (.ok (assignAllUnitsOps g.doc.DocId appName app (missingUnits g.doc appName U)),
          ⟨g, st, 0⟩) := by
      intro i; rw [hb i, if_neg hm]
    cases ht : RunTransaction
        (assignAllUnitsOps g.doc.DocId appName app (missingUnits g.doc appName U)) st with
    | none =>
      intro hret
      rw [runLoop_refused (assignAllUnitsBuildTxn appName) ⟨g, st, 0⟩ _ hbi ht (n + 1) 0] at e1
      rw [e1] at hret
      cases hret
    | some st2 =>
      intro _
      rw [runLoop_step_ok _ _ _ _ _ _ _ _ _ (hbi 0) ht] at e2
      have hst2 : st2 = (assignAllUnitsOps g.doc.DocId appName app
          (missingUnits g.doc appName U)).foldl Op.apply st := by
        unfold RunTransaction at ht
        split at ht
        · exact (Option.some.inj ht).symm
        · cases ht
      have hfold : st2 = ((missingUnits g.doc appName U).map (fun name =>
          Op.update g.doc.DocId
            [Cond.completedEq 0, Cond.assignedExists, Cond.unitNotIn appName name]
            (Change.pushUnit appName name))).foldl Op.apply st := by
        rw [hst2]; rfl
      obtain ⟨f1, f2, -⟩ := foldl_apply_push g.doc.DocId appName
        (missingUnits g.doc appName U) st g.doc hfresh
      rw [← hfold] at f1 f2
      rw [foldl_write_push] at f1
      have e2s : (g.AssignAllUnits appName st).st = st2 := e2
      refine ⟨_, by rw [e2s]; exact f1, ?_, ?_, ?_, ?_, ?_⟩
      · exact UnitMap.get_foldl_push_same appName _ _
      · intro x
        rw [← hmemU x]
        exact Iff.of_eq (congrArg (x ∈ ·) (UnitMap.get_foldl_push_same appName _ _))
      · intro h
        have := hnd h
        rw [← UnitMap.get_foldl_push_same appName (missingUnits g.doc appName U)
          g.doc.AssignedUnits] at this
        exact this
      · intro k hk
        exact UnitMap.lookup_foldl_push_other appName k hk _ _
      · intro id2 hne
        rw [e2s]; exact f2 id2 hne

/-- C9 at the branch "db-upgrade" and the application "mysql" with the units
"mysql/0" and "mysql/1": the call returns success and the stored list of
"mysql" becomes the two units. -/
theorem C9_assign_all_units_witness :
    (modelM.findId dbUpgrade.DocId = some dbUpgrade ∧ dbUpgrade.Completed = 0 ∧
      appUnitNames modelM "mysql" = .ok ["mysql/0", "mysql/1"] ∧
      modelM.Application "mysql" = .ok ⟨"M:mysql", "mysql", Life.Alive, 2⟩ ∧
      ["mysql/0", "mysql/1"].Nodup ∧ 0 < modelM.nrRetries) ∧
    ((∀ i, assignAllUnitsBuildTxn "mysql" i ⟨⟨dbUpgrade⟩, modelM, 0⟩
      = (if missingUnits dbUpgrade "mysql" ["mysql/0", "mysql/1"] = []
          then .error Err.ErrNoOperations
          else .ok (assignAllUnitsOps dbUpgrade.DocId "mysql"
            ⟨"M:mysql", "mysql", Life.Alive, 2⟩
            (missingUnits dbUpgrade "mysql" ["mysql/0", "mysql/1"])),
        ⟨⟨dbUpgrade⟩, modelM, 0⟩)) ∧
    (missingUnits dbUpgrade "mysql" ["mysql/0", "mysql/1"] = [] →
      (Generation.AssignAllUnits ⟨dbUpgrade⟩ "mysql" modelM).ret = none ∧
      (Generation.AssignAllUnits ⟨dbUpgrade⟩ "mysql" modelM).st = modelM) ∧
    ((Generation.AssignAllUnits ⟨dbUpgrade⟩ "mysql" modelM).ret = none →
      ∃ d2, (Generation.AssignAllUnits ⟨dbUpgrade⟩ "mysql" modelM).st.findId dbUpgrade.DocId
          = some d2 ∧
        d2.AssignedUnits.get "mysql"
          = dbUpgrade.AssignedUnits.get "mysql"
              ++ missingUnits dbUpgrade "mysql" ["mysql/0", "mysql/1"] ∧
        (∀ x, x ∈ d2.AssignedUnits.get "mysql" ↔
          x ∈ dbUpgrade.AssignedUnits.get "mysql" ∨ x ∈ ["mysql/0", "mysql/1"]) ∧
        ((dbUpgrade.AssignedUnits.get "mysql").Nodup → (d2.AssignedUnits.get "mysql").Nodup) ∧
        (∀ k, k ≠ "mysql" → d2.AssignedUnits.lookup k = dbUpgrade.AssignedUnits.lookup k) ∧
        (∀ id2, id2 ≠ dbUpgrade.DocId →
          (Generation.AssignAllUnits ⟨dbUpgrade⟩ "mysql" modelM).st.findId id2
            = modelM.findId id2))) ∧
    (Generation.AssignAllUnits ⟨dbUpgrade⟩ "mysql" modelM).ret = none ∧
    ((Generation.AssignAllUnits ⟨dbUpgrade⟩ "mysql" modelM).st.findId "0").map
      (fun d => d.AssignedUnits) = some [("mysql", ["mysql/0", "mysql/1"])] :=
  ⟨⟨by decide, rfl, rfl, rfl, by decide, by decide⟩,
    C9_assign_all_units ⟨dbUpgrade⟩ "mysql" modelM ⟨"M:mysql", "mysql", Life.Alive, 2⟩
      ["mysql/0", "mysql/1"] (by decide) rfl rfl rfl (by decide) (by decide),
    by decide, by decide⟩

/-! ## C10: one open branch per name -/

theorem digitChar_inj : ∀ x < 10, ∀ y < 10, Nat.digitChar x = Nat.digitChar y → x = y := by
  decide

theorem map_digitChar_inj : ∀ (l1 l2 : List Nat), (∀ x ∈ l1, x < 10) → (∀ x ∈ l2, x < 10) →
    l1.map Nat.digitChar = l2.map Nat.digitChar → l1 = l2 := by
  intro l1
  induction l1 with
  | nil =>
    intro l2 _ _ h
    cases l2 with
    | nil => rfl
    | cons b t => simp at h
  | cons a t ih =>
    intro l2 h1 h2 h
    cases l2 with
    | nil => simp at h
    | cons b t2 =>
      simp only [List.map_cons, List.cons.injEq] at h
      have hab := digitChar_inj a (h1 a (List.mem_cons_self _ _)) b
        (h2 b (List.mem_cons_self _ _)) h.1
      have := ih t2 (fun x hx => h1 x (List.mem_cons_of_mem _ hx))
        (fun x hx => h2 x (List.mem_cons_of_mem _ hx)) h.2
      rw [hab, this]

/-- The decimal form determines the number. -/
theorem Itoa_injective (a b : Nat) (h : Itoa a = Itoa b) : a = b := by
  unfold Itoa at h
  have hl : (if a = 0 then ['0'] else (Nat.digits 10 a).reverse.map Nat.digitChar)
      = (if b = 0 then ['0'] else (Nat.digits 10 b).reverse.map Nat.digitChar) :=
    congrArg String.data h
  have hdig : ∀ n : Nat, ∀ x ∈ (Nat.digits 10 n).reverse, x < 10 := by
    intro n x hx
    exact Nat.digits_lt_base (by norm_num) (List.mem_reverse.1 hx)
  have hzero : ∀ n : Nat, n ≠ 0 →
      ['0'] ≠ (Nat.digits 10 n).reverse.map Nat.digitChar := by
    intro n hn heq
    have hlen : (Nat.digits 10 n).length = 1 := by
      have := congrArg List.length heq
      simpa using this.symm
    obtain ⟨x, hx⟩ := List.length_eq_one.1 hlen
    rw [hx] at heq
    simp only [List.reverse_singleton, List.map_cons, List.map_nil, List.cons.injEq,
      and_true] at heq
    have hx10 : x < 10 := Nat.digits_lt_base (by norm_num) (by rw [hx]; simp)
    have hx0 : x = 0 := (digitChar_inj 0 (by norm_num) x hx10 heq).symm
    have hlast := Nat.getLast_digit_ne_zero 10 hn
    simp [hx, hx0] at hlast
  by_cases ha : a = 0
  · by_cases hb : b = 0
    · rw [ha, hb]
    · simp only [ha, hb, if_true, if_false] at hl
      exact absurd hl (hzero b hb)
  · by_cases hb : b = 0
    · simp only [ha, hb, if_true, if_false] at hl
      exact absurd hl.symm (hzero a ha)
    · simp only [ha, hb, if_false] at hl
      have := map_digitChar_inj _ _ (hdig a) (hdig b) hl
      exact Nat.digits_inj_iff.1 (List.reverse_injective this)

theorem write_name (chg : Change) (d : generationDoc) : (chg.write d).Name = d.Name := by
  cases chg <;> rfl

theorem write_open_of_benign (id : String) (conds : List Cond) (chg : Change)
    (d : generationDoc) (hb : (Op.update id conds chg).benign)
    (h : (chg.write d).Completed = 0) : d.Completed = 0 := by
  cases chg with
  | setApp a us => exact h
  | pushUnit a u => exact h
  | complete m now user gid =>
    have h1 : (0 : Int) < now := hb
    have h2 : now = 0 := h
    omega

theorem openCount_updateId (name id : String) (f : generationDoc → generationDoc)
    (hname : ∀ d, (f d).Name = d.Name) (hopen : ∀ d, (f d).Completed = 0 → d.Completed = 0) :
    ∀ l, openCount name (updateId f id l) ≤ openCount name l := by
  intro l
  induction l with
  | nil => simp [updateId]
  | cons a t ih =>
    unfold openCount at ih ⊢
    by_cases hid : a.DocId = id
    · have hstep : updateId f id (a :: t) = f a :: t := by simp [updateId, hid]
      rw [hstep]
      by_cases hfa : ((f a).Name == name && (f a).Completed == 0) = true
      · have ha : (a.Name == name && a.Completed == 0) = true := by
          simp only [Bool.and_eq_true, beq_iff_eq] at hfa ⊢
          exact ⟨(hname a) ▸ hfa.1, hopen a hfa.2⟩
        simp [List.filter_cons, hfa, ha]
      · simp only [List.filter_cons, hfa]
        by_cases ha : (a.Name == name && a.Completed == 0) = true
        · simp [ha]
        · simp [ha]
    · have hstep : updateId f id (a :: t) = a :: updateId f id t := by simp [updateId, hid]
      rw [hstep]
      by_cases ha : (a.Name == name && a.Completed == 0) = true
      · simp only [List.filter_cons, ha, if_true, List.length_cons]
        omega
      · simp only [List.filter_cons, ha]
        exact ih

theorem map_docId_updateId (id : String) (f : generationDoc → generationDoc)
    (hf : ∀ d, (f d).DocId = d.DocId) :
    ∀ l, (updateId f id l).map (fun d => d.DocId) = l.map (fun d => d.DocId) := by
  intro l
  induction l with
  | nil => rfl
  | cons a t ih =>
    by_cases hid : a.DocId = id
    · simp [updateId, hid, hf]
    · simp [updateId, hid, ih]

/-- A benign operation keeps the invariant. -/
theorem Inv_apply (st : State) (op : Op) (hb : op.benign) (h : st.Inv) : (Op.apply st op).Inv := by
  cases op with
  | insert id doc => exact absurd hb (by simp [Op.benign])
  | assertApp id life n => exact h
  | update id conds chg =>
    refine ⟨h.clock, ?_, ?_⟩
    · intro name
      exact le_trans (openCount_updateId name id chg.write (write_name chg)
        (fun d => write_open_of_benign id conds chg d hb) st.generationsC) (h.oneOpen name)
    · intro x hx
      have hx2 : x ∈ (updateId chg.write id st.generationsC).map (fun d => d.DocId) := hx
      rw [map_docId_updateId id chg.write (write_docId chg)] at hx2
      exact h.ids x hx2

theorem Inv_foldl : ∀ (ops : List Op) (st : State), (∀ op ∈ ops, op.benign) → st.Inv →
    (ops.foldl Op.apply st).Inv := by
  intro ops
  induction ops with
  | nil => intro st _ h; exact h
  | cons a t ih =>
    intro st hb h
    rw [List.foldl_cons]
    exact ih _ (fun op hop => hb op (List.mem_cons_of_mem _ hop))
      (Inv_apply st a (hb a (List.mem_cons_self _ _)) h)

/-- An applied transaction of benign operations keeps the invariant. -/
theorem Inv_RunTransaction (ops : List Op) (st st2 : State) (hb : ∀ op ∈ ops, op.benign)
    (h : st.Inv) (ht : RunTransaction ops st = some st2) : st2.Inv := by
  unfold RunTransaction at ht
  split at ht
  · cases ht
    exact Inv_foldl ops st hb h
  · cases ht

theorem lookup_setCounter_other (l : List (String × Nat)) (k k2 : String) (v : Nat)
    (hne : k2 ≠ k) : (setCounter l k v).lookup k2 = l.lookup k2 := by
  induction l with
  | nil =>
    have : (k2 == k) = false := by simpa using hne
    simp [setCounter, List.lookup, this]
  | cons a t ih =>
    obtain ⟨k0, v0⟩ := a
    by_cases hk : k0 = k
    · have : (k2 == k) = false := by simpa using hne
      simp [setCounter, List.lookup, hk, this]
    · by_cases hk2 : k2 = k0
      · simp [setCounter, List.lookup, hk, hk2]
      · have : (k2 == k0) = false := by simpa using hk2
        simp [setCounter, List.lookup, hk, this, ih]

theorem lookup_setCounter_same (l : List (String × Nat)) (k : String) (v : Nat) :
    (setCounter l k v).lookup k = some v := by
  induction l with
  | nil => simp [setCounter, List.lookup]
  | cons a t ih =>
    obtain ⟨k0, v0⟩ := a
    by_cases hk : k0 = k
    · simp [setCounter, List.lookup, hk]
    · have hk2 : (k == k0) = false := by simpa using fun e => hk e.symm
      simp [setCounter, List.lookup, hk, hk2, ih]

theorem Inv_afterGenerationSeq (st : State) (h : st.Inv) : st.afterGenerationSeq.Inv := by
  refine ⟨h.clock, h.oneOpen, ?_⟩
  intro x hx
  obtain ⟨k, hk, hx2⟩ := h.ids x hx
  refine ⟨k, ?_, hx2⟩
  have : st.afterGenerationSeq.counter "branch" = st.counter "branch" := by
    unfold State.counter State.afterGenerationSeq
    simp only
    rw [lookup_setCounter_other _ _ _ _ (by decide)]
  rw [this]; exact hk

theorem assignApplicationBuildTxn_benign (appName : String) (i : Nat) (f : Frame) :
    (assignApplicationBuildTxn appName i f).2.st = f.st ∧
      ∀ ops, (assignApplicationBuildTxn appName i f).1 = .ok ops → ∀ op ∈ ops, op.benign := by
  unfold assignApplicationBuildTxn
  cases hr : refreshOnRetry i f with
  | error e => exact ⟨rfl, fun ops h => by simp at h⟩
  | ok f1 =>
    obtain ⟨h1, -, -, -⟩ := refreshOnRetry_ok hr
    simp only
    by_cases hhas : f1.g.doc.AssignedUnits.has appName = true
    · simp only [hhas, if_true]
      exact ⟨h1, fun ops h => by simp at h⟩
    · simp only [hhas, Bool.false_eq_true, if_false]
      cases hc : f1.g.CheckNotComplete with
      | some e => exact ⟨h1, fun ops h => by simp at h⟩
      | none =>
        refine ⟨h1, fun ops h op hop => ?_⟩
        simp only [Except.ok.injEq] at h
        subst h
        simp only [assignGenerationAppTxnOps, List.mem_singleton] at hop
        subst hop
        trivial

theorem assignUnitBuildTxn_benign (appName unitName : String) (i : Nat) (f : Frame) :
    (assignUnitBuildTxn appName unitName i f).2.st = f.st ∧
      ∀ ops, (assignUnitBuildTxn appName unitName i f).1 = .ok ops →
        ∀ op ∈ ops, op.benign := by
  unfold assignUnitBuildTxn
  cases hr : refreshOnRetry i f with
  | error e => exact ⟨rfl, fun ops h => by simp at h⟩
  | ok f1 =>
    obtain ⟨h1, -, -, -⟩ := refreshOnRetry_ok hr
    simp only
    cases hc : f1.g.CheckNotComplete with
    | some e => exact ⟨h1, fun ops h => by simp at h⟩
    | none =>
      simp only
      by_cases hin : (f1.g.doc.AssignedUnits.get appName).contains unitName = true
      · simp only [hin, if_true]
        exact ⟨h1, fun ops h => by simp at h⟩
      · simp only [hin, Bool.false_eq_true, if_false]
        refine ⟨h1, fun ops h op hop => ?_⟩
        simp only [Except.ok.injEq] at h
        subst h
        simp only [assignGenerationUnitTxnOps, List.mem_singleton] at hop
        subst hop
        trivial

theorem assignAllUnitsBuildTxn_benign (appName : String) (i : Nat) (f : Frame) :
    (assignAllUnitsBuildTxn appName i f).2.st = f.st ∧
      ∀ ops, (assignAllUnitsBuildTxn appName i f).1 = .ok ops → ∀ op ∈ ops, op.benign := by
  unfold assignAllUnitsBuildTxn
  cases hr : refreshOnRetry i f with
  | error e => exact ⟨rfl, fun ops h => by simp at h⟩
  | ok f1 =>
    obtain ⟨h1, -, -, -⟩ := refreshOnRetry_ok hr
    simp only
    cases hc : f1.g.CheckNotComplete with
    | some e => exact ⟨h1, fun ops h => by simp at h⟩
    | none =>
      simp only
      cases hu : appUnitNames f1.st appName with
      | error e => exact ⟨h1, fun ops h => by simp at h⟩
      | ok unitNames =>
        simp only
        cases ha : f1.st.Application appName with
        | error e => exact ⟨h1, fun ops h => by simp at h⟩
        | ok app =>
          simp only
          split
          · exact ⟨h1, fun ops h => by simp at h⟩
          · refine ⟨h1, fun ops h op hop => ?_⟩
            simp only [Except.ok.injEq] at h
            subst h
            rw [flatMap_assignGenerationUnitTxnOps] at hop
            rcases List.mem_cons.1 hop with h2 | h2
            · subst h2; trivial
            · obtain ⟨name, -, hname⟩ := List.mem_map.1 h2
              subst hname
              trivial

theorem commitBuildTxn_benign (userName : String) (i : Nat) (f : Frame)
    (hclock : f.st.clockOk) :
    ((commitBuildTxn userName i f).2.st = f.st ∨
      (commitBuildTxn userName i f).2.st = f.st.afterGenerationSeq) ∧
      ∀ ops, (commitBuildTxn userName i f).1 = .ok ops → ∀ op ∈ ops, op.benign := by
  refine ⟨?_, ?_⟩
  · rcases commitBuildTxn_cases userName i f with ⟨e, -, -, h⟩ | ⟨f1, hr, h⟩
    · rw [h]; exact Or.inl rfl
    · obtain ⟨h1, -, -, -⟩ := refreshOnRetry_ok hr
      rcases h with ⟨-, -, h⟩ | ⟨-, -, h⟩ | ⟨-, -, h⟩ | ⟨-, now, -, h⟩
      · rw [h]; exact Or.inl h1
      · rw [h]; exact Or.inl h1
      · rw [h]; exact Or.inl h1
      · unfold CommitOpenCase at h
        rcases h with ⟨-, h⟩ | ⟨-, -, -, h⟩ | ⟨-, -, -, h⟩ | ⟨-, -, h⟩
        · rw [h]; exact Or.inl h1
        · rw [h]; exact Or.inl h1
        · rw [h]; right; show f1.st.afterGenerationSeq = _; rw [h1]
        · rw [h]; exact Or.inl h1
  · intro ops hops op hop
    obtain ⟨f1, now, -, -, hclk, hops2, -⟩ := commitBuildTxn_ops hops
    rw [hops2] at hop
    simp only [commitTxnOps, List.mem_singleton] at hop
    subst hop
    exact hclock now hclk

/-- Every run of a `buildTxn` that leaves the state alone, or allocates from the
"generation" sequence, and proposes benign operations keeps the invariant. -/
theorem Inv_runLoop (build : Nat → Frame → Except Err (List Op) × Frame)
    (hb : ∀ i f, f.st.Inv →
      ((build i f).2.st = f.st ∨ (build i f).2.st = f.st.afterGenerationSeq) ∧
        ∀ ops, (build i f).1 = .ok ops → ∀ op ∈ ops, op.benign)
    (n i : Nat) (f : Frame) (h : f.st.Inv) :
    (runLoop Frame.st Frame.setSt build n i f).2.st.Inv := by
  have hbuild : ∀ i s, s.st.Inv → (build i s).2.st.Inv := by
    intro i s hs
    rcases (hb i s hs).1 with h1 | h1
    · rw [h1]; exact hs
    · rw [h1]; exact Inv_afterGenerationSeq _ hs
  exact runLoop_invariant Frame.st Frame.setSt build (fun f => f.st.Inv) hbuild
    (fun i s ops st2 hs hops ht =>
      Inv_RunTransaction ops _ st2 ((hb i s hs).2 ops hops) (hbuild i s hs) ht) n i f h

theorem sequence_branch (st : State) (h : st.sequenceDown = false) :
    sequence st "branch" = (.ok (st.counter "branch"), st.afterBranchSeq) := by
  simp [sequence, sequenceWithMin, h, State.afterBranchSeq]

theorem addGenerationBuildTxn_found (id : Nat) (name user : String) (i : Nat) (st : State)
    (d : generationDoc) (h : st.findOpen name = some d) :
    addGenerationBuildTxn id name user i st
      = (.error (Err.New ("model already has branch " ++ Quote name)), st) := by
  unfold State.findOpen at h
  simp [addGenerationBuildTxn, State.Branch, State.getBranchDoc, h]

theorem addGenerationBuildTxn_free (id : Nat) (name user : String) (i : Nat) (st : State)
    (h : st.findOpen name = none) :
    addGenerationBuildTxn id name user i st
      = match st.clock with
        | none => (.error (Err.New "cannot read controller timestamp"), st)
        | some now => (.ok (insertGenerationTxnOps (Itoa id) name user now), st) := by
  unfold State.findOpen at h
  cases hc : st.clock <;>
    simp [addGenerationBuildTxn, State.Branch, State.getBranchDoc, h,
      State.ControllerTimestamp, hc]

/-- Case analysis of `AddGeneration`: either it returns an error and leaves the
branch documents alone, or it returns success, there was no open branch with
the name, and the insertion was applied. -/
theorem AddGeneration_cases (st : State) (name user : String) :
    ((st.AddGeneration name user).1 ≠ none ∧
      ((st.AddGeneration name user).2 = st ∨
        (st.AddGeneration name user).2 = st.afterBranchSeq) ∧
      (st.findOpen name = none → st.sequenceDown = false → 0 < st.nrRetries →
        st.clock = none)) ∨
    ((st.AddGeneration name user).1 = none ∧ st.findOpen name = none ∧
      ∃ now, st.clock = some now ∧
        (st.AddGeneration name user).2
          = Op.apply st.afterBranchSeq
              (Op.insert (Itoa (st.counter "branch"))
                (newBranchDoc (st.counter "branch") name user now))) := by
  unfold State.AddGeneration
  cases hd : st.sequenceDown with
  | true =>
    left
    simp [sequence, sequenceWithMin, hd]
  | false =>
    rw [sequence_branch st hd]
    simp only
    unfold Run
    have hnr : st.afterBranchSeq.nrRetries = st.nrRetries := rfl
    rw [hnr]
    cases hn : st.nrRetries with
    | zero =>
      left
      simp [runLoop]
    | succ n =>
      cases hf : st.findOpen name with
      | some d =>
        left
        have hf2 : st.afterBranchSeq.findOpen name = some d := hf
        have hb := addGenerationBuildTxn_found (st.counter "branch") name user 0 _ d hf2
        simp [runLoop, hb]
      | none =>
        have hf2 : st.afterBranchSeq.findOpen name = none := hf
        have hb := addGenerationBuildTxn_free (st.counter "branch") name user 0 _ hf2
        have hclk : st.afterBranchSeq.clock = st.clock := rfl
        rw [hclk] at hb
        cases hc : st.clock with
        | none =>
          left
          rw [hc] at hb
          simp [runLoop, hb]
        | some now =>
          right
          rw [hc] at hb
          refine ⟨?_, rfl, now, rfl, ?_⟩
          · simp [runLoop, hb, RunTransaction, insertGenerationTxnOps, Op.asserted]
          · simp [runLoop, hb, RunTransaction, insertGenerationTxnOps, Op.asserted]
            unfold Op.apply
            cases st.afterBranchSeq.findId (Itoa (st.counter "branch")) <;> rfl

theorem counter_afterBranchSeq (st : State) :
    st.afterBranchSeq.counter "branch" = st.counter "branch" + 1 := by
  unfold State.afterBranchSeq
  show (List.lookup "branch" (setCounter st.sequenceC "branch" (st.counter "branch" + 1))).getD 0
    = _
  rw [lookup_setCounter_same]
  rfl

theorem Inv_afterBranchSeq (st : State) (h : st.Inv) : st.afterBranchSeq.Inv := by
  refine ⟨h.clock, h.oneOpen, ?_⟩
  intro x hx
  obtain ⟨k, hk, hx2⟩ := h.ids x hx
  refine ⟨k, ?_, hx2⟩
  rw [counter_afterBranchSeq]
  omega

/-- In a state that satisfies the invariant the next branch id is unused. -/
theorem findId_next_none (st : State) (h : st.Inv) :
    st.afterBranchSeq.findId (Itoa (st.counter "branch")) = none := by
  show st.generationsC.find? (fun d => d.DocId == Itoa (st.counter "branch")) = none
  rw [List.find?_eq_none]
  intro d hd hEq
  have hmem : d.DocId ∈ st.generationsC.map (fun d => d.DocId) := List.mem_map_of_mem _ hd
  obtain ⟨k, hk, hx⟩ := h.ids _ hmem
  have h1 : d.DocId = Itoa (st.counter "branch") := by simpa using hEq
  rw [hx] at h1
  have := Itoa_injective _ _ h1
  omega

/-- The insertion of `AddGeneration` in a state that satisfies the invariant
appends the new document. -/
theorem apply_insert_next (st : State) (h : st.Inv) (name user : String) (now : Int) :
    (Op.apply st.afterBranchSeq (Op.insert (Itoa (st.counter "branch"))
        (newBranchDoc (st.counter "branch") name user now))).generationsC
      = st.generationsC ++ [newBranchDoc (st.counter "branch") name user now] := by
  simp only [Op.apply, findId_next_none st h]
  rfl

theorem openCount_append (name : String) (l1 l2 : List generationDoc) :
    openCount name (l1 ++ l2) = openCount name l1 + openCount name l2 := by
  simp [openCount, List.filter_append]

theorem openCount_zero_of_findOpen (st : State) (name : String)
    (h : st.findOpen name = none) : openCount name st.generationsC = 0 := by
  unfold State.findOpen at h
  rw [List.find?_eq_none] at h
  unfold openCount
  rw [List.length_eq_zero, List.filter_eq_nil_iff]
  exact h

theorem Inv_insert (st : State) (h : st.Inv) (name user : String) (now : Int)
    (hfree : st.findOpen name = none) :
    (Op.apply st.afterBranchSeq (Op.insert (Itoa (st.counter "branch"))
        (newBranchDoc (st.counter "branch") name user now))).Inv := by
  have hgen := apply_insert_next st h name user now
  have hrest : ∀ s2 : State,
      s2 = Op.apply st.afterBranchSeq (Op.insert (Itoa (st.counter "branch"))
        (newBranchDoc (st.counter "branch") name user now)) →
      s2.clock = st.clock ∧ s2.sequenceC = st.afterBranchSeq.sequenceC := by
    intro s2 hs2
    rw [hs2]
    simp only [Op.apply, findId_next_none st h, and_true]
    rfl
  obtain ⟨hclk, hseq⟩ := hrest _ rfl
  refine ⟨?_, ?_, ?_⟩
  · intro t ht
    rw [hclk] at ht
    exact h.clock t ht
  · intro n
    rw [hgen, openCount_append]
    by_cases hn : name = n
    · subst hn
      rw [openCount_zero_of_findOpen st name hfree]
      simp [openCount, newBranchDoc]
    · have : openCount n [newBranchDoc (st.counter "branch") name user now] = 0 := by
        simp [openCount, newBranchDoc, hn]
      rw [this]
      exact h.oneOpen n
  · intro x hx
    rw [hgen] at hx
    have hcount : State.counter (Op.apply st.afterBranchSeq (Op.insert
        (Itoa (st.counter "branch")) (newBranchDoc (st.counter "branch") name user now)))
        "branch" = st.counter "branch" + 1 := by
      have hdef : ∀ s : State, s.counter "branch" = (s.sequenceC.lookup "branch").getD 0 :=
        fun _ => rfl
      rw [hdef, hseq]
      exact counter_afterBranchSeq st
    rw [hcount]
    simp only [List.map_append, List.map_cons, List.map_nil, List.mem_append,
      List.mem_singleton] at hx
    rcases hx with hx | hx
    · obtain ⟨k, hk, hx2⟩ := h.ids x hx
      exact ⟨k, by omega, hx2⟩
    · exact ⟨st.counter "branch", by omega, by rw [hx]; rfl⟩

theorem Inv_AddGeneration (st : State) (name user : String) (h : st.Inv) :
    (st.AddGeneration name user).2.Inv := by
  rcases AddGeneration_cases st name user with ⟨-, h2 | h2, -⟩ | ⟨-, hfree, now, -, h2⟩
  · rw [h2]; exact h
  · rw [h2]; exact Inv_afterBranchSeq st h
  · rw [h2]; exact Inv_insert st h name user now hfree

/-- Every reachable state satisfies the invariant. -/
theorem Reachable.inv {st : State} (h : Reachable st) : st.Inv := by
  induction h with
  | init st hgen hclock =>
    refine ⟨hclock, ?_, ?_⟩
    · intro name; rw [hgen]; simp [openCount]
    · intro x hx; rw [hgen] at hx; simp at hx
  | env st st2 _ hgen hseq hclock ih =>
    refine ⟨hclock, ?_, ?_⟩
    · intro name; rw [hgen]; exact ih.oneOpen name
    · intro x hx
      rw [hgen] at hx
      obtain ⟨k, hk, hx2⟩ := ih.ids x hx
      refine ⟨k, ?_, hx2⟩
      unfold State.counter
      rw [hseq]
      exact hk
  | addGeneration st name user _ ih => exact Inv_AddGeneration st name user ih
  | assignApplication st g appName _ ih =>
    rw [(AssignApplication_run g appName st).2.1]
    exact Inv_runLoop (assignApplicationBuildTxn appName)
      (fun i f _ => ⟨Or.inl (assignApplicationBuildTxn_benign appName i f).1,
        (assignApplicationBuildTxn_benign appName i f).2⟩) _ 0 ⟨g, st, 0⟩ ih
  | assignUnit st g unitName _ ih =>
    cases hu : UnitApplication unitName with
    | error e =>
      have : (g.AssignUnit unitName st).st = st := by simp [Generation.AssignUnit, hu]
      rw [this]; exact ih
    | ok app =>
      rw [(AssignUnit_run g app unitName st hu).2.1]
      exact Inv_runLoop (assignUnitBuildTxn app unitName)
        (fun i f _ => ⟨Or.inl (assignUnitBuildTxn_benign app unitName i f).1,
          (assignUnitBuildTxn_benign app unitName i f).2⟩) _ 0 ⟨g, st, 0⟩ ih
  | assignAllUnits st g appName _ ih =>
    rw [(AssignAllUnits_run g appName st).2.1]
    exact Inv_runLoop (assignAllUnitsBuildTxn appName)
      (fun i f _ => ⟨Or.inl (assignAllUnitsBuildTxn_benign appName i f).1,
        (assignAllUnitsBuildTxn_benign appName i f).2⟩) _ 0 ⟨g, st, 0⟩ ih
  | commit st g userName _ ih =>
    rw [(Commit_run g userName st).2.1]
    exact Inv_runLoop (commitBuildTxn userName)
      (fun i f hf => commitBuildTxn_benign userName i f hf.clock) _ 0 ⟨g, st, 0⟩ ih

theorem findOpen_isSome_of_mem (st : State) (name : String) (d : generationDoc)
    (hd : d ∈ st.generationsC) (hname : d.Name = name) (hopen : d.Completed = 0) :
    st.findOpen name ≠ none := by
  intro h
  unfold State.findOpen at h
  rw [List.find?_eq_none] at h
  exact h d hd (by simp [hname, hopen])

theorem findOpen_none_of_completed (st : State) (name : String)
    (h : ∀ d ∈ st.generationsC, d.Name = name → d.Completed ≠ 0) :
    st.findOpen name = none := by
  unfold State.findOpen
  rw [List.find?_eq_none]
  intro d hd hp
  simp only [Bool.and_eq_true, beq_iff_eq] at hp
  exact h d hd hp.1 hp.2

/-- With the operations applied one at a time: in every state reachable through
`AddGeneration`, the assignments and `Commit` there is at most one open branch
per name. There
`AddGeneration(name, user)` returns an error and leaves the branch documents as
they are when an open branch with that name exists; and when every branch with
that name is completed (or there is none), the sequence can be allocated, the
clock can be read and the runner makes an attempt, it returns success and
inserts one new document, which is open, has an empty `assignedUnits` map,
generation id 0, the given name and `created-by = user`, so that the name has
exactly one open branch again. -/
theorem one_open_branch_per_name (st : State) (name user : String)
    (hreach : Reachable st) :
    (∀ n, openCount n st.generationsC ≤ 1) ∧
    ((∃ d ∈ st.generationsC, d.Name = name ∧ d.Completed = 0) →
      (st.AddGeneration name user).1 ≠ none ∧
      (st.AddGeneration name user).2.generationsC = st.generationsC) ∧
    ((∀ d ∈ st.generationsC, d.Name = name → d.Completed ≠ 0) →
      st.sequenceDown = false → 0 < st.nrRetries → ∀ now, st.clock = some now →
      (st.AddGeneration name user).1 = none ∧
      (st.AddGeneration name user).2.generationsC
        = st.generationsC ++ [newBranchDoc (st.counter "branch") name user now] ∧
      (newBranchDoc (st.counter "branch") name user now).Name = name ∧
      (newBranchDoc (st.counter "branch") name user now).Completed = 0 ∧
      (newBranchDoc (st.counter "branch") name user now).AssignedUnits = [] ∧
      (newBranchDoc (st.counter "branch") name user now).GenerationId = 0 ∧
      (newBranchDoc (st.counter "branch") name user now).CreatedBy = user ∧
      st.findId (newBranchDoc (st.counter "branch") name user now).DocId = none ∧
      openCount name (st.AddGeneration name user).2.generationsC = 1) := by
  have hinv := hreach.inv
  refine ⟨hinv.oneOpen, ?_, ?_⟩
  · rintro ⟨d, hd, hname, hopen⟩
    have hfo := findOpen_isSome_of_mem st name d hd hname hopen
    rcases AddGeneration_cases st name user with ⟨h1, h2 | h2, -⟩ | ⟨-, hfree, -⟩
    · exact ⟨h1, by rw [h2]⟩
    · exact ⟨h1, by rw [h2]; rfl⟩
    · exact absurd hfree hfo
  · intro hdone hseq hretry now hclock
    have hfree := findOpen_none_of_completed st name hdone
    rcases AddGeneration_cases st name user with ⟨-, -, h3⟩ | ⟨h1, -, now2, hclk2, h2⟩
    · have := h3 hfree hseq hretry
      rw [hclock] at this
      cases this
    · have hnow : now2 = now := by
        rw [hclock] at hclk2; exact (Option.some.inj hclk2).symm
      subst hnow
      have hgen : (st.AddGeneration name user).2.generationsC
          = st.generationsC ++ [newBranchDoc (st.counter "branch") name user now2] := by
        rw [h2]; exact apply_insert_next st hinv name user now2
      refine ⟨h1, hgen, rfl, rfl, rfl, rfl, rfl, findId_next_none st hinv, ?_⟩
      rw [hgen, openCount_append, openCount_zero_of_findOpen st name hfree]
      simp [openCount, newBranchDoc]

theorem emptyModel_clockOk : emptyModel.clockOk := by
  intro t h
  have : (200 : Int) = t := Option.some.inj h
  omega

theorem noopDone_reachable : Reachable noopDone :=
  Reachable.commit _ _ _
    (Reachable.addGeneration emptyModel "noop" "carol"
      (Reachable.init emptyModel rfl emptyModel_clockOk))

/-- The store in which the only branch "noop" is completed: the name is used
again by "dave". -/
theorem one_open_branch_per_name_noopDone :
    Reachable noopDone ∧
    ((∀ n, openCount n noopDone.generationsC ≤ 1) ∧
    ((∃ d ∈ noopDone.generationsC, d.Name = "noop" ∧ d.Completed = 0) →
      (noopDone.AddGeneration "noop" "dave").1 ≠ none ∧
      (noopDone.AddGeneration "noop" "dave").2.generationsC = noopDone.generationsC) ∧
    ((∀ d ∈ noopDone.generationsC, d.Name = "noop" → d.Completed ≠ 0) →
      noopDone.sequenceDown = false → 0 < noopDone.nrRetries →
      ∀ now, noopDone.clock = some now →
      (noopDone.AddGeneration "noop" "dave").1 = none ∧
      (noopDone.AddGeneration "noop" "dave").2.generationsC
        = noopDone.generationsC ++ [newBranchDoc (noopDone.counter "branch") "noop" "dave" now] ∧
      (newBranchDoc (noopDone.counter "branch") "noop" "dave" now).Name = "noop" ∧
      (newBranchDoc (noopDone.counter "branch") "noop" "dave" now).Completed = 0 ∧
      (newBranchDoc (noopDone.counter "branch") "noop" "dave" now).AssignedUnits = [] ∧
      (newBranchDoc (noopDone.counter "branch") "noop" "dave" now).GenerationId = 0 ∧
      (newBranchDoc (noopDone.counter "branch") "noop" "dave" now).CreatedBy = "dave" ∧
      noopDone.findId (newBranchDoc (noopDone.counter "branch") "noop" "dave" now).DocId
        = none ∧
      openCount "noop" (noopDone.AddGeneration "noop" "dave").2.generationsC = 1)) ∧
    noopDone.generationsC
      = [(newBranchDoc 0 "noop" "carol" 200).committed [] 200 "carol" 0] ∧
    (noopDone.AddGeneration "noop" "dave").1 = none :=
  ⟨noopDone_reachable, one_open_branch_per_name noopDone "noop" "dave" noopDone_reachable,
    by decide, by decide⟩

/-! ## C15: `IsCompleted` and `CheckNotComplete` -/

/-- The two tests agree on every document whose completed timestamp is not
negative. -/
theorem IsCompleted_iff_CheckNotComplete (g : Generation) (h : 0 ≤ g.doc.Completed) :
    g.IsCompleted = true ↔ g.CheckNotComplete ≠ none := by
  unfold Generation.IsCompleted Generation.CheckNotComplete
  by_cases hc : g.doc.Completed = 0
  · simp [hc]
  · have : 0 < g.doc.Completed := by omega
    simp [hc, this]

/-- The bound of `IsCompleted_iff_CheckNotComplete` is needed: for the document
`noopNegative`, whose completed timestamp is -1, a value that no operation
stores, `IsCompleted` is false while `CheckNotComplete` returns the error
"branch was already aborted". -/
theorem negative_completed_disagrees :
    noopNegative.Completed = -1 ∧
    Generation.IsCompleted ⟨noopNegative⟩ = false ∧
    Generation.CheckNotComplete ⟨noopNegative⟩
      = some (Err.New "branch was already aborted") := by
  refine ⟨rfl, by decide, by decide⟩

/-! ## The operations proposed by the assignments -/

/-- The frame `buildTxn` returns and the operations it proposes, for
`AssignApplication`. -/
theorem assignApplicationBuildTxn_shape (appName : String) (i : Nat) (f : Frame) :
    ((assignApplicationBuildTxn appName i f).2 = f ∧
        ∃ e, refreshOnRetry i f = .error e ∧
          (assignApplicationBuildTxn appName i f).1 = .error e) ∨
    (refreshOnRetry i f = .ok (assignApplicationBuildTxn appName i f).2 ∧
      ∀ ops, (assignApplicationBuildTxn appName i f).1 = .ok ops →
        (assignApplicationBuildTxn appName i f).2.g.doc.Completed = 0 ∧
        ops = assignGenerationAppTxnOps (assignApplicationBuildTxn appName i f).2.g.doc.DocId
          appName) := by
  unfold assignApplicationBuildTxn
  cases hr : refreshOnRetry i f with
  | error e => exact Or.inl ⟨rfl, e, rfl, rfl⟩
  | ok f1 =>
    right
    simp only
    by_cases hhas : f1.g.doc.AssignedUnits.has appName = true
    · simp [hhas]
    · simp only [hhas, Bool.false_eq_true, if_false]
      cases hc : f1.g.CheckNotComplete with
      | some e => simp
      | none =>
        refine ⟨rfl, fun ops h => ?_⟩
        simp only [Except.ok.injEq] at h
        refine ⟨?_, h.symm⟩
        unfold Generation.CheckNotComplete at hc
        by_contra hne
        simp [hne] at hc

/-- The frame `buildTxn` returns and the operations it proposes, for
`AssignUnit`. -/
theorem assignUnitBuildTxn_shape (appName unitName : String) (i : Nat) (f : Frame) :
    ((assignUnitBuildTxn appName unitName i f).2 = f ∧
        ∃ e, refreshOnRetry i f = .error e ∧
          (assignUnitBuildTxn appName unitName i f).1 = .error e) ∨
    (refreshOnRetry i f = .ok (assignUnitBuildTxn appName unitName i f).2 ∧
      ∀ ops, (assignUnitBuildTxn appName unitName i f).1 = .ok ops →
        (assignUnitBuildTxn appName unitName i f).2.g.doc.Completed = 0 ∧
        ops = assignGenerationUnitTxnOps
          (assignUnitBuildTxn appName unitName i f).2.g.doc.DocId appName unitName) := by
  unfold assignUnitBuildTxn
  cases hr : refreshOnRetry i f with
  | error e => exact Or.inl ⟨rfl, e, rfl, rfl⟩
  | ok f1 =>
    right
    simp only
    cases hc : f1.g.CheckNotComplete with
    | some e => simp
    | none =>
      simp only
      by_cases hin : (f1.g.doc.AssignedUnits.get appName).contains unitName = true
      · simp only [hin, if_true]
        simp
      · simp only [hin, Bool.false_eq_true, if_false]
        refine ⟨trivial, fun ops h => ?_⟩
        simp only [Except.ok.injEq] at h
        refine ⟨?_, h.symm⟩
        unfold Generation.CheckNotComplete at hc
        by_contra hne
        simp [hne] at hc

/-- The frame `buildTxn` returns and the operations it proposes, for
`AssignAllUnits`: the application assertion and the pushes of a non-empty list
of unit names. -/
theorem assignAllUnitsBuildTxn_shape (appName : String) (i : Nat) (f : Frame) :
    ((assignAllUnitsBuildTxn appName i f).2 = f ∧
        ∃ e, refreshOnRetry i f = .error e ∧
          (assignAllUnitsBuildTxn appName i f).1 = .error e) ∨
    (refreshOnRetry i f = .ok (assignAllUnitsBuildTxn appName i f).2 ∧
      ∀ ops, (assignAllUnitsBuildTxn appName i f).1 = .ok ops →
        (assignAllUnitsBuildTxn appName i f).2.g.doc.Completed = 0 ∧
        ∃ app names, names ≠ [] ∧
          ops = assignAllUnitsOps (assignAllUnitsBuildTxn appName i f).2.g.doc.DocId appName
            app names) := by
  unfold assignAllUnitsBuildTxn
  cases hr : refreshOnRetry i f with
  | error e => exact Or.inl ⟨rfl, e, rfl, rfl⟩
  | ok f1 =>
    right
    simp only
    cases hc : f1.g.CheckNotComplete with
    | some e => simp
    | none =>
      have hopen : f1.g.doc.Completed = 0 := by
        unfold Generation.CheckNotComplete at hc
        by_contra hne
        simp [hne] at hc
      simp only
      cases hu : appUnitNames f1.st appName with
      | error e => simp
      | ok unitNames =>
        simp only
        cases ha : f1.st.Application appName with
        | error e => simp
        | ok app =>
          simp only
          rw [flatMap_assignGenerationUnitTxnOps]
          split
          · simp
          · rename_i hlen
            refine ⟨rfl, fun ops h => ?_⟩
            simp only [Except.ok.injEq] at h
            refine ⟨hopen, app, _, ?_, h.symm⟩
            intro hnil
            rw [hnil] at hlen
            simp at hlen

/-! ## C16: a failed `Commit` -/

/-- What every `buildTxn` call keeps holds after a run that ends in an error:
such a run applied no transaction. -/
theorem runLoop_failure {σ : Type} (db : σ → State) (setDb : σ → State → σ)
    (build : Nat → σ → Except Err (List Op) × σ) (P : σ → Prop)
    (hbuild : ∀ i s, P s → P (build i s).2) :
    ∀ fuel i s, P s → (runLoop db setDb build fuel i s).1 ≠ none →
      P (runLoop db setDb build fuel i s).2 := by
  intro fuel
  induction fuel with
  | zero => intro i s hs _; simpa [runLoop] using hs
  | succ n ih =>
    intro i s hs
    have hb := hbuild i s hs
    unfold runLoop
    rcases hres : build i s with ⟨r, s1⟩
    rw [hres] at hb
    cases r with
    | error e =>
      cases e <;> (intro _; simpa using hb)
    | ok ops =>
      simp only
      cases ht : RunTransaction ops (db s1) with
      | none => exact ih _ _ hb
      | some st2 => intro h; simp at h

theorem generationDoc.sameBut_refl (d : generationDoc) : d.sameBut d := ⟨rfl, rfl⟩

theorem generationDoc.sameBut_docId {c d : generationDoc} (h : c.sameBut d) :
    c.DocId = d.DocId := by
  rw [h.1]

theorem generationDoc.sameBut_setAssigned {c d : generationDoc} (h : c.sameBut d)
    (m : UnitMap) (hm : m.keys = c.AssignedUnits.keys) :
    generationDoc.sameBut { c with AssignedUnits := m } d := by
  refine ⟨?_, hm.trans h.2⟩
  have := h.1
  cases c
  cases d
  simp only [generationDoc.mk.injEq] at this ⊢
  simp [this]

/-- Every `buildTxn` of `Commit` through a receiver that held the stored
document keeps the branch documents and leaves in the cache that document but
for the values of `assignedUnits`. -/
theorem commitBuildTxn_sameBut (g : Generation) (st : State)
    (hfresh : st.findId g.doc.DocId = some g.doc) (userName : String) (i : Nat) (f : Frame)
    (hf : f.st.generationsC = st.generationsC ∧ f.g.doc.sameBut g.doc) :
    (commitBuildTxn userName i f).2.st.generationsC = st.generationsC ∧
      (commitBuildTxn userName i f).2.g.doc.sameBut g.doc := by
  obtain ⟨hgens, hsame⟩ := hf
  obtain ⟨-, hfr2⟩ := commitBuildTxn_frame userName i f
  refine ⟨by rw [hfr2]; exact hgens, ?_⟩
  rcases commitBuildTxn_cases userName i f with ⟨e, -, -, h⟩ | ⟨f1, hr, h⟩
  · rw [h]; exact hsame
  · obtain ⟨h1, -, h3, h4⟩ := refreshOnRetry_ok hr
    have hf1 : f1.g.doc.sameBut g.doc := by
      by_cases hi : i = 0
      · subst hi
        rw [refreshOnRetry_zero] at hr
        cases hr
        exact hsame
      · have hfind := h4 (Nat.pos_of_ne_zero hi)
        rw [findId_congr hgens, generationDoc.sameBut_docId hsame, hfresh] at hfind
        rw [← Option.some.inj hfind]
        exact generationDoc.sameBut_refl _
    rcases h with ⟨-, -, h⟩ | ⟨-, -, h⟩ | ⟨-, -, h⟩ | ⟨-, now, -, h⟩
    · rw [h]; exact hf1
    · rw [h]; exact hf1
    · rw [h]; exact hf1
    · have hkeys := (commitLoop_spec f1.st f1.g.AssignedUnits.keys f1.g.AssignedUnits
        (fun k hk => hk)).1
      have hset := generationDoc.sameBut_setAssigned hf1 _ hkeys
      unfold CommitOpenCase at h
      rcases h with ⟨-, h⟩ | ⟨-, -, -, h⟩ | ⟨-, -, -, h⟩ | ⟨-, -, h⟩ <;>
        (rw [h]; exact hset)

/-- C16, as amended. When `Commit` returns an error, no branch document in the
store has changed and the cached document still names the same branch; and when
the `Generation` held the stored document before the call, the cached document
is that document but for the values of `assignedUnits`, whose keys are the
same. -/
theorem C16_failed_commit (g : Generation) (userName : String) (st : State)
    (herr : (g.Commit userName st).ret.2 ≠ none) :
    (g.Commit userName st).st.generationsC = st.generationsC ∧
    (g.Commit userName st).g.doc.DocId = g.doc.DocId ∧
    (st.findId g.doc.DocId = some g.doc → (g.Commit userName st).g.doc.sameBut g.doc) := by
  obtain ⟨e1, e2, e3⟩ := Commit_run g userName st
  rw [e1] at herr
  rw [e2, e3]
  have hbase := runLoop_failure Frame.st Frame.setSt (commitBuildTxn userName)
    (fun f => f.st.generationsC = st.generationsC ∧ f.g.doc.DocId = g.doc.DocId)
    (fun i s hs => by
      obtain ⟨h1, h2⟩ := commitBuildTxn_frame userName i s
      exact ⟨by rw [h2]; exact hs.1, h1.trans hs.2⟩)
    st.nrRetries 0 ⟨g, st, 0⟩ ⟨rfl, rfl⟩ herr
  refine ⟨hbase.1, hbase.2, fun hfresh => ?_⟩
  exact (runLoop_failure Frame.st Frame.setSt (commitBuildTxn userName)
    (fun f => f.st.generationsC = st.generationsC ∧ f.g.doc.sameBut g.doc)
    (fun i s hs => commitBuildTxn_sameBut g st hfresh userName i s hs)
    st.nrRetries 0 ⟨g, st, 0⟩ ⟨rfl, generationDoc.sameBut_refl _⟩ herr).2

/-- C16 at the branch "db-upgrade" when the sequence allocation fails. -/
theorem C16_failed_commit_witness :
    (Generation.Commit ⟨dbUpgrade⟩ "bob" modelSeqDown).ret.2 ≠ none ∧
    ((Generation.Commit ⟨dbUpgrade⟩ "bob" modelSeqDown).st.generationsC
        = modelSeqDown.generationsC ∧
      (Generation.Commit ⟨dbUpgrade⟩ "bob" modelSeqDown).g.doc.DocId = dbUpgrade.DocId ∧
      (modelSeqDown.findId dbUpgrade.DocId = some dbUpgrade →
        (Generation.Commit ⟨dbUpgrade⟩ "bob" modelSeqDown).g.doc.sameBut dbUpgrade)) :=
  ⟨by decide, C16_failed_commit ⟨dbUpgrade⟩ "bob" modelSeqDown (by decide)⟩

/-- C16 fails as stated. When the sequence allocation fails, `Commit("bob")` on
the open branch "db-upgrade" returns an error after its loop has replaced the
cached entry of "mysql", the empty list, by the two enumerated units. And
`Commit("dave")` through a `Generation` that holds the branch "noop" as open,
after the branch was committed without assignments, returns the error "branch
was already aborted" with the cached document replaced by the refreshed one.
In both cases the stored documents are unchanged. -/
theorem C16_counterexample :
    (Generation.Commit ⟨dbUpgrade⟩ "bob" modelSeqDown).ret
      = (0, some (Err.New "cannot allocate sequence")) ∧
    dbUpgrade.AssignedUnits = [("mysql", [])] ∧
    (Generation.Commit ⟨dbUpgrade⟩ "bob" modelSeqDown).g.doc.AssignedUnits
      = [("mysql", ["mysql/0", "mysql/1"])] ∧
    (Generation.Commit ⟨dbUpgrade⟩ "bob" modelSeqDown).st = modelSeqDown ∧
    (Generation.Commit ⟨noop⟩ "dave" (Generation.Commit ⟨noop⟩ "carol" modelM).st).ret
      = (0, some (Err.New "branch was already aborted")) ∧
    (Generation.Commit ⟨noop⟩ "dave" (Generation.Commit ⟨noop⟩ "carol" modelM).st).g.doc
      = noop.committed [] 200 "carol" 0 ∧
    noop.committed [] 200 "carol" 0 ≠ noop ∧
    (Generation.Commit ⟨noop⟩ "dave" (Generation.Commit ⟨noop⟩ "carol" modelM).st).st
      = (Generation.Commit ⟨noop⟩ "carol" modelM).st := by
  refine ⟨by decide, rfl, by decide, by decide, by decide, by decide, by decide, by decide⟩

/-! ## C11: the cache after a successful call -/

/-- Benign operations change nothing but the branch documents, and keep their
ids. -/
theorem foldl_apply_benign : ∀ (ops : List Op) (st : State), (∀ op ∈ ops, op.benign) →
    (ops.foldl Op.apply st).clock = st.clock ∧
    (ops.foldl Op.apply st).sequenceC = st.sequenceC ∧
    (ops.foldl Op.apply st).generationsC.map (fun d => d.DocId)
      = st.generationsC.map (fun d => d.DocId) := by
  intro ops
  induction ops with
  | nil => intro st _; exact ⟨rfl, rfl, rfl⟩
  | cons a t ih =>
    intro st hb
    rw [List.foldl_cons]
    obtain ⟨i1, i2, i3⟩ := ih (Op.apply st a) (fun op hop => hb op (List.mem_cons_of_mem _ hop))
    have ha := hb a (List.mem_cons_self _ _)
    cases a with
    | insert id doc => exact absurd ha (by simp [Op.benign])
    | assertApp id life n => exact ⟨i1, i2, i3⟩
    | update id conds chg =>
      refine ⟨i1, i2, ?_⟩
      rw [i3]
      exact map_docId_updateId id chg.write (write_docId chg) st.generationsC

/-- The store after the applied transaction of `AssignAllUnits`. -/
theorem RunTransaction_assignAllUnits (id appName : String) (app : applicationDoc)
    (names : List String) (st st2 : State) (hne : names ≠ [])
    (h : RunTransaction (assignAllUnitsOps id appName app names) st = some st2) :
    ∃ d, st.findId id = some d ∧ d.Completed = 0 ∧
      st2.findId id = some { d with
        AssignedUnits := names.foldl (fun m n => UnitMap.push m appName n) d.AssignedUnits,
        TxnRevno := d.TxnRevno + names.length } ∧
      (∀ id2, id2 ≠ id → st2.findId id2 = st.findId id2) ∧
      st2.sequenceC = st.sequenceC ∧ st2.clock = st.clock ∧
      st2.generationsC.map (fun d => d.DocId) = st.generationsC.map (fun d => d.DocId) := by
  unfold RunTransaction at h
  split at h
  · rename_i hall
    have hst2 : st2 = (assignAllUnitsOps id appName app names).foldl Op.apply st :=
      (Option.some.inj h).symm
    cases names with
    | nil => exact absurd rfl hne
    | cons u t =>
      have hop : (Op.update id
          [Cond.completedEq 0, Cond.assignedExists, Cond.unitNotIn appName u]
          (Change.pushUnit appName u)).asserted st = true := by
        rw [List.all_eq_true] at hall
        exact hall _ (by simp [assignAllUnitsOps])
      cases hf : st.findId id with
      | none => simp [Op.asserted, hf] at hop
      | some d =>
        have hopen : d.Completed = 0 := by
          simp only [Op.asserted, hf, List.all_cons, Bool.and_eq_true] at hop
          simpa [Cond.holds] using hop.1
        have hfold : st2 = ((u :: t).map (fun name =>
            Op.update id
              [Cond.completedEq 0, Cond.assignedExists, Cond.unitNotIn appName name]
              (Change.pushUnit appName name))).foldl Op.apply st := by
          rw [hst2]; rfl
        obtain ⟨f1, f2, f3⟩ := foldl_apply_push id appName (u :: t) st d hf
        rw [← hfold] at f1 f2 f3
        rw [foldl_write_push] at f1
        have hben : ∀ op ∈ (u :: t).map (fun name =>
            Op.update id
              [Cond.completedEq 0, Cond.assignedExists, Cond.unitNotIn appName name]
              (Change.pushUnit appName name)), op.benign := by
          intro op hop2
          obtain ⟨name, -, hname⟩ := List.mem_map.1 hop2
          subst hname
          trivial
        obtain ⟨b1, -, b3⟩ := foldl_apply_benign _ st hben
        rw [← hfold] at b1 b3
        exact ⟨d, rfl, hopen, f1, f2, f3, b1, b3⟩
  · cases h

theorem Refresh_of_findId (g : Generation) (st : State) (d : generationDoc)
    (h : st.findId g.doc.DocId = some d) : g.Refresh st = .ok ⟨d⟩ := by
  unfold Generation.Refresh
  rw [h]

/-- A successful assignment through a receiver that held the stored document:
the receiver is not changed, and the store either is unchanged or holds the
document at a higher revision number. -/
theorem assign_fresh_cacheAfter (build : Nat → Frame → Except Err (List Op) × Frame)
    (g : Generation) (st : State) (hfresh : st.findId g.doc.DocId = some g.doc)
    (hframe : ∀ i, (build i ⟨g, st, 0⟩).2 = ⟨g, st, 0⟩)
    (hwrite : ∀ i ops st2, (build i ⟨g, st, 0⟩).1 = .ok ops →
      RunTransaction ops st = some st2 →
      ∃ d2, st2.findId g.doc.DocId = some d2 ∧ g.doc.TxnRevno < d2.TxnRevno)
    (hok : (Run Frame.st Frame.setSt build ⟨g, st, 0⟩).1 = none) :
    (Run Frame.st Frame.setSt build ⟨g, st, 0⟩).2.g = g ∧
      cacheAfter g st g (Run Frame.st Frame.setSt build ⟨g, st, 0⟩).2.st := by
  have key := runLoop_success Frame.st Frame.setSt build
    (fun _ f => f = ⟨g, st, 0⟩)
    (fun f => f.g = g ∧ cacheAfter g st g f.st)
    ?_ ?_ ?_ st.nrRetries 0 ⟨g, st, 0⟩ rfl hok
  · exact key
  · intro i s hs _
    subst hs
    rw [hframe i]
    exact ⟨rfl, g.doc, hfresh, generationDoc.sameBut_refl _, Or.inl ⟨rfl, rfl⟩,
      Refresh_of_findId g st g.doc hfresh⟩
  · intro i s ops st2 hs hb ht
    subst hs
    rw [hframe i] at ht ⊢
    obtain ⟨d2, hd2, hlt⟩ := hwrite i ops st2 hb ht
    exact ⟨rfl, d2, hd2, generationDoc.sameBut_refl _, Or.inr hlt,
      Refresh_of_findId g st2 d2 hd2⟩
  · intro i s ops hs _ _
    subst hs
    exact hframe i

theorem AssignApplication_fresh_cacheAfter (g : Generation) (appName : String) (st : State)
    (hfresh : st.findId g.doc.DocId = some g.doc)
    (hok : (g.AssignApplication appName st).ret = none) :
    (g.AssignApplication appName st).g = g ∧
      cacheAfter g st g (g.AssignApplication appName st).st := by
  obtain ⟨e1, e2, e3⟩ := AssignApplication_run g appName st
  rw [e1] at hok
  rw [e2, e3]
  have hframe : ∀ i, (assignApplicationBuildTxn appName i ⟨g, st, 0⟩).2 = ⟨g, st, 0⟩ := by
    intro i
    rcases assignApplicationBuildTxn_shape appName i ⟨g, st, 0⟩ with ⟨h, -⟩ | ⟨h, -⟩
    · exact h
    · rw [refreshOnRetry_fresh g st 0 i hfresh] at h
      exact (Except.ok.inj h).symm
  refine assign_fresh_cacheAfter _ g st hfresh hframe ?_ hok
  intro i ops st2 hb ht
  rcases assignApplicationBuildTxn_shape appName i ⟨g, st, 0⟩ with ⟨-, e, -, h⟩ | ⟨-, h⟩
  · rw [h] at hb; cases hb
  · obtain ⟨-, hops⟩ := h ops hb
    rw [hframe i] at hops
    rw [hops] at ht
    obtain ⟨d, hd, -, -, hfind⟩ := RunTransaction_update_some ht
    rw [hfresh] at hd
    cases hd
    refine ⟨_, hfind, ?_⟩
    show g.doc.TxnRevno < g.doc.TxnRevno + 1
    omega

theorem AssignUnit_fresh_cacheAfter (g : Generation) (unitName : String) (st : State)
    (hfresh : st.findId g.doc.DocId = some g.doc)
    (hok : (g.AssignUnit unitName st).ret = none) :
    (g.AssignUnit unitName st).g = g ∧ cacheAfter g st g (g.AssignUnit unitName st).st := by
  cases hu : UnitApplication unitName with
  | error e => simp [Generation.AssignUnit, hu] at hok
  | ok appName =>
    obtain ⟨e1, e2, e3⟩ := AssignUnit_run g appName unitName st hu
    rw [e1] at hok
    rw [e2, e3]
    have hframe : ∀ i, (assignUnitBuildTxn appName unitName i ⟨g, st, 0⟩).2 = ⟨g, st, 0⟩ := by
      intro i
      rcases assignUnitBuildTxn_shape appName unitName i ⟨g, st, 0⟩ with ⟨h, -⟩ | ⟨h, -⟩
      · exact h
      · rw [refreshOnRetry_fresh g st 0 i hfresh] at h
        exact (Except.ok.inj h).symm
    refine assign_fresh_cacheAfter _ g st hfresh hframe ?_ hok
    intro i ops st2 hb ht
    rcases assignUnitBuildTxn_shape appName unitName i ⟨g, st, 0⟩ with
      ⟨-, e, -, h⟩ | ⟨-, h⟩
    · rw [h] at hb; cases hb
    · obtain ⟨-, hops⟩ := h ops hb
      rw [hframe i] at hops
      rw [hops] at ht
      obtain ⟨d, hd, -, -, hfind⟩ := RunTransaction_update_some ht
      rw [hfresh] at hd
      cases hd
      refine ⟨_, hfind, ?_⟩
      show g.doc.TxnRevno < g.doc.TxnRevno + 1
      omega

theorem AssignAllUnits_fresh_cacheAfter (g : Generation) (appName : String) (st : State)
    (hfresh : st.findId g.doc.DocId = some g.doc)
    (hok : (g.AssignAllUnits appName st).ret = none) :
    (g.AssignAllUnits appName st).g = g ∧
      cacheAfter g st g (g.AssignAllUnits appName st).st := by
  obtain ⟨e1, e2, e3⟩ := AssignAllUnits_run g appName st
  rw [e1] at hok
  rw [e2, e3]
  have hframe : ∀ i, (assignAllUnitsBuildTxn appName i ⟨g, st, 0⟩).2 = ⟨g, st, 0⟩ := by
    intro i
    rcases assignAllUnitsBuildTxn_shape appName i ⟨g, st, 0⟩ with ⟨h, -⟩ | ⟨h, -⟩
    · exact h
    · rw [refreshOnRetry_fresh g st 0 i hfresh] at h
      exact (Except.ok.inj h).symm
  refine assign_fresh_cacheAfter _ g st hfresh hframe ?_ hok
  intro i ops st2 hb ht
  rcases assignAllUnitsBuildTxn_shape appName i ⟨g, st, 0⟩ with ⟨-, e, -, h⟩ | ⟨-, h⟩
  · rw [h] at hb; cases hb
  · obtain ⟨-, app, names, hne, hops⟩ := h ops hb
    rw [hframe i] at hops
    rw [hops] at ht
    obtain ⟨d, hd, -, hfind, -⟩ := RunTransaction_assignAllUnits _ _ _ _ _ _ hne ht
    rw [hfresh] at hd
    cases hd
    refine ⟨_, hfind, ?_⟩
    show g.doc.TxnRevno < g.doc.TxnRevno + (names.length : Int)
    have : 0 < names.length := List.length_pos.2 hne
    omega

theorem generationDoc.sameBut_revno {c d : generationDoc} (h : c.sameBut d) :
    c.TxnRevno = d.TxnRevno := by
  rw [h.1]

/-- A successful `Commit` through a receiver that held the stored document. -/
theorem Commit_fresh_cacheAfter (g : Generation) (userName : String) (st : State)
    (hfresh : st.findId g.doc.DocId = some g.doc)
    (hok : (g.Commit userName st).ret.2 = none) :
    cacheAfter g st (g.Commit userName st).g (g.Commit userName st).st := by
  obtain ⟨e1, e2, e3⟩ := Commit_run g userName st
  rw [e1] at hok
  rw [e2, e3]
  have key := runLoop_success Frame.st Frame.setSt (commitBuildTxn userName)
    (fun i f => f.st.generationsC = st.generationsC ∧ f.g.doc.sameBut g.doc ∧
      (i = 0 → f.g.doc = g.doc))
    (fun f => cacheAfter g st f.g f.st)
    ?_ ?_ ?_ st.nrRetries 0 ⟨g, st, 0⟩ ⟨rfl, generationDoc.sameBut_refl _, fun _ => rfl⟩ hok
  · exact key
  · rintro i f ⟨hgens, hsame, h0⟩ hb
    rcases commitBuildTxn_cases userName i f with ⟨e, -, hne, h⟩ | ⟨f1, hr, h⟩
    · rw [h] at hb; simp at hb; exact absurd hb hne
    · obtain ⟨h1, -, h3, h4⟩ := refreshOnRetry_ok hr
      have hf1 : f1.g.doc = g.doc := by
        by_cases hi : i = 0
        · subst hi
          rw [refreshOnRetry_zero] at hr
          cases hr
          exact h0 rfl
        · have hfind := h4 (Nat.pos_of_ne_zero hi)
          rw [findId_congr hgens, generationDoc.sameBut_docId hsame, hfresh] at hfind
          exact (Option.some.inj hfind).symm
      rcases h with ⟨-, -, h⟩ | ⟨-, -, h⟩ | ⟨-, -, h⟩ | ⟨-, now, -, h⟩
      · rw [h] at hb; simp at hb
      · rw [h]
        have hfind : f1.st.findId g.doc.DocId = some g.doc := by
          rw [h1, findId_congr hgens]; exact hfresh
        refine ⟨g.doc, hfind, by rw [hf1]; exact generationDoc.sameBut_refl _,
          Or.inl ⟨by rw [h1]; exact hgens, hf1⟩, ?_⟩
        apply Refresh_of_findId
        rw [hf1]; exact hfind
      · rw [h] at hb; simp at hb
      · unfold CommitOpenCase at h
        rcases h with ⟨-, h⟩ | ⟨-, -, -, h⟩ | ⟨-, -, -, h⟩ | ⟨-, -, h⟩ <;>
          (rw [h] at hb; simp at hb)
  · rintro i f ops st2 ⟨hgens, hsame, -⟩ hb ht
    obtain ⟨hb1, hb2⟩ := commitBuildTxn_sameBut g st hfresh userName i f ⟨hgens, hsame⟩
    obtain ⟨f1, now, -, -, -, hops, -⟩ := commitBuildTxn_ops hb
    rw [hops] at ht
    obtain ⟨d, hd, -, -, hfind⟩ := RunTransaction_update_some ht
    rw [findId_congr hb1, generationDoc.sameBut_docId hsame, hfresh] at hd
    rw [generationDoc.sameBut_docId hsame] at hfind
    have hdg : g.doc = d := Option.some.inj hd
    refine ⟨_, hfind, hb2, Or.inr ?_, ?_⟩
    · show (commitBuildTxn userName i f).2.g.doc.TxnRevno < d.TxnRevno + 1
      rw [generationDoc.sameBut_revno hb2, hdg]
      omega
    · apply Refresh_of_findId
      show st2.findId (commitBuildTxn userName i f).2.g.doc.DocId = _
      rw [generationDoc.sameBut_docId hb2]
      exact hfind
  · rintro i f ops ⟨hgens, hsame, -⟩ - -
    obtain ⟨hb1, hb2⟩ := commitBuildTxn_sameBut g st hfresh userName i f ⟨hgens, hsame⟩
    exact ⟨hb1, hb2, fun h => by omega⟩

/-- C11, as amended. For every `Generation` whose cached document is the stored
one, after `AssignApplication`, `AssignUnit`, `AssignAllUnits` or `Commit`
returns success the cached document is the one held before the call (the
assignments leave the receiver as it was; `Commit` may have replaced the values
of the cached `assignedUnits`, under the same keys). It equals the stored
document when the call wrote no branch document; when the call applied a write
the stored document has a higher revision number than the cached one, and in
both cases `Refresh` loads the stored document. -/
theorem C11_cache_after_success (g : Generation) (st : State) (appName unitName userName : String)
    (hfresh : st.findId g.doc.DocId = some g.doc) :
    ((g.AssignApplication appName st).ret = none →
      (g.AssignApplication appName st).g = g ∧
      cacheAfter g st g (g.AssignApplication appName st).st) ∧
    ((g.AssignUnit unitName st).ret = none →
      (g.AssignUnit unitName st).g = g ∧
      cacheAfter g st g (g.AssignUnit unitName st).st) ∧
    ((g.AssignAllUnits appName st).ret = none →
      (g.AssignAllUnits appName st).g = g ∧
      cacheAfter g st g (g.AssignAllUnits appName st).st) ∧
    ((g.Commit userName st).ret.2 = none →
      cacheAfter g st (g.Commit userName st).g (g.Commit userName st).st) :=
  ⟨AssignApplication_fresh_cacheAfter g appName st hfresh,
    AssignUnit_fresh_cacheAfter g unitName st hfresh,
    AssignAllUnits_fresh_cacheAfter g appName st hfresh,
    Commit_fresh_cacheAfter g userName st hfresh⟩

/-- C11 at the branch "db-upgrade", with the calls `AssignApplication("pg")`,
`AssignUnit("mysql/0")`, `AssignAllUnits("pg")` and `Commit("bob")`, which all
return success. -/
theorem C11_cache_after_success_witness :
    modelM.findId dbUpgrade.DocId = some dbUpgrade ∧
    (((Generation.AssignApplication ⟨dbUpgrade⟩ "pg" modelM).ret = none →
      (Generation.AssignApplication ⟨dbUpgrade⟩ "pg" modelM).g = ⟨dbUpgrade⟩ ∧
      cacheAfter ⟨dbUpgrade⟩ modelM ⟨dbUpgrade⟩
        (Generation.AssignApplication ⟨dbUpgrade⟩ "pg" modelM).st) ∧
    ((Generation.AssignUnit ⟨dbUpgrade⟩ "mysql/0" modelM).ret = none →
      (Generation.AssignUnit ⟨dbUpgrade⟩ "mysql/0" modelM).g = ⟨dbUpgrade⟩ ∧
      cacheAfter ⟨dbUpgrade⟩ modelM ⟨dbUpgrade⟩
        (Generation.AssignUnit ⟨dbUpgrade⟩ "mysql/0" modelM).st) ∧
    ((Generation.AssignAllUnits ⟨dbUpgrade⟩ "pg" modelM).ret = none →
      (Generation.AssignAllUnits ⟨dbUpgrade⟩ "pg" modelM).g = ⟨dbUpgrade⟩ ∧
      cacheAfter ⟨dbUpgrade⟩ modelM ⟨dbUpgrade⟩
        (Generation.AssignAllUnits ⟨dbUpgrade⟩ "pg" modelM).st) ∧
    ((Generation.Commit ⟨dbUpgrade⟩ "bob" modelM).ret.2 = none →
      cacheAfter ⟨dbUpgrade⟩ modelM (Generation.Commit ⟨dbUpgrade⟩ "bob" modelM).g
        (Generation.Commit ⟨dbUpgrade⟩ "bob" modelM).st)) ∧
    (Generation.AssignApplication ⟨dbUpgrade⟩ "pg" modelM).ret = none ∧
    (Generation.AssignUnit ⟨dbUpgrade⟩ "mysql/0" modelM).ret = none ∧
    (Generation.AssignAllUnits ⟨dbUpgrade⟩ "pg" modelM).ret = none ∧
    (Generation.Commit ⟨dbUpgrade⟩ "bob" modelM).ret.2 = none :=
  ⟨by decide, C11_cache_after_success ⟨dbUpgrade⟩ modelM "pg" "mysql/0" "bob" (by decide),
    by decide, by decide, by decide, by decide⟩

/-- C11 fails as stated. Through the `Generation` that holds the stored
document of "db-upgrade", `AssignApplication("pg")` returns success and leaves
the cached document as it was, without the key "pg" and at revision 3, while
the stored document holds the key at revision 4; and `Commit("bob")` returns
success and leaves the cached document not completed, with generation id 0 and
at revision 3, while the stored document is completed by "bob" with generation
id 1 at revision 4. -/
theorem C11_counterexample :
    modelM.findId "0" = some dbUpgrade ∧
    (Generation.AssignApplication ⟨dbUpgrade⟩ "pg" modelM).ret = none ∧
    (Generation.AssignApplication ⟨dbUpgrade⟩ "pg" modelM).g.doc = dbUpgrade ∧
    (Generation.AssignApplication ⟨dbUpgrade⟩ "pg" modelM).st.findId "0"
      = some (dbUpgrade.assigned [("mysql", []), ("pg", [])]) ∧
    dbUpgrade.assigned [("mysql", []), ("pg", [])] ≠ dbUpgrade ∧
    (Generation.Commit ⟨dbUpgrade⟩ "bob" modelM).ret = (1, none) ∧
    (Generation.Commit ⟨dbUpgrade⟩ "bob" modelM).g.doc.Completed = 0 ∧
    (Generation.Commit ⟨dbUpgrade⟩ "bob" modelM).g.doc.GenerationId = 0 ∧
    (Generation.Commit ⟨dbUpgrade⟩ "bob" modelM).g.doc.TxnRevno = 3 ∧
    (Generation.Commit ⟨dbUpgrade⟩ "bob" modelM).st.findId "0" = some dbUpgradeCommitted ∧
    dbUpgradeCommitted.Completed = 200 ∧ dbUpgradeCommitted.GenerationId = 1 ∧
    dbUpgradeCommitted.TxnRevno = 4 := by
  refine ⟨by decide, by decide, by decide, by decide, by decide, by decide, by decide,
    by decide, by decide, by decide, rfl, rfl, rfl⟩

/-! ## The runs of the system -/

theorem advances_congr {st s : State} (h : st.generationsC = s.generationsC)
    {d d2 : generationDoc} (ha : s.advances d d2) : st.advances d d2 := by
  rcases ha with h1 | ⟨h1, h2, h3, h4⟩
  · exact Or.inl h1
  · refine Or.inr ⟨h1, h2, h3, ?_⟩
    rcases h4 with h4 | ⟨h5, h6 | ⟨h6, h7, h8⟩⟩
    · exact Or.inl h4
    · exact Or.inr ⟨h5, Or.inl h6⟩
    · refine Or.inr ⟨h5, Or.inr ⟨h6, h7, ?_⟩⟩
      intro id e he
      rw [findId_congr h] at he
      exact h8 id e he

theorem evolves_of_gens {st st2 : State} (h : st2.generationsC = st.generationsC) :
    st.evolves st2 := by
  intro id d hd
  exact ⟨d, by rw [findId_congr h]; exact hd, Or.inl rfl⟩

theorem evolves_congr_left {st s st2 : State} (h : st.generationsC = s.generationsC)
    (he : s.evolves st2) : st.evolves st2 := by
  intro id d hd
  rw [findId_congr h] at hd
  obtain ⟨d2, h1, h2⟩ := he id d hd
  exact ⟨d2, h1, advances_congr h h2⟩

theorem tracks_congr {h : Generation} {st st2 : State}
    (hg : st2.generationsC = st.generationsC) (ht : h.tracks st) : h.tracks st2 := by
  obtain ⟨d, h1, h2, h3, h4⟩ := ht
  exact ⟨d, by rw [findId_congr hg]; exact h1, h2, h3, h4⟩

/-- A receiver that tracks the store tracks it after the store evolved. -/
theorem tracks_mono {h : Generation} {st st2 : State} (ht : h.tracks st)
    (he : st.evolves st2) : h.tracks st2 := by
  obtain ⟨d, h1, h2, h3, h4⟩ := ht
  obtain ⟨d2, e1, e2⟩ := he _ d h1
  rcases e2 with e2 | ⟨-, e3, e4, -⟩
  · rw [e2] at e1
    exact ⟨d, e1, h2, h3, h4⟩
  · refine ⟨d2, e1, by omega, fun k hk => e4 k (h3 k hk), fun heq => ?_⟩
    omega

theorem tracks_of_findId (g : Generation) (st : State)
    (h : st.findId g.doc.DocId = some g.doc) : g.tracks st :=
  ⟨g.doc, h, le_refl _, fun _ hk => hk, fun _ => generationDoc.sameBut_refl _⟩

theorem tracks_setAssigned {g : Generation} {st : State} (ht : g.tracks st) (m : UnitMap)
    (hm : m.keys = g.doc.AssignedUnits.keys) :
    Generation.tracks ⟨{ g.doc with AssignedUnits := m }⟩ st := by
  obtain ⟨d, h1, h2, h3, h4⟩ := ht
  refine ⟨d, h1, h2, ?_, fun heq => generationDoc.sameBut_setAssigned (h4 heq) m hm⟩
  intro k hk
  have hk2 : k ∈ m.keys := hk
  rw [hm] at hk2
  exact h3 k hk2

/-- The refresh at the start of a retry leaves a receiver that tracks the
store. -/
theorem refreshOnRetry_tracks {i : Nat} {f f1 : Frame} (hr : refreshOnRetry i f = .ok f1)
    (ht : f.g.tracks f.st) : f1.g.tracks f1.st := by
  obtain ⟨h1, -, h3, h4⟩ := refreshOnRetry_ok hr
  by_cases hi : i = 0
  · subst hi
    rw [refreshOnRetry_zero] at hr
    cases hr
    exact ht
  · have hfind := h4 (Nat.pos_of_ne_zero hi)
    apply tracks_of_findId
    rw [h1, h3]
    exact hfind

theorem counter_afterGenerationSeq (st : State) :
    st.afterGenerationSeq.counter "generation" = max (st.counter "generation") 1 + 1 := by
  unfold State.afterGenerationSeq
  show (List.lookup "generation" (setCounter st.sequenceC "generation"
    (max (st.counter "generation") 1 + 1))).getD 0 = _
  rw [lookup_setCounter_same]
  rfl

theorem counter_generation_afterBranchSeq (st : State) :
    st.afterBranchSeq.counter "generation" = st.counter "generation" := by
  unfold State.afterBranchSeq
  show (List.lookup "generation" (setCounter st.sequenceC "branch"
    (st.counter "branch" + 1))).getD 0 = _
  rw [lookup_setCounter_other _ _ _ _ (by decide)]
  rfl

theorem generationDoc.sound_mono {d : generationDoc} {st st2 : State} (h : d.sound st)
    (hc : st.counter "generation" ≤ st2.counter "generation") : d.sound st2 := by
  obtain ⟨h1, h2, h3, h4, h5⟩ := h
  refine ⟨h1, h2, h3, ?_, h5⟩
  have : max (st.counter "generation") 1 ≤ max (st2.counter "generation") 1 :=
    max_le_max hc (le_refl 1)
  omega

/-- A state with the same branch documents and a "generation" counter that is
not lower is sound when it satisfies the invariant of the reachable states. -/
theorem Sound_of_same_docs {st st2 : State} (hs : st.Sound)
    (hg : st2.generationsC = st.generationsC) (hinv : st2.Inv)
    (hc : st.counter "generation" ≤ st2.counter "generation") : st2.Sound := by
  refine ⟨hinv, by rw [hg]; exact hs.nodup, ?_, ?_⟩
  · intro id d hd
    rw [findId_congr hg] at hd
    exact generationDoc.sound_mono (hs.docs id d hd) hc
  · intro id1 id2 d1 d2 h1 h2
    rw [findId_congr hg] at h1 h2
    exact hs.distinct id1 id2 d1 d2 h1 h2

theorem Sound_afterGenerationSeq {st : State} (hs : st.Sound) : st.afterGenerationSeq.Sound :=
  Sound_of_same_docs hs rfl (Inv_afterGenerationSeq st hs.inv) (by
    rw [counter_afterGenerationSeq]
    have := le_max_left (st.counter "generation") 1
    omega)

theorem Sound_afterBranchSeq {st : State} (hs : st.Sound) : st.afterBranchSeq.Sound :=
  Sound_of_same_docs hs rfl (Inv_afterBranchSeq st hs.inv) (by
    rw [counter_generation_afterBranchSeq])

/-- The state after one document was rewritten, as an operation may rewrite it,
is sound, and the state before evolved into it. -/
theorem sound_after_rewrite {st st2 : State} {id : String} {d d2 : generationDoc}
    (hs : st.Sound) (hfind : st.findId id = some d) (hfind2 : st2.findId id = some d2)
    (hother : ∀ id2, id2 ≠ id → st2.findId id2 = st.findId id2) (hinv : st2.Inv)
    (hmap : st2.generationsC.map (fun d => d.DocId) = st.generationsC.map (fun d => d.DocId))
    (hc : st.counter "generation" ≤ st2.counter "generation")
    (hadv : st.advances d d2) (hd2 : d2.sound st2) : st2.Sound ∧ st.evolves st2 := by
  have hfresh : ∀ id2 e, st.findId id2 = some e → d2.GenerationId ≠ 0 → d2 ≠ d →
      e.GenerationId < d2.GenerationId := by
    intro id2 e he hne hd
    rcases hadv with h | ⟨-, -, -, h⟩
    · exact absurd h hd
    · rcases h with ⟨-, h⟩ | ⟨-, ⟨-, h⟩ | ⟨-, -, h⟩⟩
      · exact absurd h hne
      · exact absurd h hne
      · exact h id2 e he
  refine ⟨⟨hinv, by rw [hmap]; exact hs.nodup, ?_, ?_⟩, ?_⟩
  · intro id2 e he
    by_cases hid : id2 = id
    · subst hid
      rw [hfind2] at he
      rw [← Option.some.inj he]
      exact hd2
    · rw [hother id2 hid] at he
      exact generationDoc.sound_mono (hs.docs id2 e he) hc
  · intro id1 id2 d1 e2 h1 h2 hne heq
    by_cases hid1 : id1 = id
    · by_cases hid2 : id2 = id
      · rw [hid1, hid2]
      · subst hid1
        rw [hfind2] at h1
        have e1 : d2 = d1 := Option.some.inj h1
        rw [← e1] at hne heq
        rw [hother id2 hid2] at h2
        by_cases hd : d2 = d
        · rw [hd] at hne heq
          exact hs.distinct id1 id2 d e2 hfind h2 hne heq
        · have := hfresh id2 e2 h2 hne hd
          omega
    · rw [hother id1 hid1] at h1
      by_cases hid2 : id2 = id
      · subst hid2
        rw [hfind2] at h2
        have e1 : d2 = e2 := Option.some.inj h2
        rw [← e1] at heq
        by_cases hd : d2 = d
        · rw [hd] at heq
          exact hs.distinct id1 id2 d1 d h1 hfind hne heq
        · have hne2 : d2.GenerationId ≠ 0 := by rw [← heq]; exact hne
          have := hfresh id1 d1 h1 hne2 hd
          omega
      · rw [hother id2 hid2] at h2
        exact hs.distinct id1 id2 d1 e2 h1 h2 hne heq
  · intro id2 e he
    by_cases hid : id2 = id
    · subst hid
      rw [hfind] at he
      rw [← Option.some.inj he]
      exact ⟨d2, hfind2, hadv⟩
    · exact ⟨e, by rw [hother id2 hid]; exact he, Or.inl rfl⟩

theorem UnitMap.keys_subset_set (m : UnitMap) (k : String) (v : List String) :
    ∀ x ∈ m.keys, x ∈ (m.set k v).keys := by
  induction m with
  | nil => intro x hx; simp [UnitMap.keys] at hx
  | cons p t ih =>
    obtain ⟨k0, v0⟩ := p
    intro x hx
    unfold UnitMap.set
    by_cases hk : k0 = k
    · simp only [hk, if_true]
      simp only [UnitMap.keys, List.map_cons, List.mem_cons] at hx ⊢
      rw [← hk]
      exact hx
    · simp only [hk, if_false]
      simp only [UnitMap.keys, List.map_cons, List.mem_cons] at hx ⊢
      rcases hx with hx | hx
      · exact Or.inl hx
      · exact Or.inr (ih x hx)

theorem UnitMap.keys_subset_push (m : UnitMap) (k u : String) :
    ∀ x ∈ m.keys, x ∈ (m.push k u).keys := by
  induction m with
  | nil => intro x hx; simp [UnitMap.keys] at hx
  | cons p t ih =>
    obtain ⟨k0, v0⟩ := p
    intro x hx
    unfold UnitMap.push
    by_cases hk : k0 = k
    · simp only [hk, if_true]
      simp only [UnitMap.keys, List.map_cons, List.mem_cons] at hx ⊢
      rw [← hk]
      exact hx
    · simp only [hk, if_false]
      simp only [UnitMap.keys, List.map_cons, List.mem_cons] at hx ⊢
      rcases hx with hx | hx
      · exact Or.inl hx
      · exact Or.inr (ih x hx)

theorem UnitMap.keys_subset_foldl_push (app : String) :
    ∀ (names : List String) (m : UnitMap),
      ∀ x ∈ m.keys, x ∈ (names.foldl (fun m n => UnitMap.push m app n) m).keys := by
  intro names
  induction names with
  | nil => intro m x hx; exact hx
  | cons n t ih =>
    intro m x hx
    exact ih (m.push app n) x (UnitMap.keys_subset_push m app n x hx)

/-- An applied assignment, which replaces the map of an open document by one
with at least its keys and raises the revision number, leaves a sound state
into which the state before evolved. -/
theorem sound_after_assign {st st2 : State} {id : String} {d : generationDoc} {m : UnitMap}
    {k : Int} (hs : st.Sound) (hfind : st.findId id = some d) (hopen : d.Completed = 0)
    (hk : 0 < k) (hkeys : ∀ x ∈ d.AssignedUnits.keys, x ∈ m.keys)
    (hfind2 : st2.findId id = some { d with AssignedUnits := m, TxnRevno := d.TxnRevno + k })
    (hother : ∀ id2, id2 ≠ id → st2.findId id2 = st.findId id2) (hinv : st2.Inv)
    (hmap : st2.generationsC.map (fun d => d.DocId) = st.generationsC.map (fun d => d.DocId))
    (hseq : st2.sequenceC = st.sequenceC) : st2.Sound ∧ st.evolves st2 := by
  have hc : st.counter "generation" = st2.counter "generation" := by
    unfold State.counter
    rw [hseq]
  obtain ⟨h1, h2, h3, h4, -⟩ := hs.docs id d hfind
  apply sound_after_rewrite hs hfind hfind2 hother hinv hmap (le_of_eq hc)
  · refine Or.inr ⟨hopen, ?_, hkeys, Or.inl ⟨hopen, h2 hopen⟩⟩
    show d.TxnRevno < d.TxnRevno + k
    omega
  · refine ⟨h1, h2, h3, ?_, ?_⟩
    · rw [← hc]
      exact h4
    · intro hne
      exact absurd hopen hne

theorem Sound_assign_single {st st2 : State} {id : String} {conds : List Cond} {chg : Change}
    (hs : st.Sound) (hchg : (∃ a us, chg = Change.setApp a us) ∨ ∃ a u, chg = Change.pushUnit a u)
    (hc : Cond.completedEq 0 ∈ conds)
    (h : RunTransaction [Op.update id conds chg] st = some st2) :
    st2.Sound ∧ st.evolves st2 := by
  have hinv : st2.Inv := by
    apply Inv_RunTransaction _ st st2 _ hs.inv h
    intro op hop
    rw [List.mem_singleton] at hop
    subst hop
    rcases hchg with ⟨a, us, rfl⟩ | ⟨a, u, rfl⟩ <;> exact trivial
  obtain ⟨d, hfind, hconds, hst2, hfind2⟩ := RunTransaction_update_some h
  have hopen : d.Completed = 0 := by
    have := List.all_eq_true.mp hconds _ hc
    simpa [Cond.holds] using this
  have hother : ∀ id2, id2 ≠ id → st2.findId id2 = st.findId id2 := by
    intro id2 hne
    rw [hst2]
    exact find_updateId_other _ id id2 (write_docId chg) hne st.generationsC
  have hmap : st2.generationsC.map (fun d => d.DocId)
      = st.generationsC.map (fun d => d.DocId) := by
    rw [hst2]
    exact map_docId_updateId id _ (write_docId chg) st.generationsC
  have hseq : st2.sequenceC = st.sequenceC := by rw [hst2]
  rcases hchg with ⟨a, us, rfl⟩ | ⟨a, u, rfl⟩
  · exact sound_after_assign hs hfind hopen (by decide : (0 : Int) < 1)
      (UnitMap.keys_subset_set d.AssignedUnits a us) hfind2 hother hinv hmap hseq
  · exact sound_after_assign hs hfind hopen (by decide : (0 : Int) < 1)
      (UnitMap.keys_subset_push d.AssignedUnits a u) hfind2 hother hinv hmap hseq

theorem assignAllUnitsOps_benign (id appName : String) (app : applicationDoc)
    (names : List String) : ∀ op ∈ assignAllUnitsOps id appName app names, op.benign := by
  intro op hop
  unfold assignAllUnitsOps at hop
  rcases List.mem_cons.mp hop with h | h
  · subst h
    exact trivial
  · obtain ⟨n, -, rfl⟩ := List.mem_map.mp h
    exact trivial

theorem Sound_assignAllUnits {st st2 : State} {id appName : String} {app : applicationDoc}
    {names : List String} (hs : st.Sound) (hne : names ≠ [])
    (h : RunTransaction (assignAllUnitsOps id appName app names) st = some st2) :
    st2.Sound ∧ st.evolves st2 := by
  have hinv : st2.Inv :=
    Inv_RunTransaction _ st st2 (assignAllUnitsOps_benign id appName app names) hs.inv h
  obtain ⟨d, hfind, hopen, hfind2, hother, hseq, -, hmap⟩ :=
    RunTransaction_assignAllUnits id appName app names st st2 hne h
  have hk : (0 : Int) < (names.length : Int) := by
    have : 0 < names.length := List.length_pos.mpr hne
    omega
  exact sound_after_assign hs hfind hopen hk
    (UnitMap.keys_subset_foldl_push appName names d.AssignedUnits) hfind2 hother hinv hmap hseq

/-- The applied write of `Commit` leaves a sound state into which the state
before evolved, when the document at the asserted revision number is open with
no key the written map lacks, an empty map is written with generation id 0,
and a map with entries is written with a generation id, at least 1, above
every stored one and below the next value of the sequence. -/
theorem Sound_commit_write {st st2 : State} {id user : String} {revno now gid : Int}
    {m : UnitMap} (hs : st.Sound) (hnow : 0 < now)
    (hstored : ∀ d, st.findId id = some d → d.TxnRevno = revno →
      d.Completed = 0 ∧ (∀ x ∈ d.AssignedUnits.keys, x ∈ m.keys) ∧ (m = [] → gid = 0))
    (hgid : m ≠ [] → 1 ≤ gid ∧ (∀ id e, st.findId id = some e → e.GenerationId < gid) ∧
      gid < ((max (st.counter "generation") 1 : Nat) : Int))
    (h : RunTransaction (commitTxnOps id revno m now user gid) st = some st2) :
    st2.Sound ∧ st.evolves st2 := by
  unfold commitTxnOps at h
  have hinv : st2.Inv := by
    apply Inv_RunTransaction _ st st2 _ hs.inv h
    intro op hop
    rw [List.mem_singleton] at hop
    subst hop
    exact hnow
  obtain ⟨d, hfind, hconds, hst2, hfind2⟩ := RunTransaction_update_some h
  have hrev : d.TxnRevno = revno := by
    simpa [Cond.holds] using hconds
  obtain ⟨hopen, hkeys, hzero⟩ := hstored d hfind hrev
  have hother : ∀ id2, id2 ≠ id → st2.findId id2 = st.findId id2 := by
    intro id2 hne
    rw [hst2]
    exact find_updateId_other _ id id2 (write_docId _) hne st.generationsC
  have hmap : st2.generationsC.map (fun d => d.DocId)
      = st.generationsC.map (fun d => d.DocId) := by
    rw [hst2]
    exact map_docId_updateId id _ (write_docId _) st.generationsC
  have hc : st.counter "generation" = st2.counter "generation" := by
    rw [hst2]
    rfl
  have hpos : (0 : Int) < ((max (st.counter "generation") 1 : Nat) : Int) := by
    have := le_max_right (st.counter "generation") 1
    omega
  apply sound_after_rewrite hs hfind hfind2 hother hinv hmap (le_of_eq hc)
  · refine Or.inr ⟨hopen, ?_, hkeys, Or.inr ⟨hnow, ?_⟩⟩
    · show d.TxnRevno < d.TxnRevno + 1
      omega
    · by_cases hm : m = []
      · exact Or.inl ⟨hm, hzero hm⟩
      · exact Or.inr ⟨hm, (hgid hm).1, (hgid hm).2.1⟩
  · refine ⟨le_of_lt hnow, ?_, ?_, ?_, ?_⟩
    · intro h0
      have h1 : now = 0 := h0
      omega
    · show 0 ≤ gid
      by_cases hm : m = []
      · rw [hzero hm]
      · have := (hgid hm).1
        omega
    · show gid < _
      rw [← hc]
      by_cases hm : m = []
      · rw [hzero hm]
        exact hpos
      · exact (hgid hm).2.2
    · intro _ hm
      exact (hgid hm).1

/-- The retry loop over a `buildTxn` that keeps the frame invariant `Q` and the
branch documents, and whose applied transactions leave a sound state into
which the state before evolved: the state after the loop is sound, the
documents evolved, and the receiver tracks the store. -/
theorem runLoop_callOk (build : Nat → Frame → Except Err (List Op) × Frame)
    (Q : Frame → Prop) (hQ : ∀ f, Q f → f.st.Sound ∧ f.g.tracks f.st)
    (hbuild : ∀ i f, Q f →
      Q (build i f).2 ∧ (build i f).2.st.generationsC = f.st.generationsC)
    (hwrite : ∀ i f ops st2, Q f → (build i f).1 = .ok ops →
      RunTransaction ops (build i f).2.st = some st2 →
      st2.Sound ∧ (build i f).2.st.evolves st2) :
    ∀ n i f, Q f →
      CallOk f.st (runLoop Frame.st Frame.setSt build n i f).2.g
        (runLoop Frame.st Frame.setSt build n i f).2.st := by
  intro n
  induction n with
  | zero =>
    intro i f hq
    exact ⟨(hQ f hq).1, evolves_of_gens rfl, (hQ f hq).2⟩
  | succ n ih =>
    intro i f hq
    obtain ⟨hq1, hg1⟩ := hbuild i f hq
    have hstop : CallOk f.st (build i f).2.g (build i f).2.st :=
      ⟨(hQ _ hq1).1, evolves_of_gens hg1, (hQ _ hq1).2⟩
    generalize hb : build i f = r at hq1 hg1 hstop
    obtain ⟨res, f1⟩ := r
    cases res with
    | error e =>
      by_cases he : e = Err.ErrNoOperations
      · subst he
        rw [runLoop_step_noop Frame.st Frame.setSt build n i f f1 hb]
        exact hstop
      · rw [runLoop_step_error Frame.st Frame.setSt build n i f f1 e hb he]
        exact hstop
    | ok ops =>
      have hw := hwrite i f ops
      rw [hb] at hw
      cases ht : RunTransaction ops f1.st with
      | none =>
        rw [runLoop_step_retry Frame.st Frame.setSt build n i f f1 ops hb ht]
        obtain ⟨h1, h2, h3⟩ := ih (i + 1) f1 hq1
        exact ⟨h1, evolves_congr_left hg1.symm h2, h3⟩
      | some st2 =>
        rw [runLoop_step_ok Frame.st Frame.setSt build n i f f1 ops st2 hb ht]
        obtain ⟨h1, h2⟩ := hw st2 hq rfl ht
        exact ⟨h1, evolves_congr_left hg1.symm h2, tracks_mono (hQ _ hq1).2 h2⟩

theorem assign_build_keeps {build : Nat → Frame → Except Err (List Op) × Frame}
    (hshape : ∀ i f, (build i f).2 = f ∨ refreshOnRetry i f = .ok (build i f).2)
    (i : Nat) (f : Frame) (hq : f.st.Sound ∧ f.g.tracks f.st) :
    ((build i f).2.st.Sound ∧ (build i f).2.g.tracks (build i f).2.st) ∧
      (build i f).2.st.generationsC = f.st.generationsC := by
  rcases hshape i f with h | h
  · rw [h]
    exact ⟨hq, rfl⟩
  · have hst := (refreshOnRetry_ok h).1
    refine ⟨⟨?_, refreshOnRetry_tracks h hq.2⟩, by rw [hst]⟩
    rw [hst]
    exact hq.1

theorem AssignApplication_callOk (g : Generation) (appName : String) (st : State)
    (hs : st.Sound) (ht : g.tracks st) :
    CallOk st (g.AssignApplication appName st).g (g.AssignApplication appName st).st := by
  have hshape : ∀ i f, (assignApplicationBuildTxn appName i f).2 = f ∨
      refreshOnRetry i f = .ok (assignApplicationBuildTxn appName i f).2 := by
    intro i f
    rcases assignApplicationBuildTxn_shape appName i f with h | h
    · exact Or.inl h.1
    · exact Or.inr h.1
  exact runLoop_callOk (assignApplicationBuildTxn appName)
    (fun f => f.st.Sound ∧ f.g.tracks f.st) (fun _ h => h)
    (fun i f hq => assign_build_keeps hshape i f hq)
    (by
      intro i f ops st2 hq hops hrun
      have hs1 := (assign_build_keeps hshape i f hq).1.1
      rcases assignApplicationBuildTxn_shape appName i f with ⟨-, e, -, he⟩ | ⟨-, h⟩
      · rw [he] at hops
        cases hops
      · obtain ⟨-, rfl⟩ := h ops hops
        exact Sound_assign_single hs1 (Or.inl ⟨_, _, rfl⟩) (List.mem_cons_self _ _) hrun)
    st.nrRetries 0 ⟨g, st, 0⟩ ⟨hs, ht⟩

theorem AssignAllUnits_callOk (g : Generation) (appName : String) (st : State)
    (hs : st.Sound) (ht : g.tracks st) :
    CallOk st (g.AssignAllUnits appName st).g (g.AssignAllUnits appName st).st := by
  have hshape : ∀ i f, (assignAllUnitsBuildTxn appName i f).2 = f ∨
      refreshOnRetry i f = .ok (assignAllUnitsBuildTxn appName i f).2 := by
    intro i f
    rcases assignAllUnitsBuildTxn_shape appName i f with h | h
    · exact Or.inl h.1
    · exact Or.inr h.1
  exact runLoop_callOk (assignAllUnitsBuildTxn appName)
    (fun f => f.st.Sound ∧ f.g.tracks f.st) (fun _ h => h)
    (fun i f hq => assign_build_keeps hshape i f hq)
    (by
      intro i f ops st2 hq hops hrun
      have hs1 := (assign_build_keeps hshape i f hq).1.1
      rcases assignAllUnitsBuildTxn_shape appName i f with ⟨-, e, -, he⟩ | ⟨-, h⟩
      · rw [he] at hops
        cases hops
      · obtain ⟨-, app, names, hne, rfl⟩ := h ops hops
        exact Sound_assignAllUnits hs1 hne hrun)
    st.nrRetries 0 ⟨g, st, 0⟩ ⟨hs, ht⟩

theorem AssignUnit_callOk (g : Generation) (unitName : String) (st : State)
    (hs : st.Sound) (ht : g.tracks st) :
    CallOk st (g.AssignUnit unitName st).g (g.AssignUnit unitName st).st := by
  unfold Generation.AssignUnit
  cases hu : UnitApplication unitName with
  | error e => exact ⟨hs, evolves_of_gens rfl, ht⟩
  | ok appName =>
    have hshape : ∀ i f, (assignUnitBuildTxn appName unitName i f).2 = f ∨
        refreshOnRetry i f = .ok (assignUnitBuildTxn appName unitName i f).2 := by
      intro i f
      rcases assignUnitBuildTxn_shape appName unitName i f with h | h
      · exact Or.inl h.1
      · exact Or.inr h.1
    exact runLoop_callOk (assignUnitBuildTxn appName unitName)
      (fun f => f.st.Sound ∧ f.g.tracks f.st) (fun _ h => h)
      (fun i f hq => assign_build_keeps hshape i f hq)
      (by
        intro i f ops st2 hq hops hrun
        have hs1 := (assign_build_keeps hshape i f hq).1.1
        rcases assignUnitBuildTxn_shape appName unitName i f with ⟨-, e, -, he⟩ | ⟨-, h⟩
        · rw [he] at hops
          cases hops
        · obtain ⟨-, rfl⟩ := h ops hops
          exact Sound_assign_single hs1 (Or.inr ⟨_, _, rfl⟩) (List.mem_cons_self _ _) hrun)
      st.nrRetries 0 ⟨g, st, 0⟩ ⟨hs, ht⟩

theorem UnitMap.keys_eq_nil {m : UnitMap} (h : m.keys = []) : m = [] := by
  cases m with
  | nil => rfl
  | cons p t => simp [UnitMap.keys] at h

theorem commitBuildTxn_keeps (userName : String) (i : Nat) (f : Frame)
    (hq : f.committing) :
    (commitBuildTxn userName i f).2.committing ∧
      (commitBuildTxn userName i f).2.st.generationsC = f.st.generationsC := by
  rcases commitBuildTxn_cases userName i f with ⟨e, -, -, hb⟩ | ⟨f1, hr, hc⟩
  · rw [hb]
    exact ⟨hq, rfl⟩
  · obtain ⟨hst, hng, hid, -⟩ := refreshOnRetry_ok hr
    have hq1 : f1.committing := by
      refine ⟨by rw [hst]; exact hq.1, refreshOnRetry_tracks hr hq.2.1, ?_⟩
      rw [hng, hid, hst]
      exact hq.2.2
    have hg1 : f1.st.generationsC = f.st.generationsC := by rw [hst]
    rcases hc with ⟨-, -, hb⟩ | ⟨-, -, hb⟩ | ⟨-, -, hb⟩ | ⟨-, now, -, hcase⟩
    · rw [hb]; exact ⟨hq1, hg1⟩
    · rw [hb]; exact ⟨hq1, hg1⟩
    · rw [hb]; exact ⟨hq1, hg1⟩
    · have hkeys := (commitLoop_spec f1.st f1.g.AssignedUnits.keys f1.g.AssignedUnits
        (fun k hk => hk)).1
      have ht2 := tracks_setAssigned hq1.2.1 _ hkeys
      have hq2 : (f1.setAssigned
          (commitLoop f1.st f1.g.AssignedUnits.keys f1.g.AssignedUnits).2).committing :=
        ⟨hq1.1, ht2, hq1.2.2⟩
      unfold CommitOpenCase at hcase
      rcases hcase with ⟨-, hb⟩ | ⟨-, -, -, hb⟩ | ⟨-, hne, -, hb⟩ | ⟨-, -, hb⟩
      · rw [hb]; exact ⟨hq2, hg1⟩
      · rw [hb]; exact ⟨hq2, hg1⟩
      · rw [hb]
        refine ⟨⟨Sound_afterGenerationSeq hq1.1, tracks_congr rfl ht2, fun _ => ?_⟩, hg1⟩
        obtain ⟨d, hfind, -, hk, -⟩ := ht2
        refine ⟨d, hfind, ?_⟩
        intro hd
        apply hne
        apply UnitMap.keys_eq_nil
        apply List.eq_nil_iff_forall_not_mem.mpr
        intro k hkm
        have := hk k hkm
        rw [hd] at this
        simp [UnitMap.keys] at this
      · rw [hb]; exact ⟨hq2, hg1⟩

theorem generationDoc.sameBut_completed {c d : generationDoc} (h : c.sameBut d) :
    c.Completed = d.Completed := by
  rw [h.1]

theorem refreshOnRetry_committing {i : Nat} {f f1 : Frame} (hr : refreshOnRetry i f = .ok f1)
    (hq : f.committing) : f1.committing := by
  obtain ⟨hst, hng, hid, -⟩ := refreshOnRetry_ok hr
  refine ⟨by rw [hst]; exact hq.1, refreshOnRetry_tracks hr hq.2.1, ?_⟩
  rw [hng, hid, hst]
  exact hq.2.2

/-- The stored document that the write of `Commit` finds at the cached
revision number is open and has the keys of the written map, and when that map
is empty no generation id was allocated. -/
theorem commit_stored_open {f1 : Frame} (hq1 : f1.committing)
    (hopen : f1.g.IsCompleted = false) {s : State}
    (hg : s.generationsC = f1.st.generationsC) {m : UnitMap}
    (hm : m.keys = f1.g.doc.AssignedUnits.keys) (d : generationDoc)
    (hfind : s.findId f1.g.doc.DocId = some d) (hrev : d.TxnRevno = f1.g.doc.TxnRevno) :
    d.Completed = 0 ∧ (∀ x ∈ d.AssignedUnits.keys, x ∈ m.keys) ∧
      (m = [] → f1.newGenId = 0) := by
  rw [findId_congr hg] at hfind
  obtain ⟨hs, ⟨d1, hfind1, -, -, hsame⟩, hgen⟩ := hq1
  rw [hfind] at hfind1
  have hd : d = d1 := Option.some.inj hfind1
  rw [← hd] at hsame
  have hsb := hsame hrev.symm
  have hkeys : d.AssignedUnits.keys = m.keys := by rw [hm, hsb.2]
  refine ⟨?_, fun x hx => by rw [← hkeys]; exact hx, ?_⟩
  · have h0 := (hs.docs _ d hfind).1
    have h1 : ¬ f1.g.doc.Completed > 0 := by
      simpa [Generation.IsCompleted] using hopen
    rw [generationDoc.sameBut_completed hsb] at h1
    omega
  · intro hmnil
    by_contra hne
    obtain ⟨d2, hfind2, hd2⟩ := hgen hne
    rw [hfind] at hfind2
    rw [← Option.some.inj hfind2] at hd2
    apply hd2
    apply UnitMap.keys_eq_nil
    rw [hkeys, hmnil]
    rfl

theorem commitBuildTxn_write (userName : String) (i : Nat) (f : Frame) (ops : List Op)
    (st2 : State) (hq : f.committing) (hops : (commitBuildTxn userName i f).1 = .ok ops)
    (hrun : RunTransaction ops (commitBuildTxn userName i f).2.st = some st2) :
    st2.Sound ∧ (commitBuildTxn userName i f).2.st.evolves st2 := by
  rcases commitBuildTxn_cases userName i f with ⟨e, -, -, hb⟩ | ⟨f1, hr, hc⟩
  · rw [hb] at hops
    cases hops
  · have hq1 := refreshOnRetry_committing hr hq
    rcases hc with ⟨-, -, hb⟩ | ⟨-, -, hb⟩ | ⟨-, -, hb⟩ | ⟨hopen, now, hclock, hcase⟩
    · rw [hb] at hops; cases hops
    · rw [hb] at hops; cases hops
    · rw [hb] at hops; cases hops
    · have hkeys := (commitLoop_spec f1.st f1.g.AssignedUnits.keys f1.g.AssignedUnits
        (fun k hk => hk)).1
      have hnow : 0 < now := hq1.1.inv.clock now hclock
      unfold CommitOpenCase at hcase
      rcases hcase with ⟨-, hb⟩ | ⟨-, -, -, hb⟩ | ⟨-, hne, -, hb⟩ | ⟨-, hnil, hb⟩
      · rw [hb] at hops; cases hops
      · rw [hb] at hops; cases hops
      · rw [hb] at hops hrun ⊢
        have hops2 := Except.ok.inj hops
        rw [← hops2] at hrun
        have hs1 := Sound_afterGenerationSeq hq1.1
        refine Sound_commit_write hs1 hnow ?_ ?_ hrun
        · intro d hfind hrev
          obtain ⟨h1, h2, -⟩ := commit_stored_open hq1 hopen
            (rfl : f1.st.afterGenerationSeq.generationsC = f1.st.generationsC)
            hkeys d hfind hrev
          exact ⟨h1, h2, fun h => absurd h hne⟩
        · intro _
          have hmax := le_max_right (f1.st.counter "generation") 1
          refine ⟨by omega, ?_, ?_⟩
          · intro id e he
            have he1 : f1.st.findId id = some e := he
            exact (hq1.1.docs id e he1).2.2.2.1
          · have hc := counter_afterGenerationSeq f1.st
            have hc2 : f1.st.afterGenerationSeq.counter "generation"
                = (Frame.st { f1.setAssigned
                    (commitLoop f1.st f1.g.AssignedUnits.keys f1.g.AssignedUnits).2 with
                      st := f1.st.afterGenerationSeq,
                      newGenId := ((max (f1.st.counter "generation") 1 : Nat) : Int) }).counter
                    "generation" := rfl
            rw [← hc2, hc]
            have := le_max_left (max (f1.st.counter "generation") 1 + 1) 1
            omega
      · rw [hb] at hops hrun ⊢
        have hops2 := Except.ok.inj hops
        rw [← hops2] at hrun
        refine Sound_commit_write hq1.1 hnow ?_ (fun h => absurd hnil h) hrun
        intro d hfind hrev
        exact commit_stored_open hq1 hopen
          (rfl : f1.st.generationsC = f1.st.generationsC) hkeys d hfind hrev

theorem Commit_callOk (g : Generation) (userName : String) (st : State)
    (hs : st.Sound) (ht : g.tracks st) :
    CallOk st (g.Commit userName st).g (g.Commit userName st).st := by
  obtain ⟨-, e2, e3⟩ := Commit_run g userName st
  rw [e2, e3]
  exact runLoop_callOk (commitBuildTxn userName) Frame.committing
    (fun _ h => ⟨h.1, h.2.1⟩) (commitBuildTxn_keeps userName)
    (commitBuildTxn_write userName) st.nrRetries 0 ⟨g, st, 0⟩
    ⟨hs, ht, fun h => absurd rfl h⟩

theorem Call_callOk (c : Call) (g : Generation) (st : State) (hs : st.Sound)
    (ht : g.tracks st) : CallOk st (c.run g st).1 (c.run g st).2 := by
  cases c with
  | assignApplication a => exact AssignApplication_callOk g a st hs ht
  | assignUnit u => exact AssignUnit_callOk g u st hs ht
  | assignAllUnits a => exact AssignAllUnits_callOk g a st hs ht
  | commit user => exact Commit_callOk g user st hs ht

theorem find_of_mem_nodup : ∀ (l : List generationDoc) (d : generationDoc),
    (l.map (fun d => d.DocId)).Nodup → d ∈ l →
    l.find? (fun x => x.DocId == d.DocId) = some d := by
  intro l
  induction l with
  | nil => intro d _ hd; cases hd
  | cons a t ih =>
    intro d hnd hd
    rw [List.map_cons, List.nodup_cons] at hnd
    rcases List.mem_cons.mp hd with h | h
    · subst h
      simp [List.find?_cons]
    · have hne : a.DocId ≠ d.DocId := by
        intro heq
        apply hnd.1
        rw [heq]
        exact List.mem_map.mpr ⟨d, h, rfl⟩
      have hb : (a.DocId == d.DocId) = false := by simpa using hne
      rw [List.find?_cons, hb]
      exact ih d hnd.2 h

theorem Branch_tracks {st : State} {name : String} {g : Generation} (hs : st.Sound)
    (hg : st.Branch name = .ok g) : g.tracks st := by
  apply tracks_of_findId
  unfold State.Branch State.getBranchDoc at hg
  cases hf : st.generationsC.find? (fun d => d.Name == name && d.Completed == 0) with
  | none => simp [hf] at hg
  | some d =>
    simp only [hf] at hg
    have hgd : g = ⟨d⟩ := (Except.ok.inj hg).symm
    subst hgd
    exact find_of_mem_nodup st.generationsC d hs.nodup (List.mem_of_find?_eq_some hf)

theorem Refresh_tracks {st : State} {g g2 : Generation} (hr : g.Refresh st = .ok g2) :
    g2.tracks st := by
  apply tracks_of_findId
  unfold Generation.Refresh at hr
  cases hf : st.findId g.doc.DocId with
  | none => simp [hf] at hr
  | some d =>
    simp only [hf] at hr
    have hgd := (Except.ok.inj hr).symm
    subst hgd
    show st.findId d.DocId = some d
    rw [findId_docId hf]
    exact hf

theorem Sound_init (st : State) (hgen : st.generationsC = []) (hclock : st.clockOk) :
    st.Sound := by
  have hnone : ∀ id, st.findId id = none := by
    intro id
    unfold State.findId
    rw [hgen]
    rfl
  refine ⟨⟨hclock, ?_, ?_⟩, ?_, ?_, ?_⟩
  · intro name; rw [hgen]; simp [openCount]
  · intro x hx; rw [hgen] at hx; simp at hx
  · rw [hgen]; exact List.nodup_nil
  · intro id d hd
    rw [hnone] at hd
    cases hd
  · intro id1 id2 d1 d2 h1
    rw [hnone] at h1
    cases h1

theorem Sound_env {st st2 : State} (hs : st.Sound)
    (hgen : st2.generationsC = st.generationsC) (hseq : st2.sequenceC = st.sequenceC)
    (hclock : st2.clockOk) : st2.Sound := by
  have hc : ∀ name, st2.counter name = st.counter name := by
    intro name
    unfold State.counter
    rw [hseq]
  apply Sound_of_same_docs hs hgen _ (le_of_eq (hc "generation").symm)
  refine ⟨hclock, ?_, ?_⟩
  · intro name; rw [hgen]; exact hs.inv.oneOpen name
  · intro x hx
    rw [hgen] at hx
    obtain ⟨k, hk, hx2⟩ := hs.inv.ids x hx
    exact ⟨k, by rw [hc]; exact hk, hx2⟩

theorem findId_insert_next (st : State) (h : st.Inv) (name user : String) (now : Int)
    (id : String) :
    (Op.apply st.afterBranchSeq (Op.insert (Itoa (st.counter "branch"))
        (newBranchDoc (st.counter "branch") name user now))).findId id
      = (st.findId id).or
          (if Itoa (st.counter "branch") = id
            then some (newBranchDoc (st.counter "branch") name user now) else none) := by
  unfold State.findId
  rw [apply_insert_next st h, List.find?_append]
  congr 1
  by_cases hid : Itoa (st.counter "branch") = id
  · simp [List.find?_cons, newBranchDoc, hid]
  · simp [List.find?_cons, newBranchDoc, hid]

theorem counter_insert_next (st : State) (h : st.Inv) (name user : String) (now : Int) :
    (Op.apply st.afterBranchSeq (Op.insert (Itoa (st.counter "branch"))
        (newBranchDoc (st.counter "branch") name user now))).counter "generation"
      = st.counter "generation" := by
  rw [← counter_generation_afterBranchSeq st]
  simp only [Op.apply, findId_next_none st h]
  rfl

/-- The insertion of `AddGeneration` leaves a sound state in which every
document stored before is unchanged. -/
theorem Sound_insert (st : State) (hs : st.Sound) (name user : String) (now : Int)
    (hfree : st.findOpen name = none) :
    (Op.apply st.afterBranchSeq (Op.insert (Itoa (st.counter "branch"))
        (newBranchDoc (st.counter "branch") name user now))).Sound ∧
      ∀ id d, st.findId id = some d →
        (Op.apply st.afterBranchSeq (Op.insert (Itoa (st.counter "branch"))
          (newBranchDoc (st.counter "branch") name user now))).findId id = some d := by
  have hfind := findId_insert_next st hs.inv name user now
  have hcount := counter_insert_next st hs.inv name user now
  have hnone : st.findId (Itoa (st.counter "branch")) = none := findId_next_none st hs.inv
  have hold : ∀ id d, (Op.apply st.afterBranchSeq (Op.insert (Itoa (st.counter "branch"))
      (newBranchDoc (st.counter "branch") name user now))).findId id = some d →
      st.findId id = some d ∨
        (id = Itoa (st.counter "branch") ∧
          d = newBranchDoc (st.counter "branch") name user now) := by
    intro id d hd
    rw [hfind] at hd
    cases hf : st.findId id with
    | some e =>
      rw [hf] at hd
      exact Or.inl hd
    | none =>
      rw [hf] at hd
      by_cases hid : Itoa (st.counter "branch") = id
      · rw [if_pos hid] at hd
        exact Or.inr ⟨hid.symm, (Option.some.inj hd).symm⟩
      · rw [if_neg hid] at hd
        cases hd
  have hnew : (newBranchDoc (st.counter "branch") name user now).sound st := by
    refine ⟨le_refl _, fun _ => rfl, le_refl _, ?_, fun h => absurd rfl h⟩
    have := le_max_right (st.counter "generation") 1
    show (0 : Int) < _
    omega
  refine ⟨⟨Inv_insert st hs.inv name user now hfree, ?_, ?_, ?_⟩, ?_⟩
  · rw [apply_insert_next st hs.inv, List.map_append, List.nodup_append]
    refine ⟨hs.nodup, List.nodup_singleton _, ?_⟩
    intro x hx hx2
    have hx3 : x = Itoa (st.counter "branch") := by simpa [newBranchDoc] using hx2
    obtain ⟨k, hk, hx4⟩ := hs.inv.ids x hx
    rw [hx3] at hx4
    have := Itoa_injective _ _ hx4
    omega
  · intro id d hd
    rcases hold id d hd with h | ⟨-, h⟩
    · exact generationDoc.sound_mono (hs.docs id d h) (le_of_eq hcount.symm)
    · rw [h]
      exact generationDoc.sound_mono hnew (le_of_eq hcount.symm)
  · intro id1 id2 d1 d2 h1 h2 hne heq
    rcases hold id1 d1 h1 with h1 | ⟨-, h1⟩
    · rcases hold id2 d2 h2 with h2 | ⟨-, h2⟩
      · exact hs.distinct id1 id2 d1 d2 h1 h2 hne heq
      · rw [h2] at heq
        exact absurd heq hne
    · rw [h1] at hne
      exact absurd rfl hne
  · intro id d hd
    rw [hfind, hd]
    rfl

theorem Sound_AddGeneration (st : State) (name user : String) (hs : st.Sound) :
    (st.AddGeneration name user).2.Sound ∧
      ∀ id d, st.findId id = some d → (st.AddGeneration name user).2.findId id = some d := by
  rcases AddGeneration_cases st name user with ⟨-, h | h, -⟩ | ⟨-, hfree, now, -, h⟩
  · rw [h]
    exact ⟨hs, fun _ _ hd => hd⟩
  · rw [h]
    exact ⟨Sound_afterBranchSeq hs, fun _ _ hd => hd⟩
  · rw [h]
    exact Sound_insert st hs name user now hfree

theorem evolves_of_kept {st st2 : State}
    (h : ∀ id d, st.findId id = some d → st2.findId id = some d) : st.evolves st2 :=
  fun id d hd => ⟨d, h id d hd, Or.inl rfl⟩

/-- In every run of the system the store is sound and every receiver a client
holds tracks the store. -/
theorem SysReachable.sound {sys : System} (h : SysReachable sys) :
    sys.st.Sound ∧ ∀ g ∈ sys.hs, g.tracks sys.st := by
  induction h with
  | init st hgen hclock =>
    exact ⟨Sound_init st hgen hclock, fun g hg => by cases hg⟩
  | env sys st2 _ hgen hseq hclock ih =>
    exact ⟨Sound_env ih.1 hgen hseq hclock, fun g hg => tracks_congr hgen (ih.2 g hg)⟩
  | addGeneration sys name user _ ih =>
    obtain ⟨h1, h2⟩ := Sound_AddGeneration sys.st name user ih.1
    exact ⟨h1, fun g hg => tracks_mono (ih.2 g hg) (evolves_of_kept h2)⟩
  | branch sys name g _ hg ih =>
    refine ⟨ih.1, fun g2 hg2 => ?_⟩
    rcases List.mem_append.mp hg2 with h | h
    · exact ih.2 g2 h
    · rw [List.mem_singleton] at h
      rw [h]
      exact Branch_tracks ih.1 hg
  | refresh sys i g g2 _ hi hr ih =>
    refine ⟨ih.1, fun g3 hg3 => ?_⟩
    rcases List.mem_or_eq_of_mem_set hg3 with h | h
    · exact ih.2 g3 h
    · rw [h]
      exact Refresh_tracks hr
  | call sys i g c _ hi ih =>
    have hg : g ∈ sys.hs := List.getElem?_mem hi
    obtain ⟨h1, h2, h3⟩ := Call_callOk c g sys.st ih.1 (ih.2 g hg)
    refine ⟨h1, fun g3 hg3 => ?_⟩
    rcases List.mem_or_eq_of_mem_set hg3 with h | h
    · exact tracks_mono (ih.2 g3 h) h2
    · rw [h]
      exact h3

theorem SysStep.reachable {sys sys2 : System} (hr : SysReachable sys)
    (h : SysStep sys sys2) : SysReachable sys2 := by
  cases h with
  | env st2 hgen hseq hclock => exact SysReachable.env sys st2 hr hgen hseq hclock
  | addGeneration name user => exact SysReachable.addGeneration sys name user hr
  | branch name g hg => exact SysReachable.branch sys name g hr hg
  | refresh i g g2 hi hr2 => exact SysReachable.refresh sys i g g2 hr hi hr2
  | call i g c hi => exact SysReachable.call sys i g c hr hi

/-- Every step of a run evolves the stored documents. -/
theorem SysStep.evolves {sys sys2 : System} (hr : SysReachable sys)
    (h : SysStep sys sys2) : sys.st.evolves sys2.st := by
  cases h with
  | env st2 hgen hseq hclock => exact evolves_of_gens hgen
  | addGeneration name user =>
    exact evolves_of_kept (Sound_AddGeneration sys.st name user hr.sound.1).2
  | branch name g hg => exact evolves_of_gens rfl
  | refresh i g g2 hi hr2 => exact evolves_of_gens rfl
  | call i g c hi =>
    exact (Call_callOk c g sys.st hr.sound.1 (hr.sound.2 g (List.getElem?_mem hi))).2.1

theorem SysRun.reaches {sys sys2 : System} (h : SysRun sys sys2) :
    SysReachable sys → SysReachable sys2 := by
  induction h with
  | refl sys => exact fun hr => hr
  | step sys sys1 sys2 hstep _ ih => exact fun hr => ih (hstep.reachable hr)

/-- A completed document stays as it is along every run. -/
theorem SysRun.frozen {sys sys2 : System} (h : SysRun sys sys2) :
    SysReachable sys → ∀ id d, sys.st.findId id = some d → d.Completed ≠ 0 →
      sys2.st.findId id = some d := by
  induction h with
  | refl sys => exact fun _ _ _ hd _ => hd
  | step sys sys1 sys2 hstep _ ih =>
    intro hr id d hd hc
    obtain ⟨d1, hd1, hadv⟩ := hstep.evolves hr id d hd
    rcases hadv with h | ⟨h, -⟩
    · rw [h] at hd1
      exact ih (hstep.reachable hr) id d hd1 hc
    · exact absurd h hc

/-- A stored document is still stored after every run. -/
theorem SysRun.stored {sys sys2 : System} (h : SysRun sys sys2) :
    SysReachable sys → ∀ id d, sys.st.findId id = some d →
      ∃ d2, sys2.st.findId id = some d2 := by
  induction h with
  | refl sys => exact fun _ _ d hd => ⟨d, hd⟩
  | step sys sys1 sys2 hstep _ ih =>
    intro hr id d hd
    obtain ⟨d1, hd1, -⟩ := hstep.evolves hr id d hd
    exact ih (hstep.reachable hr) id d1 hd1

theorem seedModel_clockOk : seedModel.clockOk := by
  intro t h
  have : (200 : Int) = t := Option.some.inj h
  omega

theorem sysCreated_reachable : SysReachable sysCreated :=
  SysReachable.branch ⟨(seedModel.AddGeneration "db-upgrade" "alice").2, []⟩ "db-upgrade"
    ⟨newBranchDoc 0 "db-upgrade" "alice" 200⟩
    (SysReachable.addGeneration ⟨seedModel, []⟩ "db-upgrade" "alice"
      (SysReachable.init seedModel rfl seedModel_clockOk))
    (by rfl)

theorem sysStaged_reachable : SysReachable sysStaged :=
  SysReachable.call sysCreated 0 ⟨newBranchDoc 0 "db-upgrade" "alice" 200⟩
    (Call.assignApplication "mysql") sysCreated_reachable (by rfl)

theorem sysStaged_commit : SysStep sysStaged sysCommitted :=
  SysStep.call sysStaged 0 ⟨newBranchDoc 0 "db-upgrade" "alice" 200⟩ (Call.commit "bob")
    (by decide)

/-- C12. In every run of the system, a call of `AssignApplication`,
`AssignUnit`, `AssignAllUnits` or `Commit` through a receiver a client holds
leaves every stored branch document in the store, with every application key
of `assignedUnits` it had before the call: no write removes a staged
application. -/
theorem C12_staged_keys_only_grow (sys : System) (hr : SysReachable sys) (i : Nat)
    (g : Generation) (hi : sys.hs[i]? = some g) (c : Call) (id : String)
    (d : generationDoc) (hd : sys.st.findId id = some d) :
    ∃ d2, (c.run g sys.st).2.findId id = some d2 ∧
      ∀ k ∈ d.AssignedUnits.keys, k ∈ d2.AssignedUnits.keys := by
  obtain ⟨hs, ht⟩ := hr.sound
  obtain ⟨-, hev, -⟩ := Call_callOk c g sys.st hs (ht g (List.getElem?_mem hi))
  obtain ⟨d2, hd2, hadv⟩ := hev id d hd
  refine ⟨d2, hd2, ?_⟩
  rcases hadv with h | ⟨-, -, h, -⟩
  · rw [h]
    exact fun k hk => hk
  · exact h

/-- C12 at the branch "db-upgrade" with the staged application "mysql", for
`Commit("bob")`. -/
theorem C12_staged_keys_only_grow_witness :
    SysReachable sysStaged ∧
    sysStaged.hs[0]? = some ⟨newBranchDoc 0 "db-upgrade" "alice" 200⟩ ∧
    sysStaged.st.findId "0"
      = some ((newBranchDoc 0 "db-upgrade" "alice" 200).assigned [("mysql", [])]) ∧
    ∃ d2, ((Call.commit "bob").run ⟨newBranchDoc 0 "db-upgrade" "alice" 200⟩
        sysStaged.st).2.findId "0" = some d2 ∧
      ∀ k ∈ ((newBranchDoc 0 "db-upgrade" "alice" 200).assigned
          [("mysql", [])]).AssignedUnits.keys, k ∈ d2.AssignedUnits.keys :=
  ⟨sysStaged_reachable, by decide, by decide,
    C12_staged_keys_only_grow sysStaged sysStaged_reachable 0
      ⟨newBranchDoc 0 "db-upgrade" "alice" 200⟩ (by decide) (Call.commit "bob") "0"
      ((newBranchDoc 0 "db-upgrade" "alice" 200).assigned [("mysql", [])]) (by decide)⟩

/-- C13. In every run of the system an open document has generation id 0. A
step changes the generation id of a stored document only from 0 to a value
other than 0, and only when the document was open before the step and is
completed, with staged applications, after it: the change happens in the write
that sets the completed timestamp. A completed document is not changed by a
step, and stays the same document along every later run. -/
theorem C13_generation_id_assigned_once (sys sys1 sys2 : System) (hr : SysReachable sys)
    (hstep : SysStep sys sys1) (hrun : SysRun sys1 sys2) (id : String) (d : generationDoc)
    (hd : sys.st.findId id = some d) :
    (d.Completed = 0 → d.GenerationId = 0) ∧
    ∃ d1 d2, sys1.st.findId id = some d1 ∧ sys2.st.findId id = some d2 ∧
      (d.Completed ≠ 0 → d1 = d) ∧
      (d1.GenerationId ≠ d.GenerationId →
        d.GenerationId = 0 ∧ d.Completed = 0 ∧ d1.GenerationId ≠ 0 ∧ d1.Completed ≠ 0 ∧
          d1.AssignedUnits ≠ []) ∧
      (d1.Completed ≠ 0 → d2 = d1) := by
  have hsound := (hr.sound.1.docs id d hd).2.1
  obtain ⟨d1, hd1, hadv⟩ := hstep.evolves hr id d hd
  have hr1 := hstep.reachable hr
  obtain ⟨d2, hd2⟩ := hrun.stored hr1 id d1 hd1
  refine ⟨hsound, d1, d2, hd1, hd2, ?_, ?_, ?_⟩
  · intro hc
    rcases hadv with h | ⟨h, -⟩
    · exact h
    · exact absurd h hc
  · intro hne
    rcases hadv with h | ⟨hopen, -, -, h⟩
    · rw [h] at hne
      exact absurd rfl hne
    · have hz := hsound hopen
      rcases h with ⟨-, h⟩ | ⟨hpos, ⟨-, h⟩ | ⟨hm, hge, -⟩⟩
      · rw [h, hz] at hne
        exact absurd rfl hne
      · rw [h, hz] at hne
        exact absurd rfl hne
      · refine ⟨hz, hopen, ?_, ?_, hm⟩
        · omega
        · omega
  · intro hc
    have := hrun.frozen hr1 id d1 hd1 hc
    rw [hd2] at this
    exact Option.some.inj this

theorem Itoa_one : Itoa 1 = "1" := by
  unfold Itoa
  simp
  rfl

theorem sysCommitted_addGeneration :
    (sysCommitted.st.AddGeneration "pg-upgrade" "dave").2 = stTwo := by
  rcases AddGeneration_cases sysCommitted.st "pg-upgrade" "dave" with
    ⟨-, -, h⟩ | ⟨-, -, now, hclock, h⟩
  · have hnone := h (by decide) (by decide) (by decide)
    exact absurd hnone (by decide)
  · have hnow : (200 : Int) = now := Option.some.inj hclock
    have hc : sysCommitted.st.counter "branch" = 1 := by decide
    rw [h, hc, ← hnow]
    unfold newBranchDoc
    rw [Itoa_one]
    decide

theorem sysCommitted_later : SysRun sysCommitted sysLater :=
  SysRun.step _ _ _
    (SysStep.call sysCommitted 0
      ((Call.commit "bob").run ⟨newBranchDoc 0 "db-upgrade" "alice" 200⟩ sysStaged.st).1
      (Call.assignApplication "pg") (by rfl))
    (SysRun.refl _)

theorem sysCommitted_run : SysRun sysCommitted sysTwoStaged := by
  have h1 : SysStep sysCommitted sysTwoAdded := by
    have h := SysStep.addGeneration sysCommitted "pg-upgrade" "dave"
    rw [sysCommitted_addGeneration] at h
    exact h
  have h2 : SysStep sysTwoAdded sysTwo :=
    SysStep.branch sysTwoAdded "pg-upgrade" ⟨pgNew⟩ (by rfl)
  have h3 : SysStep sysTwo sysTwoStaged :=
    SysStep.call sysTwo 1 ⟨pgNew⟩ (Call.assignApplication "pg") (by decide)
  exact SysRun.step _ _ _ h1 (SysRun.step _ _ _ h2 (SysRun.step _ _ _ h3 (SysRun.refl _)))

theorem sysTwoStaged_commit : SysStep sysTwoStaged sysTwoCommitted :=
  SysStep.call sysTwoStaged 1 ⟨pgNew⟩ (Call.commit "dave") (by decide)

/-- C13 at the branch "db-upgrade": `Commit("bob")` sets the generation id 1
together with the completed timestamp, and a later `AssignApplication("pg")`
leaves the document as it is. -/
theorem C13_generation_id_assigned_once_witness :
    SysReachable sysStaged ∧ SysStep sysStaged sysCommitted ∧ SysRun sysCommitted sysLater ∧
    sysStaged.st.findId "0"
      = some ((newBranchDoc 0 "db-upgrade" "alice" 200).assigned [("mysql", [])]) ∧
    ((((newBranchDoc 0 "db-upgrade" "alice" 200).assigned [("mysql", [])]).Completed = 0 →
      ((newBranchDoc 0 "db-upgrade" "alice" 200).assigned [("mysql", [])]).GenerationId = 0) ∧
    ∃ d1 d2, sysCommitted.st.findId "0" = some d1 ∧ sysLater.st.findId "0" = some d2 ∧
      (((newBranchDoc 0 "db-upgrade" "alice" 200).assigned [("mysql", [])]).Completed ≠ 0 →
        d1 = (newBranchDoc 0 "db-upgrade" "alice" 200).assigned [("mysql", [])]) ∧
      (d1.GenerationId
          ≠ ((newBranchDoc 0 "db-upgrade" "alice" 200).assigned [("mysql", [])]).GenerationId →
        ((newBranchDoc 0 "db-upgrade" "alice" 200).assigned [("mysql", [])]).GenerationId = 0 ∧
        ((newBranchDoc 0 "db-upgrade" "alice" 200).assigned [("mysql", [])]).Completed = 0 ∧
        d1.GenerationId ≠ 0 ∧ d1.Completed ≠ 0 ∧ d1.AssignedUnits ≠ []) ∧
      (d1.Completed ≠ 0 → d2 = d1)) ∧
    sysCommitted.st.findId "0" = some dbDone ∧ sysLater.st.findId "0" = some dbDone :=
  ⟨sysStaged_reachable, sysStaged_commit, sysCommitted_later, by decide,
    C13_generation_id_assigned_once sysStaged sysCommitted sysLater sysStaged_reachable
      sysStaged_commit sysCommitted_later "0"
      ((newBranchDoc 0 "db-upgrade" "alice" 200).assigned [("mysql", [])]) (by decide),
    by decide, by decide⟩

theorem sysCommitted_reachable : SysReachable sysCommitted :=
  sysStaged_commit.reachable sysStaged_reachable

/-- C14, as amended. In a run of the system, whose operations are applied one
at a time, let the branch `idX` be completed with staged applications in the
state `sys1`, and let a later step complete the branch `idY`, open until then,
with staged applications. Then the document of `idX` is still the one its
commit wrote, its generation id is at least 1, and the generation id of `idY`
is greater: the ids increase in the order of the commit writes. In the state
reached, completed documents with staged applications have pairwise distinct
generation ids, all at least 1. -/
theorem C14_commit_ids_increase (sys1 sys2 sys3 : System) (hr1 : SysReachable sys1)
    (h2 : SysRun sys1 sys2) (h3 : SysStep sys2 sys3)
    (idX idY : String) (x1 y2 y3 : generationDoc)
    (hx1 : sys1.st.findId idX = some x1)
    (hxc : x1.Completed ≠ 0) (hxn : x1.AssignedUnits ≠ [])
    (hy2 : sys2.st.findId idY = some y2) (hy3 : sys3.st.findId idY = some y3)
    (hyo : y2.Completed = 0) (hyc : y3.Completed ≠ 0) (hyn : y3.AssignedUnits ≠ []) :
    sys3.st.findId idX = some x1 ∧ 1 ≤ x1.GenerationId ∧
    x1.GenerationId < y3.GenerationId ∧
    (∀ id1 id2 d1 d2, sys3.st.findId id1 = some d1 → sys3.st.findId id2 = some d2 →
      d1.Completed ≠ 0 → d1.AssignedUnits ≠ [] → d2.Completed ≠ 0 → d2.AssignedUnits ≠ [] →
      d1.GenerationId = d2.GenerationId → id1 = id2) ∧
    (∀ id d, sys3.st.findId id = some d → d.Completed ≠ 0 → d.AssignedUnits ≠ [] →
      1 ≤ d.GenerationId) := by
  have hr2 := h2.reaches hr1
  have hr3 := h3.reachable hr2
  have hs3 := hr3.sound.1
  have hx2 : sys2.st.findId idX = some x1 := h2.frozen hr1 idX x1 hx1 hxc
  have hx3 : sys3.st.findId idX = some x1 :=
    (SysRun.step _ _ _ h3 (SysRun.refl _)).frozen hr2 idX x1 hx2 hxc
  have hxge : 1 ≤ x1.GenerationId := (hr1.sound.1.docs idX x1 hx1).2.2.2.2 hxc hxn
  refine ⟨hx3, hxge, ?_, ?_, ?_⟩
  · obtain ⟨y, hy, hadv⟩ := h3.evolves hr2 idY y2 hy2
    rw [hy3] at hy
    rw [← Option.some.inj hy] at hadv
    rcases hadv with h | ⟨-, -, -, h⟩
    · rw [h] at hyc
      exact absurd hyo hyc
    · rcases h with ⟨h, -⟩ | ⟨-, ⟨h, -⟩ | ⟨-, -, h⟩⟩
      · exact absurd h hyc
      · exact absurd h hyn
      · exact h idX x1 hx2
  · intro id1 id2 d1 d2 hd1 hd2 hc1 hn1 _ _ heq
    have hge := (hs3.docs id1 d1 hd1).2.2.2.2 hc1 hn1
    exact hs3.distinct id1 id2 d1 d2 hd1 hd2 (by omega) heq
  · intro id d hd hc hn
    exact (hs3.docs id d hd).2.2.2.2 hc hn

/-- C14 at the run that commits "db-upgrade" with the staged application
"mysql", then creates "pg-upgrade", stages "pg" and commits it: the ids stored
are 1 and 2. -/
theorem C14_commit_ids_increase_witness :
    SysReachable sysCommitted ∧
    SysRun sysCommitted sysTwoStaged ∧ SysStep sysTwoStaged sysTwoCommitted ∧
    sysCommitted.st.findId "0" = some dbDone ∧
    dbDone.Completed ≠ 0 ∧ dbDone.AssignedUnits ≠ [] ∧
    sysTwoStaged.st.findId "1" = some (pgNew.assigned [("pg", [])]) ∧
    sysTwoCommitted.st.findId "1"
      = some ((pgNew.assigned [("pg", [])]).committed [("pg", ["pg/0"])] 200 "dave" 2) ∧
    (pgNew.assigned [("pg", [])]).Completed = 0 ∧
    (sysTwoCommitted.st.findId "0" = some dbDone ∧ 1 ≤ dbDone.GenerationId ∧
      dbDone.GenerationId
        < ((pgNew.assigned [("pg", [])]).committed [("pg", ["pg/0"])] 200 "dave"
            2).GenerationId ∧
      (∀ id1 id2 d1 d2, sysTwoCommitted.st.findId id1 = some d1 →
        sysTwoCommitted.st.findId id2 = some d2 →
        d1.Completed ≠ 0 → d1.AssignedUnits ≠ [] → d2.Completed ≠ 0 →
        d2.AssignedUnits ≠ [] → d1.GenerationId = d2.GenerationId → id1 = id2) ∧
      (∀ id d, sysTwoCommitted.st.findId id = some d → d.Completed ≠ 0 →
        d.AssignedUnits ≠ [] → 1 ≤ d.GenerationId)) :=
  ⟨sysCommitted_reachable, sysCommitted_run, sysTwoStaged_commit,
    by decide, by decide, by decide, by decide, by decide, by decide,
    C14_commit_ids_increase sysCommitted sysTwoStaged sysTwoCommitted
      sysCommitted_reachable sysCommitted_run sysTwoStaged_commit "0" "1" dbDone
      (pgNew.assigned [("pg", [])])
      ((pgNew.assigned [("pg", [])]).committed [("pg", ["pg/0"])] 200 "dave" 2)
      (by decide) (by decide) (by decide)
      (by decide) (by decide) (by decide) (by decide) (by decide)⟩

/-- C14 fails as stated. In `modelTwo` the open branches "db-upgrade" and
"pg-upgrade" hold one staged application each. `Commit("bob")` on "db-upgrade"
builds its transaction and is allocated the generation id 1; before the
transaction is applied, `Commit("dave")` on "pg-upgrade" builds its
transaction, is allocated the id 2, and its write is applied; then the write
of "db-upgrade", whose revision assertion still holds, is applied. The commit
write applied first stored the id 2 and the commit write applied second stored
the id 1. -/
theorem C14_counterexample :
    modelTwo.findId "0" = some dbUpgrade ∧ modelTwo.findId "1" = some pgUpgrade ∧
    (overlappedCommits ⟨dbUpgrade⟩ ⟨pgUpgrade⟩ "bob" "dave" modelTwo).isSome = true ∧
    (overlappedCommits ⟨dbUpgrade⟩ ⟨pgUpgrade⟩ "bob" "dave" modelTwo).map
      (fun p => p.1.findId "0") = some (some dbUpgrade) ∧
    (overlappedCommits ⟨dbUpgrade⟩ ⟨pgUpgrade⟩ "bob" "dave" modelTwo).map
      (fun p => p.1.findId "1")
        = some (some (pgUpgrade.committed [("pg", ["pg/0"])] 200 "dave" 2)) ∧
    (overlappedCommits ⟨dbUpgrade⟩ ⟨pgUpgrade⟩ "bob" "dave" modelTwo).map
      (fun p => p.2.findId "0")
        = some (some (dbUpgrade.committed [("mysql", ["mysql/0", "mysql/1"])] 200 "bob" 1)) ∧
    (overlappedCommits ⟨dbUpgrade⟩ ⟨pgUpgrade⟩ "bob" "dave" modelTwo).map
      (fun p => p.2.findId "1")
        = some (some (pgUpgrade.committed [("pg", ["pg/0"])] 200 "dave" 2)) := by
  decide

theorem overlappedAddGenerations_emptyModel :
    overlappedAddGenerations "x" "alice" "bob" emptyModel
      = some { emptyModel with generationsC := twoOpen, sequenceC := [("branch", 2)] } := by
  have h1 : sequence emptyModel "branch" = (.ok 0, emptyModel.afterBranchSeq) := rfl
  have h2 : sequence emptyModel.afterBranchSeq "branch"
      = (.ok 1, emptyModel.afterBranchSeq.afterBranchSeq) := rfl
  have h3 : addGenerationBuildTxn 0 "x" "alice" 0 emptyModel.afterBranchSeq.afterBranchSeq
      = (.ok (insertGenerationTxnOps "0" "x" "alice" 200),
          emptyModel.afterBranchSeq.afterBranchSeq) := rfl
  have h4 : addGenerationBuildTxn 1 "x" "bob" 0 emptyModel.afterBranchSeq.afterBranchSeq
      = (.ok (insertGenerationTxnOps "1" "x" "bob" 200),
          emptyModel.afterBranchSeq.afterBranchSeq) := by
    rw [addGenerationBuildTxn_free 1 "x" "bob" 0 _ (by decide), Itoa_one]
    rfl
  unfold overlappedAddGenerations
  simp only [h1, h2, h3, h4]
  decide

/-- C10, evaluated at the failing schedule. In `emptyModel`, which has no
branch, two calls `AddGeneration("x", "alice")` and `AddGeneration("x", "bob")`
overlap: both are allocated an id, both run `buildTxn`, whose check finds no
open branch named "x", and both insertions, which carry no assertion, are
applied. The store then holds two open branches named "x", with the ids "0" and
"1". When the second call starts after the first has returned, it is refused
with the error "model already has branch" and the quoted name. -/
theorem C10_overlapping_AddGeneration :
    emptyModel.generationsC = [] ∧
    (overlappedAddGenerations "x" "alice" "bob" emptyModel).map (fun s => s.generationsC)
      = some twoOpen ∧
    twoOpen.map (fun d => (d.DocId, d.Name, d.Completed)) = [("0", "x", 0), ("1", "x", 0)] ∧
    openCount "x" twoOpen = 2 ∧
    ((emptyModel.AddGeneration "x" "alice").2.AddGeneration "x" "bob").1
      = some (Err.New ("model already has branch " ++ Quote "x")) ∧
    openCount "x" ((emptyModel.AddGeneration "x" "alice").2.AddGeneration "x" "bob").2.generationsC
      = 1 := by
  refine ⟨rfl, ?_, by decide, by decide, by decide, by decide⟩
  rw [overlappedAddGenerations_emptyModel]
  rfl

theorem refreshOnRetry_nonneg {i : Nat} {f f1 : Frame} (hr : refreshOnRetry i f = .ok f1)
    (hstored : ∀ id d, f.st.findId id = some d → 0 ≤ d.Completed)
    (hg : 0 ≤ f.g.doc.Completed) : 0 ≤ f1.g.doc.Completed := by
  by_cases hi : i = 0
  · subst hi
    rw [refreshOnRetry_zero] at hr
    rw [← Except.ok.inj hr]
    exact hg
  · exact hstored _ _ ((refreshOnRetry_ok hr).2.2.2 (Nat.pos_of_ne_zero hi))

/-- The retry loop over a `buildTxn` that keeps the branch documents and a
completed timestamp of the receiver that is not negative leaves such a
receiver. -/
theorem runLoop_receiver_nonneg (build : Nat → Frame → Except Err (List Op) × Frame)
    (gens : List generationDoc)
    (hbuild : ∀ i f, f.st.generationsC = gens → 0 ≤ f.g.doc.Completed →
      (build i f).2.st.generationsC = gens ∧ 0 ≤ (build i f).2.g.doc.Completed) :
    ∀ n i f, f.st.generationsC = gens → 0 ≤ f.g.doc.Completed →
      0 ≤ (runLoop Frame.st Frame.setSt build n i f).2.g.doc.Completed := by
  intro n
  induction n with
  | zero => exact fun i f _ hg => hg
  | succ n ih =>
    intro i f hgens hg
    obtain ⟨h1, h2⟩ := hbuild i f hgens hg
    generalize hb : build i f = r at h1 h2
    obtain ⟨res, f1⟩ := r
    cases res with
    | error e =>
      by_cases he : e = Err.ErrNoOperations
      · subst he
        rw [runLoop_step_noop Frame.st Frame.setSt build n i f f1 hb]
        exact h2
      · rw [runLoop_step_error Frame.st Frame.setSt build n i f f1 e hb he]
        exact h2
    | ok ops =>
      cases ht : RunTransaction ops f1.st with
      | none =>
        rw [runLoop_step_retry Frame.st Frame.setSt build n i f f1 ops hb ht]
        exact ih (i + 1) f1 h1 h2
      | some st2 =>
        rw [runLoop_step_ok Frame.st Frame.setSt build n i f f1 ops st2 hb ht]
        exact h2

theorem assign_build_nonneg {build : Nat → Frame → Except Err (List Op) × Frame}
    (hshape : ∀ i f, (build i f).2 = f ∨ refreshOnRetry i f = .ok (build i f).2)
    (gens : List generationDoc)
    (hstored : ∀ s : State, s.generationsC = gens →
      ∀ id d, s.findId id = some d → 0 ≤ d.Completed)
    (i : Nat) (f : Frame) (hgens : f.st.generationsC = gens) (hg : 0 ≤ f.g.doc.Completed) :
    (build i f).2.st.generationsC = gens ∧ 0 ≤ (build i f).2.g.doc.Completed := by
  rcases hshape i f with h | h
  · rw [h]
    exact ⟨hgens, hg⟩
  · refine ⟨by rw [(refreshOnRetry_ok h).1]; exact hgens, ?_⟩
    exact refreshOnRetry_nonneg h (hstored f.st hgens) hg

theorem commit_build_nonneg (userName : String) (gens : List generationDoc)
    (hstored : ∀ s : State, s.generationsC = gens →
      ∀ id d, s.findId id = some d → 0 ≤ d.Completed)
    (i : Nat) (f : Frame) (hgens : f.st.generationsC = gens) (hg : 0 ≤ f.g.doc.Completed) :
    (commitBuildTxn userName i f).2.st.generationsC = gens ∧
      0 ≤ (commitBuildTxn userName i f).2.g.doc.Completed := by
  obtain ⟨-, hfr⟩ := commitBuildTxn_frame userName i f
  refine ⟨by rw [hfr]; exact hgens, ?_⟩
  rcases commitBuildTxn_cases userName i f with ⟨e, -, -, hb⟩ | ⟨f1, hr, hc⟩
  · rw [hb]
    exact hg
  · have h1 := refreshOnRetry_nonneg hr (hstored f.st hgens) hg
    rcases hc with ⟨-, -, hb⟩ | ⟨-, -, hb⟩ | ⟨-, -, hb⟩ | ⟨-, now, -, hcase⟩
    · rw [hb]; exact h1
    · rw [hb]; exact h1
    · rw [hb]; exact h1
    · unfold CommitOpenCase at hcase
      rcases hcase with ⟨-, hb⟩ | ⟨-, -, -, hb⟩ | ⟨-, -, -, hb⟩ | ⟨-, -, hb⟩ <;>
        (rw [hb]; exact h1)

/-- A call through a receiver whose completed timestamp is not negative, in a
store whose documents have none that is negative, leaves such a receiver. -/
theorem Call_receiver_nonneg (c : Call) (g : Generation) (st : State)
    (hstored : ∀ id d, st.findId id = some d → 0 ≤ d.Completed)
    (hg : 0 ≤ g.doc.Completed) : 0 ≤ (c.run g st).1.doc.Completed := by
  have hs : ∀ s : State, s.generationsC = st.generationsC →
      ∀ id d, s.findId id = some d → 0 ≤ d.Completed := by
    intro s hsg id d hd
    rw [findId_congr hsg] at hd
    exact hstored id d hd
  cases c with
  | assignApplication a =>
    exact runLoop_receiver_nonneg (assignApplicationBuildTxn a) st.generationsC
      (assign_build_nonneg (fun i f => by
        rcases assignApplicationBuildTxn_shape a i f with h | h
        · exact Or.inl h.1
        · exact Or.inr h.1) st.generationsC hs) st.nrRetries 0 ⟨g, st, 0⟩ rfl hg
  | assignUnit u =>
    show 0 ≤ (g.AssignUnit u st).g.doc.Completed
    unfold Generation.AssignUnit
    cases hu : UnitApplication u with
    | error e => exact hg
    | ok app =>
      exact runLoop_receiver_nonneg (assignUnitBuildTxn app u) st.generationsC
        (assign_build_nonneg (fun i f => by
          rcases assignUnitBuildTxn_shape app u i f with h | h
          · exact Or.inl h.1
          · exact Or.inr h.1) st.generationsC hs) st.nrRetries 0 ⟨g, st, 0⟩ rfl hg
  | assignAllUnits a =>
    exact runLoop_receiver_nonneg (assignAllUnitsBuildTxn a) st.generationsC
      (assign_build_nonneg (fun i f => by
        rcases assignAllUnitsBuildTxn_shape a i f with h | h
        · exact Or.inl h.1
        · exact Or.inr h.1) st.generationsC hs) st.nrRetries 0 ⟨g, st, 0⟩ rfl hg
  | commit user =>
    show 0 ≤ (g.Commit user st).g.doc.Completed
    rw [(Commit_run g user st).2.2]
    exact runLoop_receiver_nonneg (commitBuildTxn user) st.generationsC
      (commit_build_nonneg user st.generationsC hs) st.nrRetries 0 ⟨g, st, 0⟩ rfl hg

theorem Branch_findId {st : State} {name : String} {g : Generation} (hs : st.Sound)
    (hg : st.Branch name = .ok g) : st.findId g.doc.DocId = some g.doc := by
  unfold State.Branch State.getBranchDoc at hg
  cases hf : st.generationsC.find? (fun d => d.Name == name && d.Completed == 0) with
  | none => simp [hf] at hg
  | some d =>
    simp only [hf] at hg
    have hgd : g = ⟨d⟩ := (Except.ok.inj hg).symm
    subst hgd
    exact find_of_mem_nodup st.generationsC d hs.nodup (List.mem_of_find?_eq_some hf)

theorem Refresh_findId {st : State} {g g2 : Generation} (hr : g.Refresh st = .ok g2) :
    st.findId g2.doc.DocId = some g2.doc := by
  unfold Generation.Refresh at hr
  cases hf : st.findId g.doc.DocId with
  | none => simp [hf] at hr
  | some d =>
    simp only [hf] at hr
    have hgd := (Except.ok.inj hr).symm
    subst hgd
    show st.findId d.DocId = some d
    rw [findId_docId hf]
    exact hf

/-- In every run of the system no receiver a client holds has a negative
completed timestamp. -/
theorem SysReachable.receivers_nonneg {sys : System} (h : SysReachable sys) :
    ∀ g ∈ sys.hs, 0 ≤ g.doc.Completed := by
  induction h with
  | init st hgen hclock => exact fun g hg => by cases hg
  | env sys st2 _ hgen hseq hclock ih => exact ih
  | addGeneration sys name user _ ih => exact ih
  | branch sys name g h hg ih =>
    intro g2 hg2
    rcases List.mem_append.mp hg2 with h2 | h2
    · exact ih g2 h2
    · rw [List.mem_singleton] at h2
      rw [h2]
      exact (h.sound.1.docs _ _ (Branch_findId h.sound.1 hg)).1
  | refresh sys i g g2 h hi hr ih =>
    intro g3 hg3
    rcases List.mem_or_eq_of_mem_set hg3 with h2 | h2
    · exact ih g3 h2
    · rw [h2]
      exact (h.sound.1.docs _ _ (Refresh_findId hr)).1
  | call sys i g c h hi ih =>
    intro g3 hg3
    rcases List.mem_or_eq_of_mem_set hg3 with h2 | h2
    · exact ih g3 h2
    · rw [h2]
      exact Call_receiver_nonneg c g sys.st (fun id d hd => (h.sound.1.docs id d hd).1)
        (ih g (List.getElem?_mem hi))

theorem sysTwoStaged_reachable : SysReachable sysTwoStaged :=
  sysCommitted_run.reaches sysCommitted_reachable

/-- C15. `IsCompleted` is true if and only if `CheckNotComplete` returns an
error, for every document whose completed timestamp is not negative, whatever
its generation id. In every run of the system every stored document and every
`Generation` a client holds is such a document (the completed timestamp is 0 as
inserted, or the controller time of the commit), so `Commit`, which tests
`IsCompleted`, and the assignments, which test `CheckNotComplete`, treat the
same branches as completed. -/
theorem C15_IsCompleted_iff_CheckNotComplete (sys : System) (hr : SysReachable sys) :
    (∀ g : Generation, 0 ≤ g.doc.Completed →
      (g.IsCompleted = true ↔ g.CheckNotComplete ≠ none)) ∧
    (∀ id d, sys.st.findId id = some d →
      0 ≤ d.Completed ∧
        (Generation.IsCompleted ⟨d⟩ = true ↔ Generation.CheckNotComplete ⟨d⟩ ≠ none)) ∧
    (∀ g ∈ sys.hs,
      0 ≤ g.doc.Completed ∧ (g.IsCompleted = true ↔ g.CheckNotComplete ≠ none)) := by
  refine ⟨fun g hg => IsCompleted_iff_CheckNotComplete g hg, ?_, ?_⟩
  · intro id d hd
    have h0 := (hr.sound.1.docs id d hd).1
    exact ⟨h0, IsCompleted_iff_CheckNotComplete ⟨d⟩ h0⟩
  · intro g hg
    have h0 := hr.receivers_nonneg g hg
    exact ⟨h0, IsCompleted_iff_CheckNotComplete g h0⟩

/-- C15 at the system that holds the committed branch "db-upgrade" and the open
branch "pg-upgrade", each with a receiver: the two tests agree on both stored
documents, completed and open. -/
theorem C15_IsCompleted_iff_CheckNotComplete_witness :
    SysReachable sysTwoStaged ∧
    ((∀ g : Generation, 0 ≤ g.doc.Completed →
      (g.IsCompleted = true ↔ g.CheckNotComplete ≠ none)) ∧
    (∀ id d, sysTwoStaged.st.findId id = some d →
      0 ≤ d.Completed ∧
        (Generation.IsCompleted ⟨d⟩ = true ↔ Generation.CheckNotComplete ⟨d⟩ ≠ none)) ∧
    (∀ g ∈ sysTwoStaged.hs,
      0 ≤ g.doc.Completed ∧ (g.IsCompleted = true ↔ g.CheckNotComplete ≠ none))) ∧
    sysTwoStaged.st.findId "0" = some dbDone ∧
    Generation.IsCompleted ⟨dbDone⟩ = true ∧
    Generation.CheckNotComplete ⟨dbDone⟩ = some (Err.New "branch was already committed") ∧
    sysTwoStaged.st.findId "1" = some (pgNew.assigned [("pg", [])]) ∧
    Generation.IsCompleted ⟨pgNew.assigned [("pg", [])]⟩ = false ∧
    Generation.CheckNotComplete ⟨pgNew.assigned [("pg", [])]⟩ = none ∧
    sysTwoStaged.hs.length = 2 :=
  ⟨sysTwoStaged_reachable, C15_IsCompleted_iff_CheckNotComplete sysTwoStaged
    sysTwoStaged_reachable, by decide, by decide, by decide, by decide, by decide, by decide,
    by decide⟩

end Juju
